import Mathlib

/-!
Verification of the RpnMathParser expression engine.

The development shallowly embeds the C++ sources (`rpnmathparser.h` and the
implementation file): `MathParserModel`'s validation, tokenization,
reverse-Polish-notation conversion and evaluation, together with the facade
`RpnMathParser::parseString`.

Modelling conventions:
* C `double` values are modelled exactly: a finite value is an unnormalized
  fraction of machine-unbounded integers (`Q0`), and the IEEE special values
  `+inf`, `-inf` and `NaN` are explicit constructors of `MVal`.  Arithmetic on
  fractions is exact (no rounding); the IEEE special-value rules of the C
  arithmetic operators are kept.
* The transcendental library functions `sin`, `cos`, `tan`, `log` and `sqrt`
  (whose real values are not rational) are parameters of the semantics,
  collected in `FnSem`; every theorem quantifies over them or instantiates
  them with an explicit model.  `fabs` and `pow` are modelled directly.
* C strings are `List Char`; reading at an index past the end yields the
  terminator `nulChar`, like reading the `\0` of a C buffer.
* Functions whose C++ original can loop forever or touch invalid memory
  (iterator/array misuse) return `Option`, `none` marking exactly the
  executions that are undefined or non-terminating in C++.
-/

namespace Rpn

/-- Exact unnormalized fraction `n / d` standing for a finite C `double`.
The arithmetic below never normalizes, so all operations are computable by
the kernel. -/
structure Q0 where
  n : ℤ
  d : ℤ
deriving DecidableEq

/-- Embed an integer as a fraction with denominator one. -/
def Q0.ofInt (z : ℤ) : Q0 := ⟨z, 1⟩

/-- Zero test of a fraction (the denominator of a parsed literal is a power
of ten, hence nonzero). -/
def Q0.isZero (a : Q0) : Bool := a.n = 0

/-- Negativity test: `n/d < 0` iff `n * d < 0`. -/
def Q0.isNeg (a : Q0) : Bool := a.n * a.d < 0

/-- Positivity test: `0 < n/d` iff `0 < n * d`. -/
def Q0.isPos (a : Q0) : Bool := 0 < a.n * a.d

/-- Value-one test: `n/d = 1` iff `n = d` (nonzero). -/
def Q0.isOne (a : Q0) : Bool := a.n = a.d ∧ a.n ≠ 0

/-- Test `|n/d| < 1`. -/
def Q0.absLtOne (a : Q0) : Bool := a.n.natAbs < a.d.natAbs

/-- Test `|n/d| = 1`. -/
def Q0.absEqOne (a : Q0) : Bool := a.n.natAbs = a.d.natAbs ∧ a.n ≠ 0

/-- Exact addition of fractions. -/
def Q0.add (a b : Q0) : Q0 := ⟨a.n * b.d + b.n * a.d, a.d * b.d⟩

/-- Exact subtraction of fractions. -/
def Q0.sub (a b : Q0) : Q0 := ⟨a.n * b.d - b.n * a.d, a.d * b.d⟩

/-- Exact multiplication of fractions. -/
def Q0.mul (a b : Q0) : Q0 := ⟨a.n * b.n, a.d * b.d⟩

/-- Exact division of fractions (the zero-divisor case is filtered out by
`mvDiv` before this is reached). -/
def Q0.div (a b : Q0) : Q0 := ⟨a.n * b.d, a.d * b.n⟩

/-- Absolute value, modelling `fabs`. -/
def Q0.abs (a : Q0) : Q0 := ⟨(a.n.natAbs : ℤ), (a.d.natAbs : ℤ)⟩

/-- Natural power by repeated multiplication. -/
def Q0.powNat (a : Q0) : ℕ → Q0
  | 0 => ⟨1, 1⟩
  | k + 1 => (Q0.powNat a k).mul a

/-- Reciprocal of a fraction. -/
def Q0.inv (a : Q0) : Q0 := ⟨a.d, a.n⟩

/-- Integrality test of the fraction (the exponent of `pow` is computed on
the exact value, as `pow` does on doubles such as `2.0`). -/
def Q0.isInt (a : Q0) : Bool := a.d ≠ 0 ∧ a.n % a.d = 0

/-- The integer value of an integral fraction. -/
def Q0.toInt (a : Q0) : ℤ := a.n / a.d

/-- Model of a C `double` value: an exact finite fraction or one of the IEEE
special values. -/
inductive MVal where
  | num (q : Q0)
  | pinf
  | ninf
  | nan
deriving DecidableEq

/-- NaN self-inequality test `result != result` used by `parseString`. -/
def MVal.isNan : MVal → Bool
  | .nan => true
  | _ => false

/-- Semantics of the transcendental library calls appearing in
`calculateFunction`: their real values are irrational in general, so they
are kept abstract and every theorem holds for all of them.  `lnF` is used
for both `ln_t` and `log_t` (the C++ routes both through `log`), and
`powNI` is the value of `pow(a, b)` for a finite positive base and a finite
non-integral exponent (the only case of `pow` whose value is irrational). -/
structure FnSem where
  sinF : MVal → MVal
  cosF : MVal → MVal
  tanF : MVal → MVal
  lnF : MVal → MVal
  sqrtF : MVal → MVal
  powNI : Q0 → Q0 → MVal

/-- IEEE-style addition on modelled doubles. -/
def mvAdd : MVal → MVal → MVal
  | .nan, _ => .nan
  | _, .nan => .nan
  | .pinf, .ninf => .nan
  | .ninf, .pinf => .nan
  | .pinf, _ => .pinf
  | .ninf, _ => .ninf
  | .num _, .pinf => .pinf
  | .num _, .ninf => .ninf
  | .num a, .num b => .num (a.add b)

/-- IEEE-style subtraction on modelled doubles. -/
def mvSub : MVal → MVal → MVal
  | .nan, _ => .nan
  | _, .nan => .nan
  | .pinf, .pinf => .nan
  | .ninf, .ninf => .nan
  | .pinf, _ => .pinf
  | .ninf, _ => .ninf
  | .num _, .pinf => .ninf
  | .num _, .ninf => .pinf
  | .num a, .num b => .num (a.sub b)

/-- IEEE-style multiplication on modelled doubles. -/
def mvMul : MVal → MVal → MVal
  | .nan, _ => .nan
  | _, .nan => .nan
  | .pinf, .pinf => .pinf
  | .pinf, .ninf => .ninf
  | .ninf, .pinf => .ninf
  | .ninf, .ninf => .pinf
  | .pinf, .num b => if b.isZero then .nan else if b.isNeg then .ninf else .pinf
  | .ninf, .num b => if b.isZero then .nan else if b.isNeg then .pinf else .ninf
  | .num a, .pinf => if a.isZero then .nan else if a.isNeg then .ninf else .pinf
  | .num a, .ninf => if a.isZero then .nan else if a.isNeg then .pinf else .ninf
  | .num a, .num b => .num (a.mul b)

/-- IEEE-style division on modelled doubles (division by `+0` gives a signed
infinity, `0/0` gives NaN). -/
def mvDiv : MVal → MVal → MVal
  | .nan, _ => .nan
  | _, .nan => .nan
  | .pinf, .pinf => .nan
  | .pinf, .ninf => .nan
  | .ninf, .pinf => .nan
  | .ninf, .ninf => .nan
  | .pinf, .num b => if b.isNeg then .ninf else .pinf
  | .ninf, .num b => if b.isNeg then .pinf else .ninf
  | .num _, .pinf => .num ⟨0, 1⟩
  | .num _, .ninf => .num ⟨0, 1⟩
  | .num a, .num b =>
    if b.isZero then
      if a.isZero then .nan else if a.isNeg then .ninf else .pinf
    else .num (a.div b)

/-- Model of `fabs`. -/
def mvAbs : MVal → MVal
  | .nan => .nan
  | .pinf => .pinf
  | .ninf => .pinf
  | .num a => .num a.abs

/-- Integer-exponent power of a finite value, with C99 `pow(±0, n)`
behaviour at zero bases. -/
def mvPowInt (a : Q0) (z : ℤ) : MVal :=
  if a.isZero then
    if z < 0 then .pinf else .num ⟨0, 1⟩
  else
    if z < 0 then .num ((a.powNat z.natAbs).inv) else .num (a.powNat z.natAbs)

/-- Model of C `pow`, following the C99/IEEE special cases relevant to this
program (`pow(x, 0) = 1` and `pow(1, y) = 1` for every `x`, `y`, including
NaN; infinite operands by magnitude rules; a negative finite base with a
non-integral exponent gives NaN). -/
def mvPow (fs : FnSem) (a b : MVal) : MVal :=
  match b with
  | .num b0 =>
    if b0.isZero then .num ⟨1, 1⟩
    else
      match a with
      | .nan => .nan
      | .pinf => if b0.isNeg then .num ⟨0, 1⟩ else .pinf
      | .ninf =>
        if b0.isInt ∧ b0.toInt % 2 ≠ 0 then
          if b0.isNeg then .num ⟨0, 1⟩ else .ninf
        else
          if b0.isNeg then .num ⟨0, 1⟩ else .pinf
      | .num a0 =>
        if a0.isOne then .num ⟨1, 1⟩
        else if b0.isInt then mvPowInt a0 b0.toInt
        else if a0.isNeg then .nan
        else if a0.isZero then (if b0.isNeg then .pinf else .num ⟨0, 1⟩)
        else FnSem.powNI fs a0 b0
  | .pinf =>
    match a with
    | .nan => .nan
    | .pinf => .pinf
    | .ninf => .pinf
    | .num a0 =>
      if a0.absLtOne then .num ⟨0, 1⟩
      else if a0.absEqOne then .num ⟨1, 1⟩
      else .pinf
  | .ninf =>
    match a with
    | .nan => .nan
    | .pinf => .num ⟨0, 1⟩
    | .ninf => .num ⟨0, 1⟩
    | .num a0 =>
      if a0.absLtOne then .pinf
      else if a0.absEqOne then .num ⟨1, 1⟩
      else .num ⟨0, 1⟩
  | .nan =>
    match a with
    | .num a0 => if a0.isOne then .num ⟨1, 1⟩ else .nan
    | _ => .nan

/-- The lexeme kinds of `MathParserModel::lexeme_type`, in declaration
order. -/
inductive LexType where
  | number
  | x
  | open_p
  | close_p
  | plus
  | minus
  | mult
  | division
  | mod_t
  | pow_t
  | cos_t
  | sin_t
  | tan_t
  | sqrt_t
  | ln_t
  | log_t
  | abs_t
  | sqr_t
deriving DecidableEq

/-- Numeric value of the C++ enum constant (`number = 1`, …, `sqr_t = 18`);
the source compares lexeme types through these values. -/
def LexType.code : LexType → ℕ
  | .number => 1
  | .x => 2
  | .open_p => 3
  | .close_p => 4
  | .plus => 5
  | .minus => 6
  | .mult => 7
  | .division => 8
  | .mod_t => 9
  | .pow_t => 10
  | .cos_t => 11
  | .sin_t => 12
  | .tan_t => 13
  | .sqrt_t => 14
  | .ln_t => 15
  | .log_t => 16
  | .abs_t => 17
  | .sqr_t => 18

/-- The `MathParserModel::lexeme` structure. -/
structure Lexeme where
  value : MVal
  priority : ℕ
  type : LexType
deriving DecidableEq

/-- The messages written to the shared error string, kept structured; the
exact C++ text (with its embedded decimal positions) is produced by
`ErrMsg.render`. -/
inductive ErrMsg where
  | negExp (pos : ℕ)
  | missingArg (i j : ℕ)
  | mismatched
  | emptyExpr
  | badDot (pos : ℕ)
  | badExp (pos : ℕ)
  | badOrder
  | fallback
  | nanMsg
  | success
deriving DecidableEq

/-- The exact message text of the C++ implementation, as a character list
(numbers are printed in decimal, as `QString::number` does). -/
def ErrMsg.render : ErrMsg → List Char
  | .negExp p =>
    String.toList ("Error! Missing parentheses when raising to a negative power! Location: ")
      ++ Nat.toDigits 10 p ++ String.toList (" character")
  | .missingArg i j =>
    String.toList ("Error! Missing function argument! Location between: ")
      ++ Nat.toDigits 10 i ++ String.toList (" and ") ++ Nat.toDigits 10 j
  | .mismatched =>
    String.toList ("Error: Mismatched parentheses! Possibly a missing closing parenthesis")
  | .emptyExpr => String.toList ("Error: Empty expression")
  | .badDot p =>
    String.toList ("Error! The expression contains a number with incorrect symbols after the dot! Location: ")
      ++ Nat.toDigits 10 p
  | .badExp p =>
    String.toList ("Error! Invalid exponential form! Location: ")
      ++ Nat.toDigits 10 p ++ String.toList ("!")
  | .badOrder =>
    String.toList ("Error: The input contains incorrect symbols or is incorrectly composed! Position")
  | .fallback => String.toList ("Error: Incorrect expression input!")
  | .nanMsg =>
    String.toList ("Returned NaN, likely there was an invalid input (e.g., presence of real and imaginary parts)!")
  | .success => String.toList ("Success!")

/-- The validation messages (everything the validator can leave in the error
string, as opposed to the evaluator's NaN report and the success marker). -/
def ErrMsg.isValidation : ErrMsg → Bool
  | .negExp _ => true
  | .missingArg _ _ => true
  | .mismatched => true
  | .emptyExpr => true
  | .badDot _ => true
  | .badExp _ => true
  | .badOrder => true
  | .fallback => true
  | .nanMsg => false
  | .success => false

/-- The terminator of a C string. -/
def nulChar : Char := Char.ofNat 0

/-- Reading `input[i]`: past the end of the character list the C buffer
holds the terminator. -/
def chAt (l : List Char) (i : ℕ) : Char := l.getD i nulChar

/-- ASCII digit test, as the source's `c >= '0' && c <= '9'`. -/
def isDigitC (c : Char) : Bool := '0' ≤ c ∧ c ≤ '9'

/-- `MathParserModel::removeSpaces`: the in-place compaction loop keeps every
character other than `' '` in order. -/
def removeSpaces : List Char → List Char
  | [] => []
  | c :: cs => if c = ' ' then removeSpaces cs else c :: removeSpaces cs

/-- First scan of `checkCorrectParentheses`: reject `^` immediately followed
by `-` (the position reported is the index of the `^` plus one, counted in
the scanned buffer). -/
def ccpNegExp : List Char → ℕ → Option ErrMsg
  | c1 :: c2 :: rest, i =>
    if c1 = '^' ∧ c2 = '-' then some (.negExp (i + 1))
    else ccpNegExp (c2 :: rest) (i + 1)
  | _, _ => none

/-- Second scan of `checkCorrectParentheses`: empty pair `()` fails, and the
running counter (`+1` on `(`, `-1` on `)`) must end at zero; a negative
intermediate value is not checked. -/
def ccpBalance : List Char → ℕ → ℤ → Bool × Option ErrMsg
  | [], _, k => (k = 0, none)
  | c :: rest, i, k =>
    if c = '(' ∧ chAt rest 0 = ')' then (false, some (.missingArg i (i + 1)))
    else if c = '(' then ccpBalance rest (i + 1) (k + 1)
    else if c = ')' then ccpBalance rest (i + 1) (k - 1)
    else ccpBalance rest (i + 1) k

/-- `MathParserModel::checkCorrectParentheses`. -/
def checkCorrectParentheses (l : List Char) : Bool × Option ErrMsg :=
  match ccpNegExp l 0 with
  | some e => (false, some e)
  | none => ccpBalance l 0 0

/-- `MathParserModel::isSign`: consume a `+` or `-`. -/
def isSign (l : List Char) (i : ℕ) : Bool × ℕ :=
  if chAt l i = '-' ∨ chAt l i = '+' then (true, i + 1) else (false, i)

/-- `MathParserModel::isOperator`: a sign, or one of `* / ^`. -/
def isOperator (l : List Char) (i : ℕ) : Bool × ℕ :=
  match isSign l i with
  | (true, j) => (true, j)
  | (false, j) =>
    if chAt l j = '*' ∨ chAt l j = '/' ∨ chAt l j = '^' then (true, j + 1)
    else (false, j)

/-- Advance past a run of ASCII digits. -/
def skipDigits (fuel : ℕ) (l : List Char) (i : ℕ) : ℕ :=
  match fuel with
  | 0 => i
  | f + 1 => if isDigitC (chAt l i) then skipDigits f l (i + 1) else i

/-- `MathParserModel::checkExponentionalForm`: an optional `e`/`E`, optional
sign, then at least one digit. -/
def checkExponentionalForm (l : List Char) (i : ℕ) : Bool × ℕ × Option ErrMsg :=
  if chAt l i = 'e' ∨ chAt l i = 'E' then
    let i1 := i + 1
    let i2 := if chAt l i1 = '-' ∨ chAt l i1 = '+' then i1 + 1 else i1
    if isDigitC (chAt l i2) then (true, skipDigits (l.length + 1) l i2, none)
    else (false, i2, some (.badExp (i2 + 1)))
  else (true, i, none)

/-- The digit-and-dot loop of `MathParserModel::isNumber`: fails on a dot
not followed by a digit or on a second dot. -/
def numLoop (fuel : ℕ) (l : List Char) (i : ℕ) (wasDot : Bool) :
    Bool × ℕ × Option ErrMsg :=
  match fuel with
  | 0 => (true, i, none)
  | f + 1 =>
    if isDigitC (chAt l i) ∨ chAt l i = '.' then
      if chAt l i = '.' ∧ (¬ isDigitC (chAt l (i + 1)) ∨ wasDot) then
        (false, i, some (.badDot (i + 1)))
      else numLoop f l (i + 1) (wasDot ∨ chAt l i = '.')
    else (true, i, none)

/-- `MathParserModel::isNumber`. -/
def isNumber (l : List Char) (i : ℕ) : Bool × ℕ × Option ErrMsg :=
  if isDigitC (chAt l i) then
    match numLoop (l.length + 1) l i false with
    | (false, j, m) => (false, j, m)
    | (true, j, _) => checkExponentionalForm l j
  else (false, i, none)

/-- Longest function-name match of `MathParserModel::isFunction` (also the
match order of `addFunctionToList`): the three-letter names, then `sqrt`,
then `sqr`, then `ln`; returns the name's lexeme type and length. -/
def funcNameAt (l : List Char) (i : ℕ) : Option (LexType × ℕ) :=
  let rest := l.drop i
  if List.isPrefixOf (String.toList ("cos")) rest then some (.cos_t, 3)
  else if List.isPrefixOf (String.toList ("sin")) rest then some (.sin_t, 3)
  else if List.isPrefixOf (String.toList ("tan")) rest then some (.tan_t, 3)
  else if List.isPrefixOf (String.toList ("log")) rest then some (.log_t, 3)
  else if List.isPrefixOf (String.toList ("abs")) rest then some (.abs_t, 3)
  else if List.isPrefixOf (String.toList ("sqrt")) rest then some (.sqrt_t, 4)
  else if List.isPrefixOf (String.toList ("sqr")) rest then some (.sqr_t, 3)
  else if List.isPrefixOf (String.toList ("ln")) rest then some (.ln_t, 2)
  else none

/-- Head of the list is not a digit (or the list is empty): the condition
under which a digit scan stops exactly at a boundary. -/
def NotDigitHead : List Char → Prop
  | [] => True
  | c :: _ => isDigitC c = false

/-- No character at the head can extend a floating-point literal: the
boundary condition after a numeric literal. -/
def NumBoundary : List Char → Prop
  | [] => True
  | c :: _ => isDigitC c = false ∧ c ≠ '.' ∧ c ≠ 'e' ∧ c ≠ 'E'

mutual

/-- `MathParserModel::isFunction`: a known name, a `(` (consumed by the
post-increment even when absent), a nested order check bounded by the
matching `)`, then that `)`. -/
def isFunction (fuel : ℕ) (l : List Char) (i : ℕ) (em : Option ErrMsg) :
    Bool × ℕ × Option ErrMsg :=
  match fuel with
  | 0 => (false, i, em)
  | f + 1 =>
    match funcNameAt l i with
    | none => (false, i, em)
    | some (_, k) =>
      if chAt l (i + k) = '(' then
        match checkOperatorAndOperandsOrder f l (i + k + 1) em true true true false 1 with
        | (true, j2, em2) =>
          if chAt l j2 = ')' then (true, j2 + 1, em2) else (false, j2, em2)
        | (false, j2, em2) => (false, j2, em2)
      else (false, i + k + 1, em)

/-- `MathParserModel::checkOperatorAndOperandsOrder`, with the loop expressed
as fuelled recursion; `aS`, `aOd`, `aOp` are `allowSign`, `allowOperand`,
`allowOperator` and `p` the nested-parenthesis counter of the
inside-a-function mode.  The returned message is the content of the shared
error string. -/
def checkOperatorAndOperandsOrder (fuel : ℕ) (l : List Char) (i : ℕ)
    (em : Option ErrMsg) (inside : Bool) (aS aOd aOp : Bool) (p : ℤ) :
    Bool × ℕ × Option ErrMsg :=
  match fuel with
  | 0 => (false, i, em)
  | f + 1 =>
    if chAt l i = nulChar then (!aOd, i, em)
    else if chAt l i = '(' ∨ chAt l i = ')' then
      let aS' := if chAt l i = '(' then true else aS
      let p' := if inside then (if chAt l i = '(' then p + 1 else p - 1) else p
      if inside ∧ p' = 0 then (!aOd, i, em)
      else checkOperatorAndOperandsOrder f l (i + 1) em inside aS' aOd aOp p'
    else if aS ∧ (isSign l i).1 then
      checkOperatorAndOperandsOrder f l (isSign l i).2 em inside false true aOp p
    else
      match (if aOd then some (isNumber l i) else none) with
      | some (true, j, _) =>
        checkOperatorAndOperandsOrder f l j em inside aS false true p
      | some (false, j1, m1) =>
        let em1 := match m1 with | some m => some m | none => em
        match isFunction f l j1 em1 with
        | (true, j2, em2) =>
          checkOperatorAndOperandsOrder f l j2 em2 inside aS false true p
        | (false, j2, em2) =>
          if aOp ∧ (isOperator l j2).1 then
            checkOperatorAndOperandsOrder f l (isOperator l j2).2 em2 inside aS true false p
          else
            (false, j2, match em2 with | some m => some m | none => some .badOrder)
      | none =>
        if aOp ∧ (isOperator l i).1 then
          checkOperatorAndOperandsOrder f l (isOperator l i).2 em inside aS true false p
        else
          (false, i, match em with | some m => some m | none => some .badOrder)

end

/-- Fuel that is always sufficient for the order check (each loop step or
nested entry consumes at least one character of the buffer). -/
def vFuel (l : List Char) : ℕ := 2 * l.length + 2

/-- `MathParserModel::checkCorrectInput`: strip spaces in place, reject the
empty string, check parentheses, then check the token order from index 0. -/
def checkCorrectInput (l0 : List Char) : Bool × Option ErrMsg :=
  let l := removeSpaces l0
  if l = [] then (false, some .emptyExpr)
  else
    match checkCorrectParentheses l with
    | (false, em) =>
      (false, some ((em.getD .mismatched)))
    | (true, em) =>
      let r := checkOperatorAndOperandsOrder (vFuel l) l 0 em false true true false 1
      (r.1, r.2.2)

/-- Accumulate a run of digits into an integer (most significant first),
returning the value and the remaining characters. -/
def scanMant : List Char → ℤ → ℤ × List Char
  | [], acc => (acc, [])
  | c :: cs, acc =>
    if isDigitC c then scanMant cs (10 * acc + ((c.toNat : ℤ) - ('0'.toNat : ℤ)))
    else (acc, c :: cs)

/-- Accumulate a run of digits, also counting them (for a fractional part). -/
def scanFrac : List Char → ℤ → ℕ → (ℤ × ℕ) × List Char
  | [], acc, k => ((acc, k), [])
  | c :: cs, acc, k =>
    if isDigitC c then scanFrac cs (10 * acc + ((c.toNat : ℤ) - ('0'.toNat : ℤ))) (k + 1)
    else ((acc, k), c :: cs)

/-- Apply a decimal exponent to a fraction. -/
def applyExp10 (q : Q0) (e : ℤ) : Q0 :=
  if e < 0 then ⟨q.n, q.d * (10 : ℤ) ^ e.natAbs⟩ else ⟨q.n * (10 : ℤ) ^ e.natAbs, q.d⟩

/-- Fractional part of the `%le` scan: a dot (consumed even when no digits
follow, as `strtod` does) and a digit run scaling the integer part. -/
def sdFrac (ip : ℤ) : List Char → Q0 × List Char
  | '.' :: cs =>
    let ((fp, k), r) := scanFrac cs 0 0
    ((⟨ip * (10 : ℤ) ^ k + fp, (10 : ℤ) ^ k⟩ : Q0), r)
  | r1 => ((⟨ip, 1⟩ : Q0), r1)

/-- Exponent part of the `%le` scan: `e`/`E`, an optional sign and at least
one digit; consumed only when well formed (otherwise the scan stops before
the marker, as `strtod` backs off). -/
def sdExp (mant : Q0) (r2 : List Char) : Q0 × List Char :=
  match r2 with
  | e :: s :: cs2 =>
    if e = 'e' ∨ e = 'E' then
      if s = '+' ∨ s = '-' then
        match cs2 with
        | d2 :: _ =>
          if isDigitC d2 then
            let (ev, r3) := scanMant cs2 0
            (applyExp10 mant (if s = '-' then -ev else ev), r3)
          else (mant, r2)
        | [] => (mant, r2)
      else if isDigitC s then
        let (ev, r3) := scanMant (s :: cs2) 0
        (applyExp10 mant ev, r3)
      else (mant, r2)
    else (mant, r2)
  | r2 => (mant, r2)

/-- The `sscanf("%le")` call of `addNumberToList`, modelled as strtod-style
longest-match parsing of `digits [ '.' digits ] [ ('e'|'E') [sign] digits ]`
starting at a digit (the tokenizer only reaches it on a digit, `x`, `e` or
`E`; the non-digit starts fail, consuming nothing).  Values are exact. -/
def scanDouble (l : List Char) : Option (Q0 × List Char) :=
  match l with
  | [] => none
  | c :: _ =>
    if ¬ isDigitC c then none
    else
      let (ip, r1) := scanMant l 0
      let (mant, r2) := sdFrac ip r1
      some (sdExp mant r2)

/-- The `sscanf("%d")` fallback of `addNumberToList`: an optional sign and
digits; on matching failure nothing is consumed and the target keeps its
initial value `0`. -/
def scanIntFallback (l : List Char) : ℤ × List Char :=
  match l with
  | [] => (0, [])
  | s :: cs =>
    if s = '-' ∨ s = '+' then
      match cs with
      | d :: _ =>
        if isDigitC d then
          let (v, r) := scanMant cs 0
          ((if s = '-' then -v else v), r)
        else (0, l)
      | [] => (0, l)
    else if isDigitC s then
      let (v, r) := scanMant l 0
      (v, r)
    else (0, l)

/-- A number lexeme as built by `addNumberToList`. -/
def numLex (q : Q0) : Lexeme := ⟨.num q, 0, .number⟩

/-- An operator/function/parenthesis lexeme (payload `0`). -/
def opLex (prio : ℕ) (t : LexType) : Lexeme := ⟨.num ⟨0, 1⟩, prio, t⟩

/-- `MathParserModel::parseStringIntoLexemes` (with `addNumberToList`,
`addOperatorToList`, `addFunctionToList`, `addParenthesesToList` inlined),
as fuelled recursion on the remaining characters.  `none` models the
executions that are undefined in C++: a character matched by no branch (the
loop then never advances) and the `(--lexemesList.end())` access on an
empty list. -/
def parseStringIntoLexemes (fuel : ℕ) (rem : List Char) (acc : List Lexeme)
    (unary first : Bool) : Option (List Lexeme) :=
  match fuel with
  | 0 => none
  | f + 1 =>
    match rem with
    | [] => some acc
    | c :: cs =>
      if isDigitC c ∨ c = 'x' ∨ c = 'e' ∨ c = 'E' then
        match scanDouble (c :: cs) with
        | some (q, rest) => parseStringIntoLexemes f rest (acc ++ [numLex q]) unary first
        | none =>
          let (z, rest) := scanIntFallback cs
          match acc.getLast? with
          | none => none
          | some lastLex =>
            parseStringIntoLexemes f rest
              (acc.dropLast ++ [{ lastLex with value := .num (Q0.ofInt z) }]) unary first
      else if c = '+' ∨ c = '-' ∨ c = '*' ∨ c = '/' ∨ c = '^' then
        if c = '+' ∨ c = '-' then
          let zeroIns : List Lexeme := if unary ∨ first then [numLex ⟨0, 1⟩] else []
          let sgn := if c = '+' then opLex 1 .plus else opLex 1 .minus
          parseStringIntoLexemes f cs (acc ++ zeroIns ++ [sgn]) false false
        else if c = '*' then parseStringIntoLexemes f cs (acc ++ [opLex 2 .mult]) unary first
        else if c = '/' then parseStringIntoLexemes f cs (acc ++ [opLex 2 .division]) unary first
        else parseStringIntoLexemes f cs (acc ++ [opLex 3 .pow_t]) unary first
      else if c = 'a' ∨ c = 's' ∨ c = 'l' ∨ c = 't' ∨ c = 'c' ∨ c = 'm' then
        match funcNameAt (c :: cs) 0 with
        | some (t, k) => parseStringIntoLexemes f ((c :: cs).drop k) (acc ++ [opLex 4 t]) unary first
        | none => none
      else if c = '(' ∨ c = ')' then
        if c = '(' then
          let unary' := if chAt cs 0 = '+' ∨ chAt cs 0 = '-' then true else unary
          parseStringIntoLexemes f cs (acc ++ [opLex 0 .open_p]) unary' first
        else parseStringIntoLexemes f cs (acc ++ [opLex 0 .close_p]) unary first
      else none

/-- Tokenize a full (space-free) buffer: `firstSignFlag` is primed from the
first character. -/
def tokenize (l : List Char) : Option (List Lexeme) :=
  parseStringIntoLexemes (l.length + 1) l [] false (chAt l 0 = '-' ∨ chAt l 0 = '+')

/-- `MathParserModel::handleSupportStack`: pop to the output while the
incoming priority is at most the stack top's, then push (the head of each
list is the stack top / most recent output). -/
def handleSupportStack (lex : Lexeme) : List Lexeme → List Lexeme → List Lexeme × List Lexeme
  | [], ready => (lex :: [], ready)
  | s :: sup, ready =>
    if lex.priority ≤ s.priority then handleSupportStack lex sup (s :: ready)
    else (lex :: s :: sup, ready)

/-- `MathParserModel::handleCloseParentheses`: pop to the output until an
open parenthesis is popped; on an exhausted stack the C++ dereferences
`begin()` of an empty list, modelled as `none`. -/
def handleCloseParentheses : List Lexeme → List Lexeme → Option (List Lexeme × List Lexeme)
  | [], _ => none
  | s :: sup, ready =>
    if s.type = .open_p then some (sup, ready)
    else handleCloseParentheses sup (s :: ready)

/-- The dispatch loop of `makeReversePolishNotationStack` over the lexeme
list, carrying the support stack and the (reversed) output. -/
def rpnLoop : List Lexeme → List Lexeme → List Lexeme → Option (List Lexeme × List Lexeme)
  | [], sup, ready => some (sup, ready)
  | t :: ts, sup, ready =>
    if t.type = .number ∨ t.type = .x then rpnLoop ts sup (t :: ready)
    else if 5 ≤ t.type.code then
      let (sup', ready') := handleSupportStack t sup ready
      rpnLoop ts sup' ready'
    else if t.type = .open_p then rpnLoop ts (t :: sup) ready
    else if t.type = .close_p then
      match handleCloseParentheses sup ready with
      | none => none
      | some (sup', ready') => rpnLoop ts sup' ready'
    else rpnLoop ts sup ready

/-- Drain the support stack onto the output, as the final loop of
`makeReversePolishNotationStack` does. -/
def drainSupport : List Lexeme → List Lexeme → List Lexeme
  | [], ready => ready
  | s :: sup, ready => drainSupport sup (s :: ready)

/-- `MathParserModel::makeReversePolishNotationStack`: build the output,
drain the stack, and reverse, yielding the postfix sequence in reading
order. -/
def makeReversePolishNotationStack (toks : List Lexeme) : Option (List Lexeme) :=
  match rpnLoop toks [] [] with
  | none => none
  | some (sup, ready) => some ((drainSupport sup ready).reverse)

/-- `MathParserModel::calculateFunction`: apply a function-kind lexeme to a
value (`ln` and `log` both via the natural logarithm; `sqr` via
`pow(x, 2)`); any non-function kind yields the initial `0`. -/
def calculateFunction (fs : FnSem) (fLex : Lexeme) (v : MVal) : MVal :=
  match fLex.type with
  | .cos_t => fs.cosF v
  | .sin_t => fs.sinF v
  | .tan_t => fs.tanF v
  | .log_t => fs.lnF v
  | .ln_t => fs.lnF v
  | .sqrt_t => fs.sqrtF v
  | .abs_t => mvAbs v
  | .sqr_t => mvPow fs v (.num ⟨2, 1⟩)
  | _ => .num ⟨0, 1⟩

/-- `MathParserModel::calculateTwoOperators`: apply an operator-kind lexeme
to two operands; any other kind yields the initial `0`. -/
def calculateTwoOperators (fs : FnSem) (a b : MVal) (oLex : Lexeme) : MVal :=
  match oLex.type with
  | .plus => mvAdd a b
  | .minus => mvSub a b
  | .mult => mvMul a b
  | .division => mvDiv a b
  | .pow_t => mvPow fs a b
  | _ => .num ⟨0, 1⟩

/-- One reduction of `calculateFullExpression`'s scan: slide the three-lexeme
window right while the third entry is a number and the second is not a
function (types below 11), then reduce.  Running the window past the end of
the list dereferences `end()` in C++, modelled as `none`. -/
def scanStep (fs : FnSem) (a b c : Lexeme) (rest : List Lexeme) : Option (List Lexeme) :=
  if (c.type = .number ∨ c.type = .x) ∧ b.type.code < 11 then
    match rest with
    | [] => none
    | d :: rest2 => (scanStep fs b c d rest2).map (a :: ·)
  else if 11 ≤ b.type.code then
    some (⟨calculateFunction fs b a.value, 0, .number⟩ :: c :: rest)
  else if 11 ≤ c.type.code then
    some (a :: ⟨calculateFunction fs c b.value, 0, .number⟩ :: rest)
  else
    some (⟨calculateTwoOperators fs a.value b.value c, 0, .number⟩ :: rest)

/-- `MathParserModel::calculateFullExpression`: a single entry is the result;
two entries are a value and a function; otherwise scan, reduce, restart.
An empty sequence dereferences `begin()` of an empty list in C++ (`none`).
Every reduction shortens the list, so fuel equal to the list's length is
always sufficient and the fuel-exhaustion `none` is unreachable from
`requestCalculations`. -/
def calculateFullExpression (fs : FnSem) (fuel : ℕ) (l : List Lexeme) : Option MVal :=
  match l with
  | [] => none
  | [a] => some a.value
  | [a, b] => some (calculateFunction fs b a.value)
  | a :: b :: c :: rest =>
    match fuel with
    | 0 => none
    | f + 1 =>
      match scanStep fs a b c rest with
      | none => none
      | some l2 => calculateFullExpression fs f l2

/-- The mutable fields of `MathParserModel` (the error-string pointer is
modelled by explicit message threading). -/
structure ModelState where
  inputBuf : List Char
  currentIndex : ℕ
  readyStack : List Lexeme
  supportStack : List Lexeme
  lexemesList : List Lexeme
deriving DecidableEq

/-- `MathParserModel::freeData`: reset the index, clear the buffer (a C
string with `input[0] = '\0'` is empty) and empty both stacks and the
lexeme list. -/
def freeData (_ : ModelState) : ModelState := ⟨[], 0, [], [], []⟩

/-- A freshly constructed model (the constructor calls `freeData`). -/
def freshModel : ModelState := freeData ⟨[], 0, [], [], []⟩

/-- `RpnMathParser::parseString` running on an explicit model state:
`setInput` frees the old data, copies at most 255 characters and validates;
on success `requestCalculations` tokenizes (if the lexeme list is empty),
builds the postfix sequence and evaluates, and `parseString` maps a NaN
result to the fixed invalid-input message.  `none` marks the C++ executions
that are undefined (see the component models). -/
def parseStringFrom (fs : FnSem) (st : ModelState) (l0 : List Char) :
    Option (MVal × ErrMsg) :=
  let st1 := freeData st
  let raw := l0.take 255
  match checkCorrectInput raw with
  | (false, em) => some (.nan, em.getD .fallback)
  | (true, _) =>
    let stripped := removeSpaces raw
    match (if st1.lexemesList = [] then tokenize stripped else some st1.lexemesList) with
    | none => none
    | some toks =>
      match makeReversePolishNotationStack toks with
      | none => none
      | some post =>
        match calculateFullExpression fs post.length post with
        | none => none
        | some v => if v.isNan then some (.nan, .nanMsg) else some (v, .success)

/-- `RpnMathParser::parseString`: each call owns a fresh model. -/
def parseString (fs : FnSem) (l0 : List Char) : Option (MVal × ErrMsg) :=
  parseStringFrom fs freshModel l0

/-- A concrete transcendental model used to instantiate theorems: every
abstract call yields NaN except `sqrt`, which is NaN exactly on negative
arguments (as the C library guarantees), `+inf` at `+inf`, and an
unspecified placeholder value elsewhere. -/
def fsW : FnSem where
  sinF := fun _ => .nan
  cosF := fun _ => .nan
  tanF := fun _ => .nan
  lnF := fun _ => .nan
  sqrtF := fun v =>
    match v with
    | .num q => if q.isNeg then .nan else .num ⟨0, 1⟩
    | .pinf => .pinf
    | _ => .nan
  powNI := fun _ _ => .nan

/-- A lexeme holding an already-computed value (the form reductions leave
in place of a reduced unit; `numLex q` is `valLex (.num q)`). -/
def valLex (v : MVal) : Lexeme := ⟨v, 0, .number⟩

/-- `scanStep` on a whole list (defined for three or more entries). -/
def scanStepL (fs : FnSem) : List Lexeme → Option (List Lexeme)
  | a :: b :: c :: rest => scanStep fs a b c rest
  | _ => none

/-- The evaluator run with its canonical (always sufficient) fuel. -/
def calcN (fs : FnSem) (l : List Lexeme) : Option MVal :=
  calculateFullExpression fs l.length l

/-- Lists of pure number lexemes (already-reduced prefixes of the scan). -/
def allNumL (ns : List Lexeme) : Prop := ∀ x ∈ ns, x.type = .number

/-!
### The reference side: abstract syntax, reference evaluator, and the
grammar of syntactically valid inputs

The reference evaluator evaluates an abstract syntax tree directly, with
the semantics the specification documents: all binary operators, `^`
included, group left-associatively (sections 4.4 and 8), `ln` and `log`
are both the natural logarithm (section 4.5), and a leading sign or a sign
after `(` acts on an implicit zero (section 4.3).
-/

/-- Binary operators of the expression language. -/
inductive BinOp where
  | add
  | sub
  | mul
  | div
  | pow
deriving DecidableEq

/-- The eight supported functions. -/
inductive FuncK where
  | fsin
  | fcos
  | ftan
  | fln
  | flog
  | fsqrt
  | fabs
  | fsqr
deriving DecidableEq

/-- Source spelling of a function name. -/
def fname : FuncK → List Char
  | .fsin => String.toList ("sin")
  | .fcos => String.toList ("cos")
  | .ftan => String.toList ("tan")
  | .fln => String.toList ("ln")
  | .flog => String.toList ("log")
  | .fsqrt => String.toList ("sqrt")
  | .fabs => String.toList ("abs")
  | .fsqr => String.toList ("sqr")

/-- Lexeme type of a function. -/
def ftype : FuncK → LexType
  | .fsin => .sin_t
  | .fcos => .cos_t
  | .ftan => .tan_t
  | .fln => .ln_t
  | .flog => .log_t
  | .fsqrt => .sqrt_t
  | .fabs => .abs_t
  | .fsqr => .sqr_t

/-- Abstract syntax of expressions: literals, function application, binary
operations, and the unary signs allowed at the start of a
(sub)expression. -/
inductive AST where
  | lit (q : Q0)
  | fn (f : FuncK) (e : AST)
  | bin (o : BinOp) (e1 e2 : AST)
  | neg (e : AST)
  | pos (e : AST)
deriving DecidableEq

/-- Reference semantics of a binary operator. -/
def refBin (fs : FnSem) : BinOp → MVal → MVal → MVal
  | .add => mvAdd
  | .sub => mvSub
  | .mul => mvMul
  | .div => mvDiv
  | .pow => mvPow fs

/-- Reference semantics of a function (`ln` and `log` are both the natural
logarithm; `sqr` is squaring). -/
def refApply (fs : FnSem) : FuncK → MVal → MVal
  | .fsin => fs.sinF
  | .fcos => fs.cosF
  | .ftan => fs.tanF
  | .fln => fs.lnF
  | .flog => fs.lnF
  | .fsqrt => fs.sqrtF
  | .fabs => mvAbs
  | .fsqr => fun v => mvPow fs v (.num ⟨2, 1⟩)

/-- The independent reference evaluator: direct structural evaluation of
the syntax tree (the unary signs act on an implicit zero, exactly as the
specification's tokenization contract prescribes). -/
def refEval (fs : FnSem) : AST → MVal
  | .lit q => .num q
  | .fn f e => refApply fs f (refEval fs e)
  | .bin o a b => refBin fs o (refEval fs a) (refEval fs b)
  | .neg e => mvSub (.num ⟨0, 1⟩) (refEval fs e)
  | .pos e => mvAdd (.num ⟨0, 1⟩) (refEval fs e)

/-- The operator lexeme of a binary operator (priorities as assigned by
`addOperatorToList`). -/
def opLexOf : BinOp → Lexeme
  | .add => opLex 1 .plus
  | .sub => opLex 1 .minus
  | .mul => opLex 2 .mult
  | .div => opLex 2 .division
  | .pow => opLex 3 .pow_t

/-- The postfix (reverse-Polish) form of a tree: operands before the
operator or function that consumes them. -/
def postfixOf : AST → List Lexeme
  | .lit q => [numLex q]
  | .fn f e => postfixOf e ++ [opLex 4 (ftype f)]
  | .bin o a b => postfixOf a ++ postfixOf b ++ [opLexOf o]
  | .neg e => numLex ⟨0, 1⟩ :: (postfixOf e ++ [opLex 1 .minus])
  | .pos e => numLex ⟨0, 1⟩ :: (postfixOf e ++ [opLex 1 .plus])

/-- A nonempty string of ASCII digits. -/
def DigitStr (ds : List Char) : Prop := ds ≠ [] ∧ ∀ c ∈ ds, isDigitC c

/-- Integer value of a digit string (most significant first), by the same
accumulation the scanner uses. -/
def digitsVal (ds : List Char) : ℤ :=
  ds.foldl (fun a c => 10 * a + ((c.toNat : ℤ) - ('0'.toNat : ℤ))) 0

/-- Mantissa of a numeric literal: a digit string, optionally followed by a
dot and another digit string; the value is the exact fraction. -/
inductive MantG : List Char → Q0 → Prop
  | int (ds : List Char) : DigitStr ds → MantG ds ⟨digitsVal ds, 1⟩
  | frac (ds fr : List Char) : DigitStr ds → DigitStr fr →
      MantG (ds ++ '.' :: fr)
        ⟨digitsVal ds * (10 : ℤ) ^ fr.length + digitsVal fr, (10 : ℤ) ^ fr.length⟩

/-- Optional exponent suffix of a numeric literal, transforming the
mantissa value. -/
inductive ExpoG : List Char → Q0 → Q0 → Prop
  | none (q : Q0) : ExpoG [] q q
  | noSign (e : Char) (ds : List Char) (q : Q0) : (e = 'e' ∨ e = 'E') → DigitStr ds →
      ExpoG (e :: ds) q (applyExp10 q (digitsVal ds))
  | signed (e s : Char) (ds : List Char) (q : Q0) : (e = 'e' ∨ e = 'E') →
      (s = '+' ∨ s = '-') → DigitStr ds →
      ExpoG (e :: s :: ds) q (applyExp10 q (if s = '-' then -(digitsVal ds) else digitsVal ds))

/-- A numeric literal and its exact value. -/
inductive NumLit : List Char → Q0 → Prop
  | mk (lm le : List Char) (q q' : Q0) : MantG lm q → ExpoG le q q' → NumLit (lm ++ le) q'

/-- Grammar levels: factors, the three binary-operator levels (each with
its left-associative continuation judgment, carrying the accumulated left
tree), and full expressions with their optional leading sign. -/
inductive Lv where
  | fact
  | powT (acc : AST)
  | powL
  | mulT (acc : AST)
  | mulL
  | sumT (acc : AST)
  | exprL

/-- The grammar of syntactically valid inputs, relating the source
characters, the lexemes the tokenizer should emit, and the syntax tree.
`G .exprL s ts ast` is the specification's notion of a syntactically valid
expression `s`.  Factors are literals, function calls, or parenthesized
expressions; each operator level is a left-associative chain; a leading
`+`/`-` (which also occurs right after an opening parenthesis, through
`paren` and `call`) contributes an implicit zero lexeme and signs the first
multiplicative chunk. -/
inductive G : Lv → List Char → List Lexeme → AST → Prop where
  | num (s : List Char) (q : Q0) : NumLit s q → G .fact s [numLex q] (.lit q)
  | paren (s : List Char) (ts : List Lexeme) (e : AST) : G .exprL s ts e →
      G .fact ('(' :: (s ++ [')'])) (opLex 0 .open_p :: (ts ++ [opLex 0 .close_p])) e
  | call (fk : FuncK) (s : List Char) (ts : List Lexeme) (e : AST) : G .exprL s ts e →
      G .fact (fname fk ++ ('(' :: (s ++ [')'])))
        (opLex 4 (ftype fk) :: opLex 0 .open_p :: (ts ++ [opLex 0 .close_p])) (.fn fk e)
  | powTnil (a : AST) : G (.powT a) [] [] a
  | powTcons (a : AST) (s s2 : List Char) (tf ts2 : List Lexeme) (b r : AST) :
      G .fact s tf b → G (.powT (.bin .pow a b)) s2 ts2 r →
      G (.powT a) ('^' :: (s ++ s2)) (opLex 3 .pow_t :: (tf ++ ts2)) r
  | powMk (s s2 : List Char) (tf ts2 : List Lexeme) (a r : AST) :
      G .fact s tf a → G (.powT a) s2 ts2 r → G .powL (s ++ s2) (tf ++ ts2) r
  | mulTnil (a : AST) : G (.mulT a) [] [] a
  | mulTmul (a : AST) (s s2 : List Char) (tp ts2 : List Lexeme) (b r : AST) :
      G .powL s tp b → G (.mulT (.bin .mul a b)) s2 ts2 r →
      G (.mulT a) ('*' :: (s ++ s2)) (opLex 2 .mult :: (tp ++ ts2)) r
  | mulTdiv (a : AST) (s s2 : List Char) (tp ts2 : List Lexeme) (b r : AST) :
      G .powL s tp b → G (.mulT (.bin .div a b)) s2 ts2 r →
      G (.mulT a) ('/' :: (s ++ s2)) (opLex 2 .division :: (tp ++ ts2)) r
  | mulMk (s s2 : List Char) (tp ts2 : List Lexeme) (a r : AST) :
      G .powL s tp a → G (.mulT a) s2 ts2 r → G .mulL (s ++ s2) (tp ++ ts2) r
  | sumTnil (a : AST) : G (.sumT a) [] [] a
  | sumTadd (a : AST) (s s2 : List Char) (tm ts2 : List Lexeme) (b r : AST) :
      G .mulL s tm b → G (.sumT (.bin .add a b)) s2 ts2 r →
      G (.sumT a) ('+' :: (s ++ s2)) (opLex 1 .plus :: (tm ++ ts2)) r
  | sumTsub (a : AST) (s s2 : List Char) (tm ts2 : List Lexeme) (b r : AST) :
      G .mulL s tm b → G (.sumT (.bin .sub a b)) s2 ts2 r →
      G (.sumT a) ('-' :: (s ++ s2)) (opLex 1 .minus :: (tm ++ ts2)) r
  | exprPlain (s s2 : List Char) (tm ts2 : List Lexeme) (a r : AST) :
      G .mulL s tm a → G (.sumT a) s2 ts2 r → G .exprL (s ++ s2) (tm ++ ts2) r
  | exprNeg (s s2 : List Char) (tm ts2 : List Lexeme) (a r : AST) :
      G .mulL s tm a → G (.sumT (.neg a)) s2 ts2 r →
      G .exprL ('-' :: (s ++ s2)) (numLex ⟨0, 1⟩ :: opLex 1 .minus :: (tm ++ ts2)) r
  | exprPos (s s2 : List Char) (tm ts2 : List Lexeme) (a r : AST) :
      G .mulL s tm a → G (.sumT (.pos a)) s2 ts2 r →
      G .exprL ('+' :: (s ++ s2)) (numLex ⟨0, 1⟩ :: opLex 1 .plus :: (tm ++ ts2)) r

/-- Stacks of pending operator/function lexemes, all binding at least as
tightly as `pr` (no parenthesis markers among them). -/
def OpStackP (pr : ℕ) (stk : List Lexeme) : Prop :=
  ∀ x ∈ stk, pr ≤ x.priority ∧ x.type ≠ .open_p

/-- Entry barrier of the shunting-yard invariants: the stack below is empty
or its top binds strictly less tightly than `pr`. -/
def BarrierL (pr : ℕ) : List Lexeme → Prop
  | [] => True
  | s :: _ => s.priority < pr

/-- The shunting-yard invariant, per grammar level: processing the tokens
of a subderivation on top of a barrier-protected stack extends the stack
and output so that reversed-output-then-stack is the subtree's postfix
form; continuation levels additionally carry the pending stack and output
of the accumulated left subtree. -/
def RMotive : Lv → List Lexeme → AST → Prop
  | .fact, ts, ast => ∀ sup ready rest, BarrierL 4 sup → ∃ out stk,
      rpnLoop (ts ++ rest) sup ready = rpnLoop rest (stk ++ sup) (out ++ ready)
      ∧ out.reverse ++ stk = postfixOf ast ∧ OpStackP 4 stk
  | .powL, ts, ast => ∀ sup ready rest, BarrierL 3 sup → ∃ out stk,
      rpnLoop (ts ++ rest) sup ready = rpnLoop rest (stk ++ sup) (out ++ ready)
      ∧ out.reverse ++ stk = postfixOf ast ∧ OpStackP 3 stk
  | .mulL, ts, ast => ∀ sup ready rest, BarrierL 2 sup → ∃ out stk,
      rpnLoop (ts ++ rest) sup ready = rpnLoop rest (stk ++ sup) (out ++ ready)
      ∧ out.reverse ++ stk = postfixOf ast ∧ OpStackP 2 stk
  | .exprL, ts, ast => ∀ sup ready rest, BarrierL 1 sup → ∃ out stk,
      rpnLoop (ts ++ rest) sup ready = rpnLoop rest (stk ++ sup) (out ++ ready)
      ∧ out.reverse ++ stk = postfixOf ast ∧ OpStackP 1 stk
  | .powT a, ts, r => ∀ sup ready0 rest out0 stk0, BarrierL 3 sup → OpStackP 3 stk0 →
      out0.reverse ++ stk0 = postfixOf a → ∃ out stk,
      rpnLoop (ts ++ rest) (stk0 ++ sup) (out0 ++ ready0) = rpnLoop rest (stk ++ sup) (out ++ ready0)
      ∧ out.reverse ++ stk = postfixOf r ∧ OpStackP 3 stk
  | .mulT a, ts, r => ∀ sup ready0 rest out0 stk0, BarrierL 2 sup → OpStackP 2 stk0 →
      out0.reverse ++ stk0 = postfixOf a → ∃ out stk,
      rpnLoop (ts ++ rest) (stk0 ++ sup) (out0 ++ ready0) = rpnLoop rest (stk ++ sup) (out ++ ready0)
      ∧ out.reverse ++ stk = postfixOf r ∧ OpStackP 2 stk
  | .sumT a, ts, r => ∀ sup ready0 rest out0 stk0, BarrierL 1 sup → OpStackP 1 stk0 →
      out0.reverse ++ stk0 = postfixOf a → ∃ out stk,
      rpnLoop (ts ++ rest) (stk0 ++ sup) (out0 ++ ready0) = rpnLoop rest (stk ++ sup) (out ++ ready0)
      ∧ out.reverse ++ stk = postfixOf r ∧ OpStackP 1 stk

/-!
### Auxiliary predicates and runs for the tokenizer and the order check
-/

/-- The tokenizer run at its canonical (always sufficient) fuel. -/
def tokRun (rem : List Char) (acc : List Lexeme) (u fst : Bool) : Option (List Lexeme) :=
  parseStringIntoLexemes (rem.length + 1) rem acc u fst

/-- The flag discipline of the tokenizer at the entry of an expression: a
sign-headed expression requires an active unary or first-sign flag, any
other expression requires both flags clear. -/
def SignCond (s : List Char) (u fst : Bool) : Prop :=
  match s with
  | c :: _ => if c = '-' ∨ c = '+' then u = true ∨ fst = true else u = false ∧ fst = false
  | [] => u = false ∧ fst = false

/-- The head character is not a sign (or the string is empty). -/
def NotSignHead : List Char → Prop
  | [] => True
  | c :: _ => c ≠ '-' ∧ c ≠ '+'

/-- The tokenizer invariant, per grammar level: running the tokenizer over
the characters of a subderivation appends exactly its lexemes, with the
sign flags clear afterwards; continuation levels also guarantee that their
text cannot extend a preceding numeric literal. -/
def TMotive : Lv → List Char → List Lexeme → Prop
  | .fact, s, ts => ∀ rest acc, NumBoundary rest →
      tokRun (s ++ rest) acc false false = tokRun rest (acc ++ ts) false false
  | .powL, s, ts => ∀ rest acc, NumBoundary rest →
      tokRun (s ++ rest) acc false false = tokRun rest (acc ++ ts) false false
  | .mulL, s, ts => ∀ rest acc, NumBoundary rest →
      tokRun (s ++ rest) acc false false = tokRun rest (acc ++ ts) false false
  | .powT _, s, ts => ∀ rest acc, NumBoundary rest → NumBoundary (s ++ rest) ∧
      tokRun (s ++ rest) acc false false = tokRun rest (acc ++ ts) false false
  | .mulT _, s, ts => ∀ rest acc, NumBoundary rest → NumBoundary (s ++ rest) ∧
      tokRun (s ++ rest) acc false false = tokRun rest (acc ++ ts) false false
  | .sumT _, s, ts => ∀ rest acc, NumBoundary rest → NumBoundary (s ++ rest) ∧
      tokRun (s ++ rest) acc false false = tokRun rest (acc ++ ts) false false
  | .exprL, s, ts => ∀ rest acc (u fst : Bool), NumBoundary rest → SignCond s u fst →
      tokRun (s ++ rest) acc u fst = tokRun rest (acc ++ ts) false false

/-- The order-check walk invariant for operand levels (factors and the
power/multiplication chains): from the expecting-an-operand state the
checker consumes exactly the derivation's characters and ends having just
finished an operand, with fuel to spare. -/
def VWalkOperand (s : List Char) : Prop :=
  ∀ (l pre post : List Char), l = pre ++ s ++ post →
    ∀ (em : Option ErrMsg) (f : ℕ) (inside aS b : Bool) (p : ℤ),
      (inside = true → 1 ≤ p) →
      2 * s.length + 2 * post.length + 2 ≤ f →
      NumBoundary post →
      ∃ em' f' aS',
        checkOperatorAndOperandsOrder f l pre.length em inside aS true b p
          = checkOperatorAndOperandsOrder f' l (pre.length + s.length) em' inside aS'
              false true p
        ∧ 2 * post.length + 2 ≤ f'

/-- The walk invariant for the operator-continuation levels: they start at
an operator position (an operand was just finished) and end the same way. -/
def VWalkTail (s : List Char) : Prop :=
  ∀ (l pre post : List Char), l = pre ++ s ++ post →
    ∀ (em : Option ErrMsg) (f : ℕ) (inside aS : Bool) (p : ℤ),
      (inside = true → 1 ≤ p) →
      2 * s.length + 2 * post.length + 2 ≤ f →
      NumBoundary post →
      ∃ em' f' aS',
        checkOperatorAndOperandsOrder f l pre.length em inside aS false true p
          = checkOperatorAndOperandsOrder f' l (pre.length + s.length) em' inside aS'
              false true p
        ∧ 2 * post.length + 2 ≤ f'

/-- The walk invariant for full expressions: entered with the sign-allowed
flag set (as at the start of the input and right after every opening
parenthesis). -/
def VWalkExpr (s : List Char) : Prop :=
  ∀ (l pre post : List Char), l = pre ++ s ++ post →
    ∀ (em : Option ErrMsg) (f : ℕ) (inside b : Bool) (p : ℤ),
      (inside = true → 1 ≤ p) →
      2 * s.length + 2 * post.length + 2 ≤ f →
      NumBoundary post →
      ∃ em' f' aS',
        checkOperatorAndOperandsOrder f l pre.length em inside true true b p
          = checkOperatorAndOperandsOrder f' l (pre.length + s.length) em' inside aS'
              false true p
        ∧ 2 * post.length + 2 ≤ f'

/-- The order-check invariant, per grammar level. -/
def VMotive : Lv → List Char → Prop
  | .fact, s => VWalkOperand s
  | .powL, s => VWalkOperand s
  | .mulL, s => VWalkOperand s
  | .powT _, s => VWalkTail s
  | .mulT _, s => VWalkTail s
  | .sumT _, s => VWalkTail s
  | .exprL, s => VWalkExpr s

/-- No `^` immediately followed by `-` anywhere in the string (the property
the first scan of `checkCorrectParentheses` rejects). -/
def NoHM : List Char → Prop
  | c1 :: c2 :: rest => ¬(c1 = '^' ∧ c2 = '-') ∧ NoHM (c2 :: rest)
  | _ => True

/-!
### General lemmas about the embedded program
-/

/-- The space-compaction loop computes exactly the filter that keeps every
character other than `' '`. -/
theorem removeSpaces_eq_filter (l : List Char) : removeSpaces l = l.filter (· != ' ') := by
  induction l with
  | nil => rfl
  | cons c cs ih =>
    rw [removeSpaces, List.filter_cons]
    by_cases h : c = ' '
    · subst h; simp [ih]
    · have hb : (c != ' ') = true := by simpa using h
      simp [h, hb, ih]

/-- Every validation message renders to a text different from the NaN
report of `parseString` (validation texts start with `Error`, the NaN
report with `Returned`). -/
theorem validation_render_ne_nan (e : ErrMsg) (he : e.isValidation = true) :
    e.render ≠ ErrMsg.nanMsg.render := by
  cases e <;> simp_all [ErrMsg.render, ErrMsg.isValidation]

/-!
### Stage lemmas: the evaluator computes reference values of postfix forms
-/


/-- A reduction step of the evaluator scan shortens the lexeme list. -/
theorem scanStep_shrinks (fs : FnSem) :
    ∀ (a b c : Lexeme) (rest l2 : List Lexeme),
      scanStep fs a b c rest = some l2 → l2.length < (a :: b :: c :: rest).length := by
  intro a b c rest
  induction rest generalizing a b c with
  | nil =>
    intro l2 h
    rw [scanStep] at h
    split at h
    · exact absurd h (by simp)
    · split at h
      · cases h; simp
      · split at h
        · cases h; simp
        · cases h; simp
  | cons d rest2 ih =>
    intro l2 h
    rw [scanStep] at h
    split at h
    · rcases hm : scanStep fs b c d rest2 with _ | l3
      · rw [hm] at h; cases h
      · rw [hm] at h
        cases h
        have := ih b c d l3 hm
        simpa using Nat.succ_lt_succ this
    · split at h
      · cases h; simp
      · split at h
        · cases h; simp
        · cases h; simp

/-- The evaluator's result does not depend on the fuel, once the fuel is at
least the list's length. -/
theorem calcFull_fuel (fs : FnSem) :
    ∀ (n f1 f2 : ℕ) (l : List Lexeme), l.length ≤ n → l.length ≤ f1 → l.length ≤ f2 →
      calculateFullExpression fs f1 l = calculateFullExpression fs f2 l := by
  intro n
  induction n with
  | zero =>
    intro f1 f2 l hn _ _
    have : l = [] := List.length_eq_zero.mp (Nat.le_zero.mp hn)
    subst this
    cases f1 <;> cases f2 <;> rfl
  | succ n ih =>
    intro f1 f2 l hn h1 h2
    match l with
    | [] => cases f1 <;> cases f2 <;> rfl
    | [a] => cases f1 <;> cases f2 <;> rfl
    | [a, b] => cases f1 <;> cases f2 <;> rfl
    | a :: b :: c :: rest =>
      match f1, f2 with
      | g1 + 1, g2 + 1 =>
        show (match scanStep fs a b c rest with
              | none => none
              | some l2 => calculateFullExpression fs g1 l2) =
             (match scanStep fs a b c rest with
              | none => none
              | some l2 => calculateFullExpression fs g2 l2)
        rcases hs : scanStep fs a b c rest with _ | l2
        · rfl
        · have hlt := scanStep_shrinks fs a b c rest l2 hs
          have hn' : l2.length ≤ n := by
            have := Nat.lt_of_lt_of_le hlt hn
            omega
          exact ih g1 g2 l2 hn' (by omega) (by omega)

/-- The scan slides its window across a prefix of already-reduced number
lexemes without touching it. -/
theorem ss_walk (fs : FnSem) :
    ∀ (ns : List Lexeme) (p q w : Lexeme) (tail : List Lexeme),
      allNumL ns → p.type = .number → q.type = .number →
      scanStepL fs (ns ++ p :: q :: w :: tail) =
        (scanStep fs p q w tail).map (ns ++ ·) := by
  intro ns
  induction ns with
  | nil =>
    intro p q w tail _ _ _
    show scanStep fs p q w tail = _
    rcases scanStep fs p q w tail with _ | l2 <;> rfl
  | cons n1 ns' ih =>
    intro p q w tail hns hp hq
    have hn1 : n1.type = .number := hns n1 (List.mem_cons_self _ _)
    have hns' : allNumL ns' := fun x hx => hns x (List.mem_cons_of_mem _ hx)
    rcases ns' with _ | ⟨n2, ns''⟩
    · show scanStep fs n1 p q (w :: tail) = _
      rw [scanStep.eq_def]
      have hc : (q.type = .number ∨ q.type = .x) ∧ p.type.code < 11 := by
        refine ⟨Or.inl hq, ?_⟩
        rw [hp]; simp [LexType.code]
      rw [if_pos hc]
      show Option.map (fun x => n1 :: x) (scanStep fs p q w tail) = _
      rcases scanStep fs p q w tail with _ | l2 <;> rfl
    · have hn2 : n2.type = .number := hns' n2 (List.mem_cons_self _ _)
      have hns'' : allNumL ns'' := fun x hx => hns' x (List.mem_cons_of_mem _ hx)
      rcases ns'' with _ | ⟨n3, ns'''⟩
      · show scanStep fs n1 n2 p (q :: w :: tail) = _
        rw [scanStep.eq_def]
        have hc : (p.type = .number ∨ p.type = .x) ∧ n2.type.code < 11 := by
          refine ⟨Or.inl hp, ?_⟩
          rw [hn2]; simp [LexType.code]
        rw [if_pos hc]
        have hin : scanStep fs n2 p q (w :: tail) =
            (scanStep fs p q w tail).map ((n2 :: []) ++ ·) := ih p q w tail hns' hp hq
        show Option.map (fun x => n1 :: x) (scanStep fs n2 p q (w :: tail)) = _
        rw [hin]
        rcases scanStep fs p q w tail with _ | l2 <;> rfl
      · have hn3 : n3.type = .number := hns'' n3 (List.mem_cons_self _ _)
        show scanStep fs n1 n2 n3 ( ns''' ++ p :: q :: w :: tail) = _
        rw [scanStep.eq_def]
        have hc : (n3.type = .number ∨ n3.type = .x) ∧ n2.type.code < 11 := by
          refine ⟨Or.inl hn3, ?_⟩
          rw [hn2]; simp [LexType.code]
        rw [if_pos hc]
        rcases hd : ns''' ++ p :: q :: w :: tail with _ | ⟨d, t2⟩
        · exact absurd hd (by simp)
        · have hin : scanStep fs n2 n3 d t2 =
              (scanStep fs p q w tail).map ((n2 :: n3 :: ns''') ++ ·) := by
            have h0 := ih p q w tail hns' hp hq
            rw [show scanStepL fs ((n2 :: n3 :: ns''') ++ p :: q :: w :: tail)
                = scanStep fs n2 n3 d t2 from by
              rw [List.cons_append, List.cons_append, hd]; rfl] at h0
            exact h0
          show Option.map (fun x => n1 :: x) (scanStep fs n2 n3 d t2) = _
          rw [hin]
          rcases scanStep fs p q w tail with _ | l2 <;> rfl

/-- The scan's stop configuration for a value/function unit. -/
theorem ss_stop_fn (fs : FnSem) (p v fx : Lexeme) (tail : List Lexeme)
    (hv : v.type = .number) (hfx : 11 ≤ fx.type.code) :
    scanStep fs p v fx tail = some (p :: valLex (calculateFunction fs fx v.value) :: tail) := by
  rw [scanStep.eq_def]
  have h1 : ¬ ((fx.type = .number ∨ fx.type = .x) ∧ v.type.code < 11) := by
    rintro ⟨hor, _⟩
    rcases hor with h | h <;> rw [h] at hfx <;> simp [LexType.code] at hfx
  have h2 : ¬ (11 ≤ v.type.code) := by rw [hv]; simp [LexType.code]
  rw [if_neg h1, if_neg h2, if_pos hfx]
  rfl

/-- The scan's stop configuration for a value/value/operator unit. -/
theorem ss_stop_bin (fs : FnSem) (v1 v2 op : Lexeme) (tail : List Lexeme)
    (hv2 : v2.type = .number)
    (hop : ¬ (op.type = .number ∨ op.type = .x)) (hcode : op.type.code < 11) :
    scanStep fs v1 v2 op tail =
      some (valLex (calculateTwoOperators fs v1.value v2.value op) :: tail) := by
  rw [scanStep.eq_def]
  have h1 : ¬ ((op.type = .number ∨ op.type = .x) ∧ v2.type.code < 11) := fun h => hop h.1
  have h2 : ¬ (11 ≤ v2.type.code) := by rw [hv2]; simp [LexType.code]
  have h3 : ¬ (11 ≤ op.type.code) := by omega
  rw [if_neg h1, if_neg h2, if_neg h3]
  rfl

/-- One whole-list scan over a reduced prefix, a value and a function
lexeme performs the function reduction. -/
theorem ssL_fn (fs : FnSem) (ns : List Lexeme) (v fx : Lexeme) (rest : List Lexeme)
    (hns : allNumL ns) (hv : v.type = .number) (hfx : 11 ≤ fx.type.code)
    (hne : ns ≠ [] ∨ rest ≠ []) :
    scanStepL fs (ns ++ v :: fx :: rest) =
      some (ns ++ valLex (calculateFunction fs fx v.value) :: rest) := by
  rcases List.eq_nil_or_concat ns with hnil | ⟨ns0, p, hcat⟩
  · subst hnil
    rcases rest with _ | ⟨r, rs⟩
    · simp at hne
    · show scanStep fs v fx r rs = _
      rw [scanStep.eq_def]
      have h1 : ¬ ((r.type = .number ∨ r.type = .x) ∧ fx.type.code < 11) := by
        rintro ⟨_, h⟩; omega
      rw [if_neg h1, if_pos hfx]
      rfl
  · subst hcat
    simp only [List.concat_eq_append] at hns ⊢
    have hp : p.type = .number := hns p (by simp)
    have hns0 : allNumL ns0 := fun x hx => hns x (by simp [hx])
    rw [show (ns0 ++ [p]) ++ v :: fx :: rest = ns0 ++ p :: v :: fx :: rest by simp]
    rw [ss_walk fs ns0 p v fx rest hns0 hp hv]
    rw [ss_stop_fn fs p v fx rest hv hfx]
    simp

/-- One whole-list scan over a reduced prefix, two values and an operator
lexeme performs the binary reduction. -/
theorem ssL_bin (fs : FnSem) (ns : List Lexeme) (v1 v2 op : Lexeme) (rest : List Lexeme)
    (hns : allNumL ns) (hv1 : v1.type = .number) (hv2 : v2.type = .number)
    (hop : ¬ (op.type = .number ∨ op.type = .x)) (hcode : op.type.code < 11) :
    scanStepL fs (ns ++ v1 :: v2 :: op :: rest) =
      some (ns ++ valLex (calculateTwoOperators fs v1.value v2.value op) :: rest) := by
  rw [ss_walk fs ns v1 v2 op rest hns hv1 hv2]
  rw [ss_stop_bin fs v1 v2 op rest hv2 hop hcode]
  rfl

/-- Unfolding the evaluator one reduction at a time. -/
theorem calcFull_cons3 (fs : FnSem) (f : ℕ) (a b c : Lexeme) (rest : List Lexeme) :
    calculateFullExpression fs (f + 1) (a :: b :: c :: rest) =
      (match scanStep fs a b c rest with
       | none => none
       | some l2 => calculateFullExpression fs f l2) := rfl

/-- A successful scan step preserves the evaluator's value. -/
theorem calcN_step (fs : FnSem) (l l2 : List Lexeme) (h : scanStepL fs l = some l2) :
    calcN fs l = calcN fs l2 := by
  match l with
  | [] => exact Option.noConfusion h
  | [a] => exact Option.noConfusion h
  | [a, b] => exact Option.noConfusion h
  | a :: b :: c :: rest =>
    have hs : scanStep fs a b c rest = some l2 := h
    have hlt := scanStep_shrinks fs a b c rest l2 hs
    show calculateFullExpression fs (rest.length + 2 + 1) (a :: b :: c :: rest) = _
    rw [calcFull_cons3, hs]
    have hlen2 : l2.length ≤ rest.length + 2 := by simp at hlt; omega
    exact calcFull_fuel fs l2.length (rest.length + 2) l2.length l2 le_rfl hlen2 le_rfl


theorem ftype_code_ge (f : FuncK) : 11 ≤ (ftype f).code := by
  cases f <;> decide

theorem opLexOf_not_numx (o : BinOp) :
    ¬ ((opLexOf o).type = .number ∨ (opLexOf o).type = .x) := by
  cases o <;> decide

theorem opLexOf_code_lt (o : BinOp) : (opLexOf o).type.code < 11 := by
  cases o <;> decide

theorem calcFunction_ftype (fs : FnSem) (f : FuncK) (v : MVal) :
    calculateFunction fs (opLex 4 (ftype f)) v = refApply fs f v := by
  cases f <;> rfl

theorem calcTwo_opLexOf (fs : FnSem) (o : BinOp) (v1 v2 : MVal) :
    calculateTwoOperators fs v1 v2 (opLexOf o) = refBin fs o v1 v2 := by
  cases o <;> rfl

/-- Evaluating any postfix segment inside a reduced context: the scan-and-
reduce evaluator collapses the postfix form of a tree to its reference
value, wherever it sits between a reduced prefix and an arbitrary tail. -/
theorem calc_post (fs : FnSem) :
    ∀ (ast : AST) (ns rest : List Lexeme), allNumL ns →
      calcN fs (ns ++ postfixOf ast ++ rest) =
        calcN fs (ns ++ valLex (refEval fs ast) :: rest) := by
  intro ast
  induction ast with
  | lit q =>
    intro ns rest h
    simp [postfixOf, numLex, valLex, refEval]
  | fn f e ih =>
    intro ns rest h
    rw [show ns ++ postfixOf (.fn f e) ++ rest
        = ns ++ postfixOf e ++ (opLex 4 (ftype f) :: rest) by simp [postfixOf]]
    rw [ih ns (opLex 4 (ftype f) :: rest) h]
    by_cases hsmall : ns = [] ∧ rest = []
    · obtain ⟨hn, hr⟩ := hsmall
      subst hn; subst hr
      show calculateFullExpression fs 2 [valLex (refEval fs e), opLex 4 (ftype f)] = _
      rw [show calculateFullExpression fs 2 [valLex (refEval fs e), opLex 4 (ftype f)]
          = some (calculateFunction fs (opLex 4 (ftype f)) (refEval fs e)) from rfl]
      rw [calcFunction_ftype]
      rfl
    · have hne : ns ≠ [] ∨ rest ≠ [] := by
        by_contra hcon
        push_neg at hcon
        exact hsmall ⟨hcon.1, hcon.2⟩
      have hstep := ssL_fn fs ns (valLex (refEval fs e)) (opLex 4 (ftype f)) rest h rfl
        (ftype_code_ge f) hne
      rw [calcN_step fs _ _ hstep]
      rw [show calculateFunction fs (opLex 4 (ftype f)) (valLex (refEval fs e)).value
          = refApply fs f (refEval fs e) from calcFunction_ftype fs f _]
      rfl
  | bin o a b iha ihb =>
    intro ns rest h
    rw [show ns ++ postfixOf (.bin o a b) ++ rest
        = ns ++ postfixOf a ++ (postfixOf b ++ (opLexOf o :: rest)) by simp [postfixOf]]
    rw [iha ns (postfixOf b ++ (opLexOf o :: rest)) h]
    rw [show ns ++ valLex (refEval fs a) :: (postfixOf b ++ (opLexOf o :: rest))
        = (ns ++ [valLex (refEval fs a)]) ++ postfixOf b ++ (opLexOf o :: rest) by simp]
    have h2 : allNumL (ns ++ [valLex (refEval fs a)]) := by
      intro x hx
      rcases List.mem_append.mp hx with hx | hx
      · exact h x hx
      · simp at hx; subst hx; rfl
    rw [ihb (ns ++ [valLex (refEval fs a)]) (opLexOf o :: rest) h2]
    rw [show (ns ++ [valLex (refEval fs a)]) ++ valLex (refEval fs b) :: (opLexOf o :: rest)
        = ns ++ valLex (refEval fs a) :: valLex (refEval fs b) :: opLexOf o :: rest by simp]
    have hstep := ssL_bin fs ns (valLex (refEval fs a)) (valLex (refEval fs b)) (opLexOf o)
      rest h rfl rfl (opLexOf_not_numx o) (opLexOf_code_lt o)
    rw [calcN_step fs _ _ hstep]
    rw [show calculateTwoOperators fs (valLex (refEval fs a)).value
          (valLex (refEval fs b)).value (opLexOf o) = refBin fs o (refEval fs a) (refEval fs b)
        from calcTwo_opLexOf fs o _ _]
    rfl
  | neg e ih =>
    intro ns rest h
    rw [show ns ++ postfixOf (.neg e) ++ rest
        = (ns ++ [numLex ⟨0, 1⟩]) ++ postfixOf e ++ (opLex 1 .minus :: rest) by simp [postfixOf]]
    have h2 : allNumL (ns ++ [numLex ⟨0, 1⟩]) := by
      intro x hx
      rcases List.mem_append.mp hx with hx | hx
      · exact h x hx
      · simp at hx; subst hx; rfl
    rw [ih (ns ++ [numLex ⟨0, 1⟩]) (opLex 1 .minus :: rest) h2]
    rw [show (ns ++ [numLex ⟨0, 1⟩]) ++ valLex (refEval fs e) :: (opLex 1 .minus :: rest)
        = ns ++ numLex ⟨0, 1⟩ :: valLex (refEval fs e) :: opLex 1 .minus :: rest by simp]
    have hstep := ssL_bin fs ns (numLex ⟨0, 1⟩) (valLex (refEval fs e)) (opLex 1 .minus)
      rest h rfl rfl (by decide) (by decide)
    rw [calcN_step fs _ _ hstep]
    rfl
  | pos e ih =>
    intro ns rest h
    rw [show ns ++ postfixOf (.pos e) ++ rest
        = (ns ++ [numLex ⟨0, 1⟩]) ++ postfixOf e ++ (opLex 1 .plus :: rest) by simp [postfixOf]]
    have h2 : allNumL (ns ++ [numLex ⟨0, 1⟩]) := by
      intro x hx
      rcases List.mem_append.mp hx with hx | hx
      · exact h x hx
      · simp at hx; subst hx; rfl
    rw [ih (ns ++ [numLex ⟨0, 1⟩]) (opLex 1 .plus :: rest) h2]
    rw [show (ns ++ [numLex ⟨0, 1⟩]) ++ valLex (refEval fs e) :: (opLex 1 .plus :: rest)
        = ns ++ numLex ⟨0, 1⟩ :: valLex (refEval fs e) :: opLex 1 .plus :: rest by simp]
    have hstep := ssL_bin fs ns (numLex ⟨0, 1⟩) (valLex (refEval fs e)) (opLex 1 .plus)
      rest h rfl rfl (by decide) (by decide)
    rw [calcN_step fs _ _ hstep]
    rfl

/-- The evaluator computes the reference value of any postfix form. -/
theorem calc_postfix (fs : FnSem) (ast : AST) :
    calcN fs (postfixOf ast) = some (refEval fs ast) := by
  have h := calc_post fs ast [] [] (by intro x hx; cases hx)
  simp only [List.nil_append, List.append_nil] at h
  rw [h]
  rfl

/-!
### Stage lemmas: the RPN builder produces postfix forms
-/


theorem handleSupport_pops (t : Lexeme) :
    ∀ (stk sup ready : List Lexeme),
      (∀ x ∈ stk, t.priority ≤ x.priority) → BarrierL t.priority sup →
      handleSupportStack t (stk ++ sup) ready = (t :: sup, stk.reverse ++ ready) := by
  intro stk
  induction stk with
  | nil =>
    intro sup ready _ hb
    rcases sup with _ | ⟨s, sup'⟩
    · rfl
    · show handleSupportStack t (s :: sup') ready = _
      rw [handleSupportStack]
      rw [if_neg (by simp only [BarrierL] at hb; omega)]
      rfl
  | cons x stk' ih =>
    intro sup ready hall hb
    show handleSupportStack t (x :: (stk' ++ sup)) ready = _
    rw [handleSupportStack]
    rw [if_pos (hall x (by simp))]
    rw [ih sup (x :: ready) (fun y hy => hall y (by simp [hy])) hb]
    simp

theorem handleClose_pops :
    ∀ (stk sup ready : List Lexeme), (∀ x ∈ stk, x.type ≠ .open_p) →
      handleCloseParentheses (stk ++ opLex 0 .open_p :: sup) ready
        = some (sup, stk.reverse ++ ready) := by
  intro stk
  induction stk with
  | nil =>
    intro sup ready _
    show handleCloseParentheses (opLex 0 .open_p :: sup) ready = _
    rw [handleCloseParentheses]
    rw [if_pos (show (opLex 0 LexType.open_p).type = LexType.open_p from rfl)]
    simp
  | cons x stk' ih =>
    intro sup ready hall
    show handleCloseParentheses (x :: (stk' ++ opLex 0 .open_p :: sup)) ready = _
    rw [handleCloseParentheses]
    rw [if_neg (hall x (by simp))]
    rw [ih sup (x :: ready) (fun y hy => hall y (by simp [hy]))]
    simp

theorem drainSupport_eq : ∀ (stk ready : List Lexeme),
    drainSupport stk ready = stk.reverse ++ ready := by
  intro stk
  induction stk with
  | nil => intro ready; simp [drainSupport]
  | cons x stk' ih =>
    intro ready
    rw [drainSupport, ih (x :: ready)]
    simp

theorem rpnLoop_num (t : Lexeme) (ts sup ready : List Lexeme)
    (h : t.type = .number ∨ t.type = .x) :
    rpnLoop (t :: ts) sup ready = rpnLoop ts sup (t :: ready) := by
  rw [rpnLoop]
  rw [if_pos h]

theorem rpnLoop_op (t : Lexeme) (ts sup ready : List Lexeme)
    (h1 : ¬ (t.type = .number ∨ t.type = .x)) (h2 : 5 ≤ t.type.code) :
    rpnLoop (t :: ts) sup ready =
      rpnLoop ts (handleSupportStack t sup ready).1 (handleSupportStack t sup ready).2 := by
  rw [rpnLoop]
  rw [if_neg h1, if_pos h2]

theorem rpnLoop_open (ts sup ready : List Lexeme) :
    rpnLoop (opLex 0 .open_p :: ts) sup ready = rpnLoop ts (opLex 0 .open_p :: sup) ready := by
  rw [rpnLoop]
  rw [if_neg (by decide), if_neg (by decide),
    if_pos (show (opLex 0 LexType.open_p).type = LexType.open_p from rfl)]

theorem rpnLoop_close (ts sup ready : List Lexeme) :
    rpnLoop (opLex 0 .close_p :: ts) sup ready =
      (match handleCloseParentheses sup ready with
       | none => none
       | some (sup', ready') => rpnLoop ts sup' ready') := by
  rw [rpnLoop]
  rw [if_neg (by decide), if_neg (by decide), if_neg (by decide),
    if_pos (show (opLex 0 LexType.close_p).type = LexType.close_p from rfl)]


theorem BarrierL_mono {pr pr' : ℕ} (h : pr ≤ pr') : ∀ {sup : List Lexeme},
    BarrierL pr sup → BarrierL pr' sup := by
  intro sup hb
  cases sup with
  | nil => trivial
  | cons s sup' => simp only [BarrierL] at hb ⊢; omega

theorem OpStackP_mono {pr pr' : ℕ} (h : pr' ≤ pr) {stk : List Lexeme}
    (hs : OpStackP pr stk) : OpStackP pr' stk := by
  intro x hx
  obtain ⟨h1, h2⟩ := hs x hx
  exact ⟨le_trans h h1, h2⟩

theorem ftype_not_numx (fk : FuncK) :
    ¬ ((ftype fk) = LexType.number ∨ (ftype fk) = LexType.x) := by
  cases fk <;> decide

theorem rpn_master (lv : Lv) (s : List Char) (ts : List Lexeme) (ast : AST)
    (h : G lv s ts ast) : RMotive lv ts ast := by
  induction h with
  | num s q hn =>
    intro sup ready rest hb
    refine ⟨[numLex q], [], ?_, by simp [postfixOf], by intro x hx; cases hx⟩
    rw [show ([numLex q] ++ rest) = numLex q :: rest by simp]
    rw [rpnLoop_num (numLex q) rest sup ready (Or.inl rfl)]
    simp
  | paren sE tsE e hE ihE =>
    intro sup ready rest hb
    obtain ⟨out, stk, heq, hpost, hstk⟩ :=
      ihE (opLex 0 .open_p :: sup) ready (opLex 0 .close_p :: rest) (by simp [BarrierL, opLex])
    refine ⟨stk.reverse ++ out, [], ?_, ?_, by intro x hx; cases hx⟩
    · rw [show (opLex 0 LexType.open_p :: (tsE ++ [opLex 0 LexType.close_p])) ++ rest
          = opLex 0 LexType.open_p :: (tsE ++ (opLex 0 LexType.close_p :: rest)) by simp]
      rw [rpnLoop_open]
      rw [heq]
      rw [rpnLoop_close]
      rw [handleClose_pops stk sup (out ++ ready) (fun x hx => (hstk x hx).2)]
      simp
    · simp only [List.reverse_append, List.reverse_reverse, List.append_nil]
      exact hpost
  | call fk sE tsE e hE ihE =>
    intro sup ready rest hb
    have hpush : handleSupportStack (opLex 4 (ftype fk)) sup ready
        = (opLex 4 (ftype fk) :: sup, ready) := by
      have := handleSupport_pops (opLex 4 (ftype fk)) [] sup ready
        (by intro x hx; cases hx) hb
      simpa using this
    obtain ⟨out, stk, heq, hpost, hstk⟩ :=
      ihE (opLex 0 .open_p :: opLex 4 (ftype fk) :: sup) ready (opLex 0 .close_p :: rest)
        (by simp [BarrierL, opLex])
    refine ⟨stk.reverse ++ out, [opLex 4 (ftype fk)], ?_, ?_, ?_⟩
    · rw [show (opLex 4 (ftype fk) :: opLex 0 LexType.open_p :: (tsE ++ [opLex 0 LexType.close_p])) ++ rest
          = opLex 4 (ftype fk) :: opLex 0 LexType.open_p :: (tsE ++ (opLex 0 LexType.close_p :: rest)) by simp]
      rw [rpnLoop_op (opLex 4 (ftype fk)) _ sup ready (ftype_not_numx fk)
        (by show 5 ≤ (ftype fk).code; have := ftype_code_ge fk; omega)]
      rw [hpush]
      rw [rpnLoop_open]
      rw [heq]
      rw [rpnLoop_close]
      rw [handleClose_pops stk (opLex 4 (ftype fk) :: sup) (out ++ ready)
        (fun x hx => (hstk x hx).2)]
      simp
    · simp only [List.reverse_append, List.reverse_reverse]
      rw [hpost]
      rfl
    · intro x hx
      simp at hx
      subst hx
      refine ⟨le_rfl, ?_⟩
      cases fk <;> decide
  | powTnil a =>
    intro sup ready0 rest out0 stk0 hb hstk0 hinv
    exact ⟨out0, stk0, by simp, hinv, hstk0⟩
  | powTcons a sF s2 tf ts2 b r hF hT ihF ihT =>
    intro sup ready0 rest out0 stk0 hb hstk0 hinv
    have hpop : handleSupportStack (opLex 3 .pow_t) (stk0 ++ sup) (out0 ++ ready0)
        = (opLex 3 .pow_t :: sup, stk0.reverse ++ (out0 ++ ready0)) :=
      handleSupport_pops _ stk0 sup _ (fun x hx => (hstk0 x hx).1) hb
    obtain ⟨outF, stkF, heqF, hpostF, hstkF⟩ :=
      ihF (opLex 3 .pow_t :: sup) (stk0.reverse ++ out0 ++ ready0) (ts2 ++ rest)
        (by simp [BarrierL, opLex])
    obtain ⟨out, stk, heqT, hpostT, hstkT⟩ :=
      ihT sup ready0 rest (outF ++ stk0.reverse ++ out0) (stkF ++ [opLex 3 .pow_t])
        hb
        (by
          intro x hx
          rcases List.mem_append.mp hx with hx | hx
          · have := hstkF x hx; exact ⟨by omega, this.2⟩
          · simp at hx; subst hx; exact ⟨le_rfl, by decide⟩)
        (by
          simp only [List.reverse_append, List.reverse_reverse]
          rw [show postfixOf (AST.bin .pow a b) = postfixOf a ++ postfixOf b ++ [opLexOf .pow]
            from rfl]
          rw [← hinv, ← hpostF]
          simp [opLexOf])
    refine ⟨out, stk, ?_, hpostT, hstkT⟩
    rw [show (opLex 3 LexType.pow_t :: (tf ++ ts2)) ++ rest
        = opLex 3 LexType.pow_t :: (tf ++ (ts2 ++ rest)) by simp]
    rw [rpnLoop_op (opLex 3 .pow_t) _ _ _ (by decide) (by decide)]
    rw [hpop]
    rw [show stk0.reverse ++ (out0 ++ ready0) = (stk0.reverse ++ out0) ++ ready0 by simp]
    rw [heqF]
    rw [show outF ++ (stk0.reverse ++ out0 ++ ready0) = (outF ++ stk0.reverse ++ out0) ++ ready0 by simp]
    rw [show stkF ++ opLex 3 LexType.pow_t :: sup = (stkF ++ [opLex 3 LexType.pow_t]) ++ sup by simp]
    exact heqT
  | powMk sF s2 tf ts2 a r hF hT ihF ihT =>
    intro sup ready rest hb
    obtain ⟨outF, stkF, heqF, hpostF, hstkF⟩ :=
      ihF sup ready (ts2 ++ rest) (BarrierL_mono (by omega) hb)
    obtain ⟨out, stk, heqT, hpostT, hstkT⟩ :=
      ihT sup ready rest outF stkF hb (OpStackP_mono (by omega) hstkF) hpostF
    refine ⟨out, stk, ?_, hpostT, hstkT⟩
    rw [show (tf ++ ts2) ++ rest = tf ++ (ts2 ++ rest) by simp]
    rw [heqF]
    exact heqT
  | mulTnil a =>
    intro sup ready0 rest out0 stk0 hb hstk0 hinv
    exact ⟨out0, stk0, by simp, hinv, hstk0⟩
  | mulTmul a sP s2 tp ts2 b r hP hT ihP ihT =>
    intro sup ready0 rest out0 stk0 hb hstk0 hinv
    have hpop : handleSupportStack (opLex 2 .mult) (stk0 ++ sup) (out0 ++ ready0)
        = (opLex 2 .mult :: sup, stk0.reverse ++ (out0 ++ ready0)) :=
      handleSupport_pops _ stk0 sup _ (fun x hx => (hstk0 x hx).1) hb
    obtain ⟨outP, stkP, heqP, hpostP, hstkP⟩ :=
      ihP (opLex 2 .mult :: sup) (stk0.reverse ++ out0 ++ ready0) (ts2 ++ rest)
        (by simp [BarrierL, opLex])
    obtain ⟨out, stk, heqT, hpostT, hstkT⟩ :=
      ihT sup ready0 rest (outP ++ stk0.reverse ++ out0) (stkP ++ [opLex 2 .mult])
        hb
        (by
          intro x hx
          rcases List.mem_append.mp hx with hx | hx
          · have := hstkP x hx; exact ⟨by omega, this.2⟩
          · simp at hx; subst hx; exact ⟨le_rfl, by decide⟩)
        (by
          simp only [List.reverse_append, List.reverse_reverse]
          rw [show postfixOf (AST.bin .mul a b) = postfixOf a ++ postfixOf b ++ [opLexOf .mul]
            from rfl]
          rw [← hinv, ← hpostP]
          simp [opLexOf])
    refine ⟨out, stk, ?_, hpostT, hstkT⟩
    rw [show (opLex 2 LexType.mult :: (tp ++ ts2)) ++ rest
        = opLex 2 LexType.mult :: (tp ++ (ts2 ++ rest)) by simp]
    rw [rpnLoop_op (opLex 2 .mult) _ _ _ (by decide) (by decide)]
    rw [hpop]
    rw [show stk0.reverse ++ (out0 ++ ready0) = (stk0.reverse ++ out0) ++ ready0 by simp]
    rw [heqP]
    rw [show outP ++ (stk0.reverse ++ out0 ++ ready0) = (outP ++ stk0.reverse ++ out0) ++ ready0 by simp]
    rw [show stkP ++ opLex 2 LexType.mult :: sup = (stkP ++ [opLex 2 LexType.mult]) ++ sup by simp]
    exact heqT
  | mulTdiv a sP s2 tp ts2 b r hP hT ihP ihT =>
    intro sup ready0 rest out0 stk0 hb hstk0 hinv
    have hpop : handleSupportStack (opLex 2 .division) (stk0 ++ sup) (out0 ++ ready0)
        = (opLex 2 .division :: sup, stk0.reverse ++ (out0 ++ ready0)) :=
      handleSupport_pops _ stk0 sup _ (fun x hx => (hstk0 x hx).1) hb
    obtain ⟨outP, stkP, heqP, hpostP, hstkP⟩ :=
      ihP (opLex 2 .division :: sup) (stk0.reverse ++ out0 ++ ready0) (ts2 ++ rest)
        (by simp [BarrierL, opLex])
    obtain ⟨out, stk, heqT, hpostT, hstkT⟩ :=
      ihT sup ready0 rest (outP ++ stk0.reverse ++ out0) (stkP ++ [opLex 2 .division])
        hb
        (by
          intro x hx
          rcases List.mem_append.mp hx with hx | hx
          · have := hstkP x hx; exact ⟨by omega, this.2⟩
          · simp at hx; subst hx; exact ⟨le_rfl, by decide⟩)
        (by
          simp only [List.reverse_append, List.reverse_reverse]
          rw [show postfixOf (AST.bin .div a b) = postfixOf a ++ postfixOf b ++ [opLexOf .div]
            from rfl]
          rw [← hinv, ← hpostP]
          simp [opLexOf])
    refine ⟨out, stk, ?_, hpostT, hstkT⟩
    rw [show (opLex 2 LexType.division :: (tp ++ ts2)) ++ rest
        = opLex 2 LexType.division :: (tp ++ (ts2 ++ rest)) by simp]
    rw [rpnLoop_op (opLex 2 .division) _ _ _ (by decide) (by decide)]
    rw [hpop]
    rw [show stk0.reverse ++ (out0 ++ ready0) = (stk0.reverse ++ out0) ++ ready0 by simp]
    rw [heqP]
    rw [show outP ++ (stk0.reverse ++ out0 ++ ready0) = (outP ++ stk0.reverse ++ out0) ++ ready0 by simp]
    rw [show stkP ++ opLex 2 LexType.division :: sup = (stkP ++ [opLex 2 LexType.division]) ++ sup by simp]
    exact heqT
  | mulMk sP s2 tp ts2 a r hP hT ihP ihT =>
    intro sup ready rest hb
    obtain ⟨outP, stkP, heqP, hpostP, hstkP⟩ :=
      ihP sup ready (ts2 ++ rest) (BarrierL_mono (by omega) hb)
    obtain ⟨out, stk, heqT, hpostT, hstkT⟩ :=
      ihT sup ready rest outP stkP hb (OpStackP_mono (by omega) hstkP) hpostP
    refine ⟨out, stk, ?_, hpostT, hstkT⟩
    rw [show (tp ++ ts2) ++ rest = tp ++ (ts2 ++ rest) by simp]
    rw [heqP]
    exact heqT
  | sumTnil a =>
    intro sup ready0 rest out0 stk0 hb hstk0 hinv
    exact ⟨out0, stk0, by simp, hinv, hstk0⟩
  | sumTadd a sM s2 tm ts2 b r hM hT ihM ihT =>
    intro sup ready0 rest out0 stk0 hb hstk0 hinv
    have hpop : handleSupportStack (opLex 1 .plus) (stk0 ++ sup) (out0 ++ ready0)
        = (opLex 1 .plus :: sup, stk0.reverse ++ (out0 ++ ready0)) :=
      handleSupport_pops _ stk0 sup _ (fun x hx => (hstk0 x hx).1) hb
    obtain ⟨outM, stkM, heqM, hpostM, hstkM⟩ :=
      ihM (opLex 1 .plus :: sup) (stk0.reverse ++ out0 ++ ready0) (ts2 ++ rest)
        (by simp [BarrierL, opLex])
    obtain ⟨out, stk, heqT, hpostT, hstkT⟩ :=
      ihT sup ready0 rest (outM ++ stk0.reverse ++ out0) (stkM ++ [opLex 1 .plus])
        hb
        (by
          intro x hx
          rcases List.mem_append.mp hx with hx | hx
          · have := hstkM x hx; exact ⟨by omega, this.2⟩
          · simp at hx; subst hx; exact ⟨le_rfl, by decide⟩)
        (by
          simp only [List.reverse_append, List.reverse_reverse]
          rw [show postfixOf (AST.bin .add a b) = postfixOf a ++ postfixOf b ++ [opLexOf .add]
            from rfl]
          rw [← hinv, ← hpostM]
          simp [opLexOf])
    refine ⟨out, stk, ?_, hpostT, hstkT⟩
    rw [show (opLex 1 LexType.plus :: (tm ++ ts2)) ++ rest
        = opLex 1 LexType.plus :: (tm ++ (ts2 ++ rest)) by simp]
    rw [rpnLoop_op (opLex 1 .plus) _ _ _ (by decide) (by decide)]
    rw [hpop]
    rw [show stk0.reverse ++ (out0 ++ ready0) = (stk0.reverse ++ out0) ++ ready0 by simp]
    rw [heqM]
    rw [show outM ++ (stk0.reverse ++ out0 ++ ready0) = (outM ++ stk0.reverse ++ out0) ++ ready0 by simp]
    rw [show stkM ++ opLex 1 LexType.plus :: sup = (stkM ++ [opLex 1 LexType.plus]) ++ sup by simp]
    exact heqT
  | sumTsub a sM s2 tm ts2 b r hM hT ihM ihT =>
    intro sup ready0 rest out0 stk0 hb hstk0 hinv
    have hpop : handleSupportStack (opLex 1 .minus) (stk0 ++ sup) (out0 ++ ready0)
        = (opLex 1 .minus :: sup, stk0.reverse ++ (out0 ++ ready0)) :=
      handleSupport_pops _ stk0 sup _ (fun x hx => (hstk0 x hx).1) hb
    obtain ⟨outM, stkM, heqM, hpostM, hstkM⟩ :=
      ihM (opLex 1 .minus :: sup) (stk0.reverse ++ out0 ++ ready0) (ts2 ++ rest)
        (by simp [BarrierL, opLex])
    obtain ⟨out, stk, heqT, hpostT, hstkT⟩ :=
      ihT sup ready0 rest (outM ++ stk0.reverse ++ out0) (stkM ++ [opLex 1 .minus])
        hb
        (by
          intro x hx
          rcases List.mem_append.mp hx with hx | hx
          · have := hstkM x hx; exact ⟨by omega, this.2⟩
          · simp at hx; subst hx; exact ⟨le_rfl, by decide⟩)
        (by
          simp only [List.reverse_append, List.reverse_reverse]
          rw [show postfixOf (AST.bin .sub a b) = postfixOf a ++ postfixOf b ++ [opLexOf .sub]
            from rfl]
          rw [← hinv, ← hpostM]
          simp [opLexOf])
    refine ⟨out, stk, ?_, hpostT, hstkT⟩
    rw [show (opLex 1 LexType.minus :: (tm ++ ts2)) ++ rest
        = opLex 1 LexType.minus :: (tm ++ (ts2 ++ rest)) by simp]
    rw [rpnLoop_op (opLex 1 .minus) _ _ _ (by decide) (by decide)]
    rw [hpop]
    rw [show stk0.reverse ++ (out0 ++ ready0) = (stk0.reverse ++ out0) ++ ready0 by simp]
    rw [heqM]
    rw [show outM ++ (stk0.reverse ++ out0 ++ ready0) = (outM ++ stk0.reverse ++ out0) ++ ready0 by simp]
    rw [show stkM ++ opLex 1 LexType.minus :: sup = (stkM ++ [opLex 1 LexType.minus]) ++ sup by simp]
    exact heqT
  | exprPlain sM s2 tm ts2 a r hM hT ihM ihT =>
    intro sup ready rest hb
    obtain ⟨outM, stkM, heqM, hpostM, hstkM⟩ :=
      ihM sup ready (ts2 ++ rest) (BarrierL_mono (by omega) hb)
    obtain ⟨out, stk, heqT, hpostT, hstkT⟩ :=
      ihT sup ready rest outM stkM hb (OpStackP_mono (by omega) hstkM) hpostM
    refine ⟨out, stk, ?_, hpostT, hstkT⟩
    rw [show (tm ++ ts2) ++ rest = tm ++ (ts2 ++ rest) by simp]
    rw [heqM]
    exact heqT
  | exprNeg sM s2 tm ts2 a r hM hT ihM ihT =>
    intro sup ready rest hb
    have hpush : handleSupportStack (opLex 1 .minus) sup (numLex ⟨0, 1⟩ :: ready)
        = (opLex 1 .minus :: sup, numLex ⟨0, 1⟩ :: ready) := by
      have := handleSupport_pops (opLex 1 .minus) [] sup (numLex ⟨0, 1⟩ :: ready)
        (by intro x hx; cases hx) hb
      simpa using this
    obtain ⟨outM, stkM, heqM, hpostM, hstkM⟩ :=
      ihM (opLex 1 .minus :: sup) (numLex ⟨0, 1⟩ :: ready) (ts2 ++ rest)
        (by simp [BarrierL, opLex])
    obtain ⟨out, stk, heqT, hpostT, hstkT⟩ :=
      ihT sup ready rest (outM ++ [numLex ⟨0, 1⟩]) (stkM ++ [opLex 1 .minus])
        hb
        (by
          intro x hx
          rcases List.mem_append.mp hx with hx | hx
          · have := hstkM x hx; exact ⟨by omega, this.2⟩
          · simp at hx; subst hx; exact ⟨le_rfl, by decide⟩)
        (by
          simp only [List.reverse_append, List.reverse_reverse]
          rw [show postfixOf (AST.neg a) = numLex ⟨0, 1⟩ :: (postfixOf a ++ [opLex 1 .minus])
            from rfl]
          rw [← hpostM]
          simp)
    refine ⟨out, stk, ?_, hpostT, hstkT⟩
    rw [show (numLex ⟨0, 1⟩ :: opLex 1 LexType.minus :: (tm ++ ts2)) ++ rest
        = numLex ⟨0, 1⟩ :: opLex 1 LexType.minus :: (tm ++ (ts2 ++ rest)) by simp]
    rw [rpnLoop_num (numLex ⟨0, 1⟩) _ sup ready (Or.inl rfl)]
    rw [rpnLoop_op (opLex 1 .minus) _ _ _ (by decide) (by decide)]
    rw [hpush]
    rw [heqM]
    rw [show outM ++ numLex ⟨0, 1⟩ :: ready = (outM ++ [numLex ⟨0, 1⟩]) ++ ready by simp]
    rw [show stkM ++ opLex 1 LexType.minus :: sup = (stkM ++ [opLex 1 LexType.minus]) ++ sup by simp]
    exact heqT
  | exprPos sM s2 tm ts2 a r hM hT ihM ihT =>
    intro sup ready rest hb
    have hpush : handleSupportStack (opLex 1 .plus) sup (numLex ⟨0, 1⟩ :: ready)
        = (opLex 1 .plus :: sup, numLex ⟨0, 1⟩ :: ready) := by
      have := handleSupport_pops (opLex 1 .plus) [] sup (numLex ⟨0, 1⟩ :: ready)
        (by intro x hx; cases hx) hb
      simpa using this
    obtain ⟨outM, stkM, heqM, hpostM, hstkM⟩ :=
      ihM (opLex 1 .plus :: sup) (numLex ⟨0, 1⟩ :: ready) (ts2 ++ rest)
        (by simp [BarrierL, opLex])
    obtain ⟨out, stk, heqT, hpostT, hstkT⟩ :=
      ihT sup ready rest (outM ++ [numLex ⟨0, 1⟩]) (stkM ++ [opLex 1 .plus])
        hb
        (by
          intro x hx
          rcases List.mem_append.mp hx with hx | hx
          · have := hstkM x hx; exact ⟨by omega, this.2⟩
          · simp at hx; subst hx; exact ⟨le_rfl, by decide⟩)
        (by
          simp only [List.reverse_append, List.reverse_reverse]
          rw [show postfixOf (AST.pos a) = numLex ⟨0, 1⟩ :: (postfixOf a ++ [opLex 1 .plus])
            from rfl]
          rw [← hpostM]
          simp)
    refine ⟨out, stk, ?_, hpostT, hstkT⟩
    rw [show (numLex ⟨0, 1⟩ :: opLex 1 LexType.plus :: (tm ++ ts2)) ++ rest
        = numLex ⟨0, 1⟩ :: opLex 1 LexType.plus :: (tm ++ (ts2 ++ rest)) by simp]
    rw [rpnLoop_num (numLex ⟨0, 1⟩) _ sup ready (Or.inl rfl)]
    rw [rpnLoop_op (opLex 1 .plus) _ _ _ (by decide) (by decide)]
    rw [hpush]
    rw [heqM]
    rw [show outM ++ numLex ⟨0, 1⟩ :: ready = (outM ++ [numLex ⟨0, 1⟩]) ++ ready by simp]
    rw [show stkM ++ opLex 1 LexType.plus :: sup = (stkM ++ [opLex 1 LexType.plus]) ++ sup by simp]
    exact heqT


/-- The RPN builder maps the token sequence of any syntactically valid
expression to the postfix form of its syntax tree. -/
theorem makeRPN_of_G (s : List Char) (ts : List Lexeme) (ast : AST) (h : G .exprL s ts ast) :
    makeReversePolishNotationStack ts = some (postfixOf ast) := by
  obtain ⟨out, stk, heq, hpost, hstk⟩ := rpn_master .exprL s ts ast h [] [] [] trivial
  simp only [List.append_nil] at heq
  rw [makeReversePolishNotationStack]
  rw [heq]
  show some ((drainSupport stk out).reverse) = _
  rw [drainSupport_eq]
  rw [show (stk.reverse ++ out).reverse = out.reverse ++ stk by simp]
  rw [hpost]

/-!
### Stage lemmas: the tokenizer and the full validator accept every
grammatical input
-/

theorem NumBoundary.toNotDigit {rest : List Char} (h : NumBoundary rest) :
    NotDigitHead rest := by
  cases rest with
  | nil => trivial
  | cons c cs => exact h.1

theorem scanMant_append :
    ∀ (ds rest : List Char) (acc : ℤ), (∀ c ∈ ds, isDigitC c = true) → NotDigitHead rest →
      scanMant (ds ++ rest) acc
        = (ds.foldl (fun a c => 10 * a + ((c.toNat : ℤ) - ('0'.toNat : ℤ))) acc, rest) := by
  intro ds
  induction ds with
  | nil =>
    intro rest acc _ hb
    cases rest with
    | nil => rfl
    | cons c cs =>
      show scanMant (c :: cs) acc = _
      rw [scanMant]
      rw [if_neg (by simp [NotDigitHead] at hb; simp [hb])]
      rfl
  | cons d ds' ih =>
    intro rest acc hds hb
    show scanMant (d :: (ds' ++ rest)) acc = _
    rw [scanMant]
    rw [if_pos (hds d (by simp))]
    rw [ih rest _ (fun c hc => hds c (by simp [hc])) hb]
    rfl

theorem scanFrac_append :
    ∀ (ds rest : List Char) (acc : ℤ) (k : ℕ), (∀ c ∈ ds, isDigitC c = true) → NotDigitHead rest →
      scanFrac (ds ++ rest) acc k
        = ((ds.foldl (fun a c => 10 * a + ((c.toNat : ℤ) - ('0'.toNat : ℤ))) acc, k + ds.length), rest) := by
  intro ds
  induction ds with
  | nil =>
    intro rest acc k _ hb
    cases rest with
    | nil => rfl
    | cons c cs =>
      show scanFrac (c :: cs) acc k = _
      rw [scanFrac]
      rw [if_neg (by simp [NotDigitHead] at hb; simp [hb])]
      rfl
  | cons d ds' ih =>
    intro rest acc k hds hb
    show scanFrac (d :: (ds' ++ rest)) acc k = _
    rw [scanFrac]
    rw [if_pos (hds d (by simp))]
    rw [ih rest _ (k + 1) (fun c hc => hds c (by simp [hc])) hb]
    simp only [List.length_cons]
    rw [show k + 1 + ds'.length = k + (ds'.length + 1) by omega]
    rfl

theorem sdFrac_nodot (ip : ℤ) (r1 : List Char)
    (h : match r1 with | [] => True | c :: _ => c ≠ '.') :
    sdFrac ip r1 = (⟨ip, 1⟩, r1) := by
  rw [sdFrac.eq_def]
  split
  · rename_i cs
    exact absurd rfl h
  · rfl

theorem sdExp_stop (m : Q0) (r2 : List Char)
    (h : match r2 with | [] => True | c :: _ => c ≠ 'e' ∧ c ≠ 'E') :
    sdExp m r2 = (m, r2) := by
  rw [sdExp.eq_def]
  split
  · rename_i e s cs2
    rw [if_neg (by rintro (he | he) <;> simp [he] at h)]
  · rfl

theorem digit_not_sign {c : Char} (h : isDigitC c = true) : ¬ (c = '+' ∨ c = '-') := by
  rintro (rfl | rfl) <;> exact absurd h (by decide)

theorem sdExp_cons2 (m : Q0) (e s : Char) (cs2 : List Char) :
    sdExp m (e :: s :: cs2) =
      if e = 'e' ∨ e = 'E' then
        if s = '+' ∨ s = '-' then
          match cs2 with
          | d2 :: _ =>
            if isDigitC d2 then
              let (ev, r3) := scanMant cs2 0
              (applyExp10 m (if s = '-' then -ev else ev), r3)
            else (m, e :: s :: cs2)
          | [] => (m, e :: s :: cs2)
        else if isDigitC s then
          let (ev, r3) := scanMant (s :: cs2) 0
          (applyExp10 m ev, r3)
        else (m, e :: s :: cs2)
      else (m, e :: s :: cs2) := rfl

theorem sdExp_cons3 (m : Q0) (e s d2 : Char) (tl : List Char) :
    sdExp m (e :: s :: d2 :: tl) =
      if e = 'e' ∨ e = 'E' then
        if s = '+' ∨ s = '-' then
          if isDigitC d2 then
            let (ev, r3) := scanMant (d2 :: tl) 0
            (applyExp10 m (if s = '-' then -ev else ev), r3)
          else (m, e :: s :: d2 :: tl)
        else if isDigitC s then
          let (ev, r3) := scanMant (s :: d2 :: tl) 0
          (applyExp10 m ev, r3)
        else (m, e :: s :: d2 :: tl)
      else (m, e :: s :: d2 :: tl) := rfl

theorem sdFrac_dot (ip : ℤ) (cs : List Char) :
    sdFrac ip ('.' :: cs) =
      (let ((fp, k), r) := scanFrac cs 0 0
       ((⟨ip * (10 : ℤ) ^ k + fp, (10 : ℤ) ^ k⟩ : Q0), r)) := rfl

theorem scanDouble_cons (c : Char) (cs : List Char) :
    scanDouble (c :: cs) =
      (if ¬ isDigitC c then none
       else
         let (ip, r1) := scanMant (c :: cs) 0
         let (mant, r2) := sdFrac ip r1
         some (sdExp mant r2)) := rfl

/-- The exponent scan consumes exactly a well-formed exponent suffix. -/
theorem sdExp_expo (le : List Char) (q0 q' : Q0) (rest : List Char)
    (he : ExpoG le q0 q') (hb : NumBoundary rest) :
    sdExp q0 (le ++ rest) = (q', rest) := by
  cases he with
  | none =>
    show sdExp q0 rest = (q0, rest)
    apply sdExp_stop
    cases rest with
    | nil => trivial
    | cons c cs => exact ⟨hb.2.2.1, hb.2.2.2⟩
  | noSign e ds2 q he1 hds2 =>
    obtain ⟨d2, ds2', rfl⟩ : ∃ d2 ds2', ds2 = d2 :: ds2' := by
      rcases ds2 with _ | ⟨d2, ds2'⟩
      · exact absurd rfl hds2.1
      · exact ⟨d2, ds2', rfl⟩
    have hd2 : isDigitC d2 = true := hds2.2 d2 (by simp)
    have h1 : scanMant (d2 :: (ds2' ++ rest)) 0 = (digitsVal (d2 :: ds2'), rest) := by
      have h := scanMant_append (d2 :: ds2') rest 0 hds2.2 hb.toNotDigit
      simpa [digitsVal] using h
    show sdExp q0 (e :: d2 :: (ds2' ++ rest)) = (applyExp10 q0 (digitsVal (d2 :: ds2')), rest)
    rw [sdExp_cons2, if_pos he1, if_neg (digit_not_sign hd2), if_pos hd2, h1]
  | signed e sg ds2 q he1 hsg hds2 =>
    obtain ⟨d2, ds2', rfl⟩ : ∃ d2 ds2', ds2 = d2 :: ds2' := by
      rcases ds2 with _ | ⟨d2, ds2'⟩
      · exact absurd rfl hds2.1
      · exact ⟨d2, ds2', rfl⟩
    have hd2 : isDigitC d2 = true := hds2.2 d2 (by simp)
    have h1 : scanMant (d2 :: (ds2' ++ rest)) 0 = (digitsVal (d2 :: ds2'), rest) := by
      have h := scanMant_append (d2 :: ds2') rest 0 hds2.2 hb.toNotDigit
      simpa [digitsVal] using h
    show sdExp q0 (e :: sg :: d2 :: (ds2' ++ rest))
        = (applyExp10 q0
            (if sg = '-' then -(digitsVal (d2 :: ds2')) else digitsVal (d2 :: ds2')), rest)
    rw [sdExp_cons3, if_pos he1, if_pos hsg, if_pos hd2, h1]

theorem ExpoG_notDigitHead {le : List Char} {q0 q' : Q0} {rest : List Char}
    (he : ExpoG le q0 q') (hb : NumBoundary rest) : NotDigitHead (le ++ rest) := by
  cases he with
  | none => exact hb.toNotDigit
  | noSign e ds2 q he1 hds2 =>
    show isDigitC e = false
    rcases he1 with rfl | rfl <;> decide
  | signed e sg ds2 q he1 hsg hds2 =>
    show isDigitC e = false
    rcases he1 with rfl | rfl <;> decide

theorem ExpoG_noDotHead {le : List Char} {q0 q' : Q0} {rest : List Char}
    (he : ExpoG le q0 q') (hb : NumBoundary rest) :
    (match le ++ rest with | [] => True | c :: _ => c ≠ '.') := by
  cases he with
  | none =>
    cases rest with
    | nil => trivial
    | cons c cs => exact hb.2.1
  | noSign e ds2 q he1 hds2 =>
    show e ≠ '.'
    rcases he1 with rfl | rfl <;> decide
  | signed e sg ds2 q he1 hsg hds2 =>
    show e ≠ '.'
    rcases he1 with rfl | rfl <;> decide

/-- The `%le` scan consumes exactly a numeric literal, with its exact
value, when what follows cannot extend it. -/
theorem scanDouble_lit (s : List Char) (q : Q0) (rest : List Char)
    (hn : NumLit s q) (hb : NumBoundary rest) :
    scanDouble (s ++ rest) = some (q, rest) := by
  rcases hn with ⟨lm, le, q0, q', hm, he⟩
  cases hm with
  | int ds hds =>
    obtain ⟨d, ds', rfl⟩ : ∃ d ds', lm = d :: ds' := by
      rcases lm with _ | ⟨d, ds'⟩
      · exact absurd rfl hds.1
      · exact ⟨d, ds', rfl⟩
    have hd : isDigitC d = true := hds.2 d (by simp)
    have hnd : NotDigitHead (le ++ rest) := ExpoG_notDigitHead he hb
    have h1 : scanMant (d :: (ds' ++ (le ++ rest))) 0 = (digitsVal (d :: ds'), le ++ rest) := by
      have h := scanMant_append (d :: ds') (le ++ rest) 0 hds.2 hnd
      simpa [digitsVal] using h
    rw [show (d :: ds' ++ le) ++ rest = d :: (ds' ++ (le ++ rest)) by simp]
    rw [scanDouble_cons, if_neg (by simp [hd])]
    show (match sdFrac (scanMant (d :: (ds' ++ (le ++ rest))) 0).1
            (scanMant (d :: (ds' ++ (le ++ rest))) 0).2 with
          | (mant, r2) => some (sdExp mant r2)) = some (q, rest)
    rw [h1]
    show some (sdExp (sdFrac (digitsVal (d :: ds')) (le ++ rest)).1
          (sdFrac (digitsVal (d :: ds')) (le ++ rest)).2) = some (q, rest)
    rw [sdFrac_nodot _ _ (ExpoG_noDotHead he hb)]
    show some (sdExp ⟨digitsVal (d :: ds'), 1⟩ (le ++ rest)) = some (q, rest)
    rw [sdExp_expo le _ q rest he hb]
  | frac ds fr hds hfr =>
    obtain ⟨d, ds', rfl⟩ : ∃ d ds', ds = d :: ds' := by
      rcases ds with _ | ⟨d, ds'⟩
      · exact absurd rfl hds.1
      · exact ⟨d, ds', rfl⟩
    have hd : isDigitC d = true := hds.2 d (by simp)
    have hnd : NotDigitHead (le ++ rest) := ExpoG_notDigitHead he hb
    have h1 : scanMant (d :: (ds' ++ ('.' :: (fr ++ (le ++ rest))))) 0
        = (digitsVal (d :: ds'), '.' :: (fr ++ (le ++ rest))) := by
      have h := scanMant_append (d :: ds') ('.' :: (fr ++ (le ++ rest))) 0 hds.2
        (show isDigitC '.' = false by decide)
      simpa [digitsVal] using h
    have h2 : scanFrac (fr ++ (le ++ rest)) 0 0 = ((digitsVal fr, fr.length), le ++ rest) := by
      have h := scanFrac_append fr (le ++ rest) 0 0 hfr.2 hnd
      simpa [digitsVal] using h
    rw [show ((d :: ds' ++ '.' :: fr) ++ le) ++ rest
        = d :: (ds' ++ ('.' :: (fr ++ (le ++ rest)))) by simp]
    rw [scanDouble_cons, if_neg (by simp [hd])]
    show (match sdFrac (scanMant (d :: (ds' ++ ('.' :: (fr ++ (le ++ rest))))) 0).1
            (scanMant (d :: (ds' ++ ('.' :: (fr ++ (le ++ rest))))) 0).2 with
          | (mant, r2) => some (sdExp mant r2)) = some (q, rest)
    rw [h1]
    show some (sdExp (sdFrac (digitsVal (d :: ds')) ('.' :: (fr ++ (le ++ rest)))).1
          (sdFrac (digitsVal (d :: ds')) ('.' :: (fr ++ (le ++ rest)))).2) = some (q, rest)
    rw [sdFrac_dot]
    show some (sdExp ⟨digitsVal (d :: ds') * (10 : ℤ) ^ (scanFrac (fr ++ (le ++ rest)) 0 0).1.2
            + (scanFrac (fr ++ (le ++ rest)) 0 0).1.1,
          (10 : ℤ) ^ (scanFrac (fr ++ (le ++ rest)) 0 0).1.2⟩
          (scanFrac (fr ++ (le ++ rest)) 0 0).2) = some (q, rest)
    rw [h2]
    show some (sdExp ⟨digitsVal (d :: ds') * (10 : ℤ) ^ fr.length + digitsVal fr,
          (10 : ℤ) ^ fr.length⟩ (le ++ rest)) = some (q, rest)
    rw [sdExp_expo le _ q rest he hb]

theorem scanMant_len : ∀ (l : List Char) (acc : ℤ), (scanMant l acc).2.length ≤ l.length := by
  intro l
  induction l with
  | nil => intro acc; simp [scanMant]
  | cons c cs ih =>
    intro acc
    simp only [scanMant]
    by_cases hc : isDigitC c
    · rw [if_pos hc]; exact le_trans (ih _) (by simp)
    · rw [if_neg hc]

theorem scanFrac_len : ∀ (l : List Char) (acc : ℤ) (k : ℕ),
    (scanFrac l acc k).2.length ≤ l.length := by
  intro l
  induction l with
  | nil => intro acc k; simp [scanFrac]
  | cons c cs ih =>
    intro acc k
    simp only [scanFrac]
    by_cases hc : isDigitC c
    · rw [if_pos hc]; exact le_trans (ih _ _) (by simp)
    · rw [if_neg hc]

theorem sdFrac_len (ip : ℤ) (r : List Char) : (sdFrac ip r).2.length ≤ r.length := by
  rw [sdFrac.eq_def]
  split
  · rename_i cs
    show (scanFrac cs 0 0).2.length ≤ ('.' :: cs).length
    exact le_trans (scanFrac_len _ _ _) (by simp)
  · exact le_refl _

theorem sdExp_len (m : Q0) (r : List Char) : (sdExp m r).2.length ≤ r.length := by
  rw [sdExp.eq_def]
  split
  · rename_i e s cs2
    by_cases h1 : e = 'e' ∨ e = 'E'
    · rw [if_pos h1]
      by_cases h2 : s = '+' ∨ s = '-'
      · rw [if_pos h2]
        cases cs2 with
        | nil => exact le_refl _
        | cons d2 tl =>
          show ((if isDigitC d2 = true then _ else _ : Q0 × List Char)).2.length ≤ (e :: s :: d2 :: tl).length
          by_cases h3 : isDigitC d2
          · rw [if_pos h3]
            show (scanMant (d2 :: tl) 0).2.length ≤ (e :: s :: d2 :: tl).length
            exact le_trans (scanMant_len _ _) (by simp)
          · rw [if_neg h3]
      · rw [if_neg h2]
        by_cases h3 : isDigitC s
        · rw [if_pos h3]
          show (scanMant (s :: cs2) 0).2.length ≤ (e :: s :: cs2).length
          exact le_trans (scanMant_len _ _) (by simp)
        · rw [if_neg h3]
    · rw [if_neg h1]
  · exact le_refl _

theorem scanDouble_len (l : List Char) (q : Q0) (rest : List Char)
    (h : scanDouble l = some (q, rest)) : rest.length < l.length := by
  cases l with
  | nil => simp [scanDouble] at h
  | cons c cs =>
    rw [scanDouble_cons] at h
    by_cases hc : isDigitC c
    · rw [if_neg (by simp [hc])] at h
      have h' : some (sdExp (sdFrac (scanMant (c :: cs) 0).1 (scanMant (c :: cs) 0).2).1
          (sdFrac (scanMant (c :: cs) 0).1 (scanMant (c :: cs) 0).2).2) = some (q, rest) := h
      have hrest : rest
          = (sdExp (sdFrac (scanMant (c :: cs) 0).1 (scanMant (c :: cs) 0).2).1
              (sdFrac (scanMant (c :: cs) 0).1 (scanMant (c :: cs) 0).2).2).2 := by
        injection h' with h''
        exact congrArg Prod.snd h''.symm
      have h1 : (scanMant (c :: cs) 0).2.length ≤ cs.length := by
        rw [show scanMant (c :: cs) 0
            = scanMant cs (10 * 0 + ((c.toNat : ℤ) - ('0'.toNat : ℤ))) by
          simp [scanMant, hc]]
        exact scanMant_len cs _
      calc rest.length
          = (sdExp (sdFrac (scanMant (c :: cs) 0).1 (scanMant (c :: cs) 0).2).1
              (sdFrac (scanMant (c :: cs) 0).1 (scanMant (c :: cs) 0).2).2).2.length := by
            rw [← hrest]
        _ ≤ (sdFrac (scanMant (c :: cs) 0).1 (scanMant (c :: cs) 0).2).2.length :=
            sdExp_len _ _
        _ ≤ (scanMant (c :: cs) 0).2.length := sdFrac_len _ _
        _ ≤ cs.length := h1
        _ < (c :: cs).length := by simp
    · rw [if_pos hc] at h
      exact absurd h (by simp)

theorem scanIntFallback_len (l : List Char) : (scanIntFallback l).2.length ≤ l.length := by
  rw [scanIntFallback.eq_def]
  split
  · simp
  · rename_i s cs
    by_cases h1 : s = '-' ∨ s = '+'
    · rw [if_pos h1]
      cases cs with
      | nil => exact le_refl _
      | cons d tl =>
        show ((if isDigitC d = true then _ else _ : ℤ × List Char)).2.length ≤ (s :: d :: tl).length
        by_cases h2 : isDigitC d
        · rw [if_pos h2]
          show (scanMant (d :: tl) 0).2.length ≤ (s :: d :: tl).length
          exact le_trans (scanMant_len _ _) (by simp)
        · rw [if_neg h2]
    · rw [if_neg h1]
      by_cases h2 : isDigitC s
      · rw [if_pos h2]
        show (scanMant (s :: cs) 0).2.length ≤ (s :: cs).length
        exact scanMant_len _ _
      · rw [if_neg h2]

theorem funcNameAt_k (l : List Char) (i : ℕ) (t : LexType) (k : ℕ)
    (h : funcNameAt l i = some (t, k)) : 1 ≤ k := by
  simp only [funcNameAt] at h
  split_ifs at h <;> (try simp_all) <;> omega

theorem parseLex_cons (f : ℕ) (c : Char) (cs : List Char) (acc : List Lexeme)
    (unary first : Bool) :
    parseStringIntoLexemes (f + 1) (c :: cs) acc unary first =
      (if isDigitC c ∨ c = 'x' ∨ c = 'e' ∨ c = 'E' then
        match scanDouble (c :: cs) with
        | some (q, rest) => parseStringIntoLexemes f rest (acc ++ [numLex q]) unary first
        | none =>
          let (z, rest) := scanIntFallback cs
          match acc.getLast? with
          | none => none
          | some lastLex =>
            parseStringIntoLexemes f rest
              (acc.dropLast ++ [{ lastLex with value := .num (Q0.ofInt z) }]) unary first
      else if c = '+' ∨ c = '-' ∨ c = '*' ∨ c = '/' ∨ c = '^' then
        if c = '+' ∨ c = '-' then
          let zeroIns : List Lexeme := if unary ∨ first then [numLex ⟨0, 1⟩] else []
          let sgn := if c = '+' then opLex 1 .plus else opLex 1 .minus
          parseStringIntoLexemes f cs (acc ++ zeroIns ++ [sgn]) false false
        else if c = '*' then parseStringIntoLexemes f cs (acc ++ [opLex 2 .mult]) unary first
        else if c = '/' then parseStringIntoLexemes f cs (acc ++ [opLex 2 .division]) unary first
        else parseStringIntoLexemes f cs (acc ++ [opLex 3 .pow_t]) unary first
      else if c = 'a' ∨ c = 's' ∨ c = 'l' ∨ c = 't' ∨ c = 'c' ∨ c = 'm' then
        match funcNameAt (c :: cs) 0 with
        | some (t, k) =>
          parseStringIntoLexemes f ((c :: cs).drop k) (acc ++ [opLex 4 t]) unary first
        | none => none
      else if c = '(' ∨ c = ')' then
        if c = '(' then
          let unary' := if chAt cs 0 = '+' ∨ chAt cs 0 = '-' then true else unary
          parseStringIntoLexemes f cs (acc ++ [opLex 0 .open_p]) unary' first
        else parseStringIntoLexemes f cs (acc ++ [opLex 0 .close_p]) unary first
      else none) := rfl

theorem parseLex_fuel : ∀ (N : ℕ) (rem : List Char), rem.length ≤ N →
    ∀ (f₁ f₂ : ℕ) (acc : List Lexeme) (u fst : Bool),
      rem.length < f₁ → rem.length < f₂ →
      parseStringIntoLexemes f₁ rem acc u fst = parseStringIntoLexemes f₂ rem acc u fst := by
  intro N
  induction N with
  | zero =>
    intro rem hN f₁ f₂ acc u fst h1 h2
    have hr : rem = [] := List.length_eq_zero.mp (Nat.le_zero.mp hN)
    subst hr
    obtain ⟨g₁, rfl⟩ : ∃ g, f₁ = g + 1 := ⟨f₁ - 1, by omega⟩
    obtain ⟨g₂, rfl⟩ : ∃ g, f₂ = g + 1 := ⟨f₂ - 1, by omega⟩
    rfl
  | succ N ih =>
    intro rem hN f₁ f₂ acc u fst h1 h2
    obtain ⟨g₁, rfl⟩ : ∃ g, f₁ = g + 1 := ⟨f₁ - 1, by omega⟩
    obtain ⟨g₂, rfl⟩ : ∃ g, f₂ = g + 1 := ⟨f₂ - 1, by omega⟩
    cases rem with
    | nil => rfl
    | cons c cs =>
      have hcs : cs.length ≤ N := by simpa using hN
      have hg₁ : cs.length < g₁ := by simpa using h1
      have hg₂ : cs.length < g₂ := by simpa using h2
      rw [parseLex_cons, parseLex_cons]
      by_cases hA : isDigitC c ∨ c = 'x' ∨ c = 'e' ∨ c = 'E'
      · rw [if_pos hA, if_pos hA]
        rcases hsd : scanDouble (c :: cs) with _ | ⟨q, rest⟩
        · rcases hacc : acc.getLast? with _ | lastLex
          · rfl
          · have hlen : (scanIntFallback cs).2.length ≤ cs.length := scanIntFallback_len cs
            exact ih (scanIntFallback cs).2 (by omega) g₁ g₂ _ u fst (by omega) (by omega)
        · have hlen : rest.length < (c :: cs).length := scanDouble_len _ _ _ hsd
          simp only [List.length_cons] at hlen
          exact ih rest (by omega) g₁ g₂ _ u fst (by omega) (by omega)
      · rw [if_neg hA, if_neg hA]
        by_cases hB : c = '+' ∨ c = '-' ∨ c = '*' ∨ c = '/' ∨ c = '^'
        · rw [if_pos hB, if_pos hB]
          by_cases hC : c = '+' ∨ c = '-'
          · rw [if_pos hC, if_pos hC]
            exact ih cs hcs g₁ g₂ _ false false hg₁ hg₂
          · rw [if_neg hC, if_neg hC]
            by_cases hD : c = '*'
            · rw [if_pos hD, if_pos hD]
              exact ih cs hcs g₁ g₂ _ u fst hg₁ hg₂
            · rw [if_neg hD, if_neg hD]
              by_cases hE : c = '/'
              · rw [if_pos hE, if_pos hE]
                exact ih cs hcs g₁ g₂ _ u fst hg₁ hg₂
              · rw [if_neg hE, if_neg hE]
                exact ih cs hcs g₁ g₂ _ u fst hg₁ hg₂
        · rw [if_neg hB, if_neg hB]
          by_cases hF : c = 'a' ∨ c = 's' ∨ c = 'l' ∨ c = 't' ∨ c = 'c' ∨ c = 'm'
          · rw [if_pos hF, if_pos hF]
            rcases hfn : funcNameAt (c :: cs) 0 with _ | ⟨t, k⟩
            · rfl
            · have hk : 1 ≤ k := funcNameAt_k _ _ _ _ hfn
              have hdl : ((c :: cs).drop k).length ≤ cs.length := by
                simp only [List.length_drop, List.length_cons]
                omega
              exact ih ((c :: cs).drop k) (by omega) g₁ g₂ _ u fst (by omega) (by omega)
          · rw [if_neg hF, if_neg hF]
            by_cases hG : c = '(' ∨ c = ')'
            · rw [if_pos hG, if_pos hG]
              by_cases hH : c = '('
              · rw [if_pos hH, if_pos hH]
                exact ih cs hcs g₁ g₂ _ _ fst hg₁ hg₂
              · rw [if_neg hH, if_neg hH]
                exact ih cs hcs g₁ g₂ _ u fst hg₁ hg₂
            · rw [if_neg hG, if_neg hG]

theorem tokRun_eq (f : ℕ) (rem : List Char) (acc : List Lexeme) (u fst : Bool)
    (h : rem.length < f) :
    parseStringIntoLexemes f rem acc u fst = tokRun rem acc u fst :=
  parseLex_fuel rem.length rem (le_refl _) f (rem.length + 1) acc u fst h (by omega)

theorem tok_step_num (c : Char) (cs : List Char) (acc : List Lexeme) (u fst : Bool)
    (q : Q0) (rest : List Char) (h1 : isDigitC c = true)
    (hsd : scanDouble (c :: cs) = some (q, rest)) :
    tokRun (c :: cs) acc u fst = tokRun rest (acc ++ [numLex q]) u fst := by
  rw [show tokRun (c :: cs) acc u fst
      = parseStringIntoLexemes (cs.length + 1 + 1) (c :: cs) acc u fst from rfl]
  rw [parseLex_cons, if_pos (Or.inl h1), hsd]
  have hlen : rest.length < cs.length + 1 := by
    have := scanDouble_len _ _ _ hsd
    simp only [List.length_cons] at this
    omega
  exact tokRun_eq _ _ _ _ _ hlen

theorem tok_step_minus (cs : List Char) (acc : List Lexeme) (u fst : Bool) :
    tokRun ('-' :: cs) acc u fst
      = tokRun cs (acc ++ (if u ∨ fst then [numLex ⟨0, 1⟩] else []) ++ [opLex 1 .minus])
          false false := by
  rw [show tokRun ('-' :: cs) acc u fst
      = parseStringIntoLexemes (cs.length + 1 + 1) ('-' :: cs) acc u fst from rfl]
  rw [parseLex_cons, if_neg (by decide), if_pos (by decide), if_pos (by decide)]
  exact tokRun_eq _ _ _ _ _ (by omega)

theorem tok_step_plus (cs : List Char) (acc : List Lexeme) (u fst : Bool) :
    tokRun ('+' :: cs) acc u fst
      = tokRun cs (acc ++ (if u ∨ fst then [numLex ⟨0, 1⟩] else []) ++ [opLex 1 .plus])
          false false := by
  rw [show tokRun ('+' :: cs) acc u fst
      = parseStringIntoLexemes (cs.length + 1 + 1) ('+' :: cs) acc u fst from rfl]
  rw [parseLex_cons, if_neg (by decide), if_pos (by decide), if_pos (by decide)]
  exact tokRun_eq _ _ _ _ _ (by omega)

theorem tok_step_mult (cs : List Char) (acc : List Lexeme) (u fst : Bool) :
    tokRun ('*' :: cs) acc u fst = tokRun cs (acc ++ [opLex 2 .mult]) u fst := by
  rw [show tokRun ('*' :: cs) acc u fst
      = parseStringIntoLexemes (cs.length + 1 + 1) ('*' :: cs) acc u fst from rfl]
  rw [parseLex_cons, if_neg (by decide), if_pos (by decide), if_neg (by decide),
    if_pos (by decide)]
  exact tokRun_eq _ _ _ _ _ (by omega)

theorem tok_step_division (cs : List Char) (acc : List Lexeme) (u fst : Bool) :
    tokRun ('/' :: cs) acc u fst = tokRun cs (acc ++ [opLex 2 .division]) u fst := by
  rw [show tokRun ('/' :: cs) acc u fst
      = parseStringIntoLexemes (cs.length + 1 + 1) ('/' :: cs) acc u fst from rfl]
  rw [parseLex_cons, if_neg (by decide), if_pos (by decide), if_neg (by decide),
    if_neg (by decide), if_pos (by decide)]
  exact tokRun_eq _ _ _ _ _ (by omega)

theorem tok_step_pow (cs : List Char) (acc : List Lexeme) (u fst : Bool) :
    tokRun ('^' :: cs) acc u fst = tokRun cs (acc ++ [opLex 3 .pow_t]) u fst := by
  rw [show tokRun ('^' :: cs) acc u fst
      = parseStringIntoLexemes (cs.length + 1 + 1) ('^' :: cs) acc u fst from rfl]
  rw [parseLex_cons, if_neg (by decide), if_pos (by decide), if_neg (by decide),
    if_neg (by decide), if_neg (by decide)]
  exact tokRun_eq _ _ _ _ _ (by omega)

theorem tok_step_open (cs : List Char) (acc : List Lexeme) (u fst : Bool) :
    tokRun ('(' :: cs) acc u fst
      = tokRun cs (acc ++ [opLex 0 .open_p])
          (if chAt cs 0 = '+' ∨ chAt cs 0 = '-' then true else u) fst := by
  rw [show tokRun ('(' :: cs) acc u fst
      = parseStringIntoLexemes (cs.length + 1 + 1) ('(' :: cs) acc u fst from rfl]
  rw [parseLex_cons, if_neg (by decide), if_neg (by decide), if_neg (by decide),
    if_pos (by decide), if_pos (by decide)]
  exact tokRun_eq _ _ _ _ _ (by omega)

theorem tok_step_close (cs : List Char) (acc : List Lexeme) (u fst : Bool) :
    tokRun (')' :: cs) acc u fst = tokRun cs (acc ++ [opLex 0 .close_p]) u fst := by
  rw [show tokRun (')' :: cs) acc u fst
      = parseStringIntoLexemes (cs.length + 1 + 1) (')' :: cs) acc u fst from rfl]
  rw [parseLex_cons, if_neg (by decide), if_neg (by decide), if_neg (by decide),
    if_pos (by decide), if_neg (by decide)]
  exact tokRun_eq _ _ _ _ _ (by omega)

theorem tok_step_fn (fk : FuncK) (cs : List Char) (acc : List Lexeme) (u fst : Bool) :
    tokRun (fname fk ++ ('(' :: cs)) acc u fst
      = tokRun ('(' :: cs) (acc ++ [opLex 4 (ftype fk)]) u fst := by
  cases fk with
  | fsin =>
    rw [show tokRun (fname .fsin ++ ('(' :: cs)) acc u fst
        = parseStringIntoLexemes (('s' :: 'i' :: 'n' :: '(' :: cs).length + 1)
            ('s' :: 'i' :: 'n' :: '(' :: cs) acc u fst from rfl]
    rw [parseLex_cons, if_neg (by decide), if_neg (by decide), if_pos (by decide)]
    rw [show funcNameAt ('s' :: 'i' :: 'n' :: '(' :: cs) 0 = some (LexType.sin_t, 3) from rfl]
    exact tokRun_eq _ _ _ _ _ (by simp only [List.length_cons, List.length_drop]; omega)
  | fcos =>
    rw [show tokRun (fname .fcos ++ ('(' :: cs)) acc u fst
        = parseStringIntoLexemes (('c' :: 'o' :: 's' :: '(' :: cs).length + 1)
            ('c' :: 'o' :: 's' :: '(' :: cs) acc u fst from rfl]
    rw [parseLex_cons, if_neg (by decide), if_neg (by decide), if_pos (by decide)]
    rw [show funcNameAt ('c' :: 'o' :: 's' :: '(' :: cs) 0 = some (LexType.cos_t, 3) from rfl]
    exact tokRun_eq _ _ _ _ _ (by simp only [List.length_cons, List.length_drop]; omega)
  | ftan =>
    rw [show tokRun (fname .ftan ++ ('(' :: cs)) acc u fst
        = parseStringIntoLexemes (('t' :: 'a' :: 'n' :: '(' :: cs).length + 1)
            ('t' :: 'a' :: 'n' :: '(' :: cs) acc u fst from rfl]
    rw [parseLex_cons, if_neg (by decide), if_neg (by decide), if_pos (by decide)]
    rw [show funcNameAt ('t' :: 'a' :: 'n' :: '(' :: cs) 0 = some (LexType.tan_t, 3) from rfl]
    exact tokRun_eq _ _ _ _ _ (by simp only [List.length_cons, List.length_drop]; omega)
  | fln =>
    rw [show tokRun (fname .fln ++ ('(' :: cs)) acc u fst
        = parseStringIntoLexemes (('l' :: 'n' :: '(' :: cs).length + 1)
            ('l' :: 'n' :: '(' :: cs) acc u fst from rfl]
    rw [parseLex_cons, if_neg (by decide), if_neg (by decide), if_pos (by decide)]
    rw [show funcNameAt ('l' :: 'n' :: '(' :: cs) 0 = some (LexType.ln_t, 2) from rfl]
    exact tokRun_eq _ _ _ _ _ (by simp only [List.length_cons, List.length_drop]; omega)
  | flog =>
    rw [show tokRun (fname .flog ++ ('(' :: cs)) acc u fst
        = parseStringIntoLexemes (('l' :: 'o' :: 'g' :: '(' :: cs).length + 1)
            ('l' :: 'o' :: 'g' :: '(' :: cs) acc u fst from rfl]
    rw [parseLex_cons, if_neg (by decide), if_neg (by decide), if_pos (by decide)]
    rw [show funcNameAt ('l' :: 'o' :: 'g' :: '(' :: cs) 0 = some (LexType.log_t, 3) from rfl]
    exact tokRun_eq _ _ _ _ _ (by simp only [List.length_cons, List.length_drop]; omega)
  | fsqrt =>
    rw [show tokRun (fname .fsqrt ++ ('(' :: cs)) acc u fst
        = parseStringIntoLexemes (('s' :: 'q' :: 'r' :: 't' :: '(' :: cs).length + 1)
            ('s' :: 'q' :: 'r' :: 't' :: '(' :: cs) acc u fst from rfl]
    rw [parseLex_cons, if_neg (by decide), if_neg (by decide), if_pos (by decide)]
    rw [show funcNameAt ('s' :: 'q' :: 'r' :: 't' :: '(' :: cs) 0
        = some (LexType.sqrt_t, 4) from rfl]
    exact tokRun_eq _ _ _ _ _ (by simp only [List.length_cons, List.length_drop]; omega)
  | fabs =>
    rw [show tokRun (fname .fabs ++ ('(' :: cs)) acc u fst
        = parseStringIntoLexemes (('a' :: 'b' :: 's' :: '(' :: cs).length + 1)
            ('a' :: 'b' :: 's' :: '(' :: cs) acc u fst from rfl]
    rw [parseLex_cons, if_neg (by decide), if_neg (by decide), if_pos (by decide)]
    rw [show funcNameAt ('a' :: 'b' :: 's' :: '(' :: cs) 0 = some (LexType.abs_t, 3) from rfl]
    exact tokRun_eq _ _ _ _ _ (by simp only [List.length_cons, List.length_drop]; omega)
  | fsqr =>
    rw [show tokRun (fname .fsqr ++ ('(' :: cs)) acc u fst
        = parseStringIntoLexemes (('s' :: 'q' :: 'r' :: '(' :: cs).length + 1)
            ('s' :: 'q' :: 'r' :: '(' :: cs) acc u fst from rfl]
    rw [parseLex_cons, if_neg (by decide), if_neg (by decide), if_pos (by decide)]
    rw [show funcNameAt ('s' :: 'q' :: 'r' :: '(' :: cs) 0 = some (LexType.sqr_t, 3) from rfl]
    exact tokRun_eq _ _ _ _ _ (by simp only [List.length_cons, List.length_drop]; omega)

theorem G_ne {lv : Lv} {s : List Char} {ts : List Lexeme} {ast : AST}
    (h : G lv s ts ast) :
    (lv = .fact ∨ lv = .powL ∨ lv = .mulL ∨ lv = .exprL) → s ≠ [] := by
  induction h with
  | num s q hn =>
    intro _
    rcases hn with ⟨lm, le, q0, q', hm, he⟩
    have hlm : lm ≠ [] := by
      cases hm with
      | int ds hds => exact hds.1
      | frac ds fr hds hfr => simp
    intro heq
    exact hlm (List.append_eq_nil.mp heq).1
  | paren s ts e hg ih => intro _; simp
  | call fk s ts e hg ih =>
    intro _
    cases fk <;> simp [fname]
  | powTnil a => rintro (h | h | h | h) <;> simp at h
  | powTcons a s s2 tf ts2 b r hf ht ihf iht => intro _; simp
  | powMk s s2 tf ts2 a r hf ht ihf iht =>
    intro _ heq
    exact ihf (Or.inl rfl) (List.append_eq_nil.mp heq).1
  | mulTnil a => rintro (h | h | h | h) <;> simp at h
  | mulTmul a s s2 tp ts2 b r hp ht ihp iht => intro _; simp
  | mulTdiv a s s2 tp ts2 b r hp ht ihp iht => intro _; simp
  | mulMk s s2 tp ts2 a r hp ht ihp iht =>
    intro _ heq
    exact ihp (Or.inr (Or.inl rfl)) (List.append_eq_nil.mp heq).1
  | sumTnil a => rintro (h | h | h | h) <;> simp at h
  | sumTadd a s s2 tm ts2 b r hm ht ihm iht => intro _; simp
  | sumTsub a s s2 tm ts2 b r hm ht ihm iht => intro _; simp
  | exprPlain s s2 tm ts2 a r hm ht ihm iht =>
    intro _ heq
    exact ihm (Or.inr (Or.inr (Or.inl rfl))) (List.append_eq_nil.mp heq).1
  | exprNeg s s2 tm ts2 a r hm ht ihm iht => intro _; simp
  | exprPos s s2 tm ts2 a r hm ht ihm iht => intro _; simp

theorem G_notSign {lv : Lv} {s : List Char} {ts : List Lexeme} {ast : AST}
    (h : G lv s ts ast) :
    (lv = .fact ∨ lv = .powL ∨ lv = .mulL) → NotSignHead s := by
  induction h with
  | num s q hn =>
    intro _
    rcases hn with ⟨lm, le, q0, q', hm, he⟩
    obtain ⟨d, tl, heq, hd⟩ : ∃ d tl, lm = d :: tl ∧ isDigitC d = true := by
      cases hm with
      | int ds hds =>
        rcases lm with _ | ⟨d, tl⟩
        · exact absurd rfl hds.1
        · exact ⟨d, tl, rfl, hds.2 d (by simp)⟩
      | frac ds fr hds hfr =>
        rcases ds with _ | ⟨d, tl⟩
        · exact absurd rfl hds.1
        · exact ⟨d, tl ++ '.' :: fr, by simp, hds.2 d (by simp)⟩
    rw [heq]
    show d ≠ '-' ∧ d ≠ '+'
    exact ⟨fun hh => digit_not_sign hd (Or.inr hh), fun hh => digit_not_sign hd (Or.inl hh)⟩
  | paren s ts e hg ih =>
    intro _
    exact (by decide : ('(' : Char) ≠ '-' ∧ ('(' : Char) ≠ '+')
  | call fk s ts e hg ih =>
    intro _
    cases fk <;> exact ⟨by decide, by decide⟩
  | powTnil a => rintro (h | h | h) <;> simp at h
  | powTcons a s s2 tf ts2 b r hf ht ihf iht => rintro (h | h | h) <;> simp at h
  | powMk s s2 tf ts2 a r hf ht ihf iht =>
    intro _
    have h1 := ihf (Or.inl rfl)
    have h2 : s ≠ [] := G_ne hf (Or.inl rfl)
    rcases s with _ | ⟨c, s'⟩
    · exact absurd rfl h2
    · exact h1
  | mulTnil a => rintro (h | h | h) <;> simp at h
  | mulTmul a s s2 tp ts2 b r hp ht ihp iht => rintro (h | h | h) <;> simp at h
  | mulTdiv a s s2 tp ts2 b r hp ht ihp iht => rintro (h | h | h) <;> simp at h
  | mulMk s s2 tp ts2 a r hp ht ihp iht =>
    intro _
    have h1 := ihp (Or.inr (Or.inl rfl))
    have h2 : s ≠ [] := G_ne hp (Or.inr (Or.inl rfl))
    rcases s with _ | ⟨c, s'⟩
    · exact absurd rfl h2
    · exact h1
  | sumTnil a => rintro (h | h | h) <;> simp at h
  | sumTadd a s s2 tm ts2 b r hm ht ihm iht => rintro (h | h | h) <;> simp at h
  | sumTsub a s s2 tm ts2 b r hm ht ihm iht => rintro (h | h | h) <;> simp at h
  | exprPlain s s2 tm ts2 a r hm ht ihm iht => rintro (h | h | h) <;> simp at h
  | exprNeg s s2 tm ts2 a r hm ht ihm iht => rintro (h | h | h) <;> simp at h
  | exprPos s s2 tm ts2 a r hm ht ihm iht => rintro (h | h | h) <;> simp at h

theorem T_master {lv : Lv} {s : List Char} {ts : List Lexeme} {ast : AST}
    (h : G lv s ts ast) : TMotive lv s ts := by
  induction h with
  | num s q hn =>
    intro rest acc hb
    have hsd := scanDouble_lit s q rest hn hb
    obtain ⟨d, s', heq, hd⟩ : ∃ d s', s = d :: s' ∧ isDigitC d = true := by
      rcases hn with ⟨lm, le, q0, q', hm, he⟩
      cases hm with
      | int ds hds =>
        rcases lm with _ | ⟨d, tl⟩
        · exact absurd rfl hds.1
        · exact ⟨d, tl ++ le, rfl, hds.2 d (by simp)⟩
      | frac ds fr hds hfr =>
        rcases ds with _ | ⟨d, tl⟩
        · exact absurd rfl hds.1
        · exact ⟨d, (tl ++ '.' :: fr) ++ le, by simp, hds.2 d (by simp)⟩
    subst heq
    exact tok_step_num d (s' ++ rest) acc false false q rest hd hsd
  | paren s ts e hg ih =>
    intro rest acc hb
    have hne : s ≠ [] := G_ne hg (Or.inr (Or.inr (Or.inr rfl)))
    rcases s with _ | ⟨c₀, s'⟩
    · exact absurd rfl hne
    rw [show ('(' :: ((c₀ :: s') ++ [')'])) ++ rest
        = '(' :: (((c₀ :: s') ++ [')']) ++ rest) from rfl]
    rw [tok_step_open]
    rw [show chAt (((c₀ :: s') ++ [')']) ++ rest) 0 = c₀ from rfl]
    have hbr : NumBoundary (')' :: rest) := ⟨by decide, by decide, by decide, by decide⟩
    by_cases hsig : c₀ = '+' ∨ c₀ = '-'
    · rw [if_pos hsig]
      have hsc : SignCond (c₀ :: s') true false := by
        show if c₀ = '-' ∨ c₀ = '+' then true = true ∨ false = true
          else true = false ∧ false = false
        rw [if_pos hsig.symm]
        exact Or.inl rfl
      rw [show ((c₀ :: s') ++ [')']) ++ rest = (c₀ :: s') ++ (')' :: rest) by simp]
      rw [ih (')' :: rest) (acc ++ [opLex 0 .open_p]) true false hbr hsc]
      rw [tok_step_close]
      rw [show acc ++ [opLex 0 .open_p] ++ ts ++ [opLex 0 .close_p]
          = acc ++ (opLex 0 .open_p :: (ts ++ [opLex 0 .close_p])) by simp]
    · rw [if_neg hsig]
      have hsc : SignCond (c₀ :: s') false false := by
        show if c₀ = '-' ∨ c₀ = '+' then false = true ∨ false = true
          else false = false ∧ false = false
        rw [if_neg (fun hh => hsig hh.symm)]
        exact ⟨rfl, rfl⟩
      rw [show ((c₀ :: s') ++ [')']) ++ rest = (c₀ :: s') ++ (')' :: rest) by simp]
      rw [ih (')' :: rest) (acc ++ [opLex 0 .open_p]) false false hbr hsc]
      rw [tok_step_close]
      rw [show acc ++ [opLex 0 .open_p] ++ ts ++ [opLex 0 .close_p]
          = acc ++ (opLex 0 .open_p :: (ts ++ [opLex 0 .close_p])) by simp]
  | call fk s ts e hg ih =>
    intro rest acc hb
    have hne : s ≠ [] := G_ne hg (Or.inr (Or.inr (Or.inr rfl)))
    rcases s with _ | ⟨c₀, s'⟩
    · exact absurd rfl hne
    rw [show (fname fk ++ ('(' :: ((c₀ :: s') ++ [')']))) ++ rest
        = fname fk ++ ('(' :: (((c₀ :: s') ++ [')']) ++ rest)) by simp]
    rw [tok_step_fn]
    rw [tok_step_open]
    rw [show chAt (((c₀ :: s') ++ [')']) ++ rest) 0 = c₀ from rfl]
    have hbr : NumBoundary (')' :: rest) := ⟨by decide, by decide, by decide, by decide⟩
    by_cases hsig : c₀ = '+' ∨ c₀ = '-'
    · rw [if_pos hsig]
      have hsc : SignCond (c₀ :: s') true false := by
        show if c₀ = '-' ∨ c₀ = '+' then true = true ∨ false = true
          else true = false ∧ false = false
        rw [if_pos hsig.symm]
        exact Or.inl rfl
      rw [show ((c₀ :: s') ++ [')']) ++ rest = (c₀ :: s') ++ (')' :: rest) by simp]
      rw [ih (')' :: rest) (acc ++ [opLex 4 (ftype fk)] ++ [opLex 0 .open_p]) true false hbr hsc]
      rw [tok_step_close]
      rw [show acc ++ [opLex 4 (ftype fk)] ++ [opLex 0 .open_p] ++ ts ++ [opLex 0 .close_p]
          = acc ++ (opLex 4 (ftype fk) :: opLex 0 .open_p :: (ts ++ [opLex 0 .close_p])) by simp]
    · rw [if_neg hsig]
      have hsc : SignCond (c₀ :: s') false false := by
        show if c₀ = '-' ∨ c₀ = '+' then false = true ∨ false = true
          else false = false ∧ false = false
        rw [if_neg (fun hh => hsig hh.symm)]
        exact ⟨rfl, rfl⟩
      rw [show ((c₀ :: s') ++ [')']) ++ rest = (c₀ :: s') ++ (')' :: rest) by simp]
      rw [ih (')' :: rest) (acc ++ [opLex 4 (ftype fk)] ++ [opLex 0 .open_p]) false false hbr hsc]
      rw [tok_step_close]
      rw [show acc ++ [opLex 4 (ftype fk)] ++ [opLex 0 .open_p] ++ ts ++ [opLex 0 .close_p]
          = acc ++ (opLex 4 (ftype fk) :: opLex 0 .open_p :: (ts ++ [opLex 0 .close_p])) by simp]
  | powTnil a =>
    intro rest acc hb
    exact ⟨hb, by rw [List.nil_append, List.append_nil]⟩
  | powTcons a s s2 tf ts2 b r hf ht ihf iht =>
    intro rest acc hb
    constructor
    · exact ⟨by decide, by decide, by decide, by decide⟩
    · rw [show ('^' :: (s ++ s2)) ++ rest = '^' :: ((s ++ s2) ++ rest) from rfl]
      rw [tok_step_pow]
      rw [show (s ++ s2) ++ rest = s ++ (s2 ++ rest) by simp]
      have hbs2 : NumBoundary (s2 ++ rest) := (iht rest acc hb).1
      rw [ihf (s2 ++ rest) (acc ++ [opLex 3 .pow_t]) hbs2]
      rw [(iht rest (acc ++ [opLex 3 .pow_t] ++ tf) hb).2]
      rw [show acc ++ [opLex 3 .pow_t] ++ tf ++ ts2
          = acc ++ (opLex 3 .pow_t :: (tf ++ ts2)) by simp]
  | powMk s s2 tf ts2 a r hf ht ihf iht =>
    intro rest acc hb
    rw [show (s ++ s2) ++ rest = s ++ (s2 ++ rest) by simp]
    have hbs2 : NumBoundary (s2 ++ rest) := (iht rest acc hb).1
    rw [ihf (s2 ++ rest) acc hbs2]
    rw [(iht rest (acc ++ tf) hb).2]
    rw [show acc ++ tf ++ ts2 = acc ++ (tf ++ ts2) by simp]
  | mulTnil a =>
    intro rest acc hb
    exact ⟨hb, by rw [List.nil_append, List.append_nil]⟩
  | mulTmul a s s2 tp ts2 b r hp ht ihp iht =>
    intro rest acc hb
    constructor
    · exact ⟨by decide, by decide, by decide, by decide⟩
    · rw [show ('*' :: (s ++ s2)) ++ rest = '*' :: ((s ++ s2) ++ rest) from rfl]
      rw [tok_step_mult]
      rw [show (s ++ s2) ++ rest = s ++ (s2 ++ rest) by simp]
      have hbs2 : NumBoundary (s2 ++ rest) := (iht rest acc hb).1
      rw [ihp (s2 ++ rest) (acc ++ [opLex 2 .mult]) hbs2]
      rw [(iht rest (acc ++ [opLex 2 .mult] ++ tp) hb).2]
      rw [show acc ++ [opLex 2 .mult] ++ tp ++ ts2
          = acc ++ (opLex 2 .mult :: (tp ++ ts2)) by simp]
  | mulTdiv a s s2 tp ts2 b r hp ht ihp iht =>
    intro rest acc hb
    constructor
    · exact ⟨by decide, by decide, by decide, by decide⟩
    · rw [show ('/' :: (s ++ s2)) ++ rest = '/' :: ((s ++ s2) ++ rest) from rfl]
      rw [tok_step_division]
      rw [show (s ++ s2) ++ rest = s ++ (s2 ++ rest) by simp]
      have hbs2 : NumBoundary (s2 ++ rest) := (iht rest acc hb).1
      rw [ihp (s2 ++ rest) (acc ++ [opLex 2 .division]) hbs2]
      rw [(iht rest (acc ++ [opLex 2 .division] ++ tp) hb).2]
      rw [show acc ++ [opLex 2 .division] ++ tp ++ ts2
          = acc ++ (opLex 2 .division :: (tp ++ ts2)) by simp]
  | mulMk s s2 tp ts2 a r hp ht ihp iht =>
    intro rest acc hb
    rw [show (s ++ s2) ++ rest = s ++ (s2 ++ rest) by simp]
    have hbs2 : NumBoundary (s2 ++ rest) := (iht rest acc hb).1
    rw [ihp (s2 ++ rest) acc hbs2]
    rw [(iht rest (acc ++ tp) hb).2]
    rw [show acc ++ tp ++ ts2 = acc ++ (tp ++ ts2) by simp]
  | sumTnil a =>
    intro rest acc hb
    exact ⟨hb, by rw [List.nil_append, List.append_nil]⟩
  | sumTadd a s s2 tm ts2 b r hm ht ihm iht =>
    intro rest acc hb
    constructor
    · exact ⟨by decide, by decide, by decide, by decide⟩
    · rw [show ('+' :: (s ++ s2)) ++ rest = '+' :: ((s ++ s2) ++ rest) from rfl]
      rw [tok_step_plus]
      rw [if_neg (by decide), List.append_nil]
      rw [show (s ++ s2) ++ rest = s ++ (s2 ++ rest) by simp]
      have hbs2 : NumBoundary (s2 ++ rest) := (iht rest acc hb).1
      rw [ihm (s2 ++ rest) (acc ++ [opLex 1 .plus]) hbs2]
      rw [(iht rest (acc ++ [opLex 1 .plus] ++ tm) hb).2]
      rw [show acc ++ [opLex 1 .plus] ++ tm ++ ts2
          = acc ++ (opLex 1 .plus :: (tm ++ ts2)) by simp]
  | sumTsub a s s2 tm ts2 b r hm ht ihm iht =>
    intro rest acc hb
    constructor
    · exact ⟨by decide, by decide, by decide, by decide⟩
    · rw [show ('-' :: (s ++ s2)) ++ rest = '-' :: ((s ++ s2) ++ rest) from rfl]
      rw [tok_step_minus]
      rw [if_neg (by decide), List.append_nil]
      rw [show (s ++ s2) ++ rest = s ++ (s2 ++ rest) by simp]
      have hbs2 : NumBoundary (s2 ++ rest) := (iht rest acc hb).1
      rw [ihm (s2 ++ rest) (acc ++ [opLex 1 .minus]) hbs2]
      rw [(iht rest (acc ++ [opLex 1 .minus] ++ tm) hb).2]
      rw [show acc ++ [opLex 1 .minus] ++ tm ++ ts2
          = acc ++ (opLex 1 .minus :: (tm ++ ts2)) by simp]
  | exprPlain s s2 tm ts2 a r hm ht ihm iht =>
    intro rest acc u fst hb hsc
    have hns : NotSignHead s := G_notSign hm (Or.inr (Or.inr rfl))
    have hne : s ≠ [] := G_ne hm (Or.inr (Or.inr (Or.inl rfl)))
    rcases s with _ | ⟨c₀, s'⟩
    · exact absurd rfl hne
    have hsc' : (if c₀ = '-' ∨ c₀ = '+' then u = true ∨ fst = true
        else u = false ∧ fst = false) := hsc
    rw [if_neg (fun hh => hh.elim (fun h1 => hns.1 h1) (fun h2 => hns.2 h2))] at hsc'
    obtain ⟨rfl, rfl⟩ : u = false ∧ fst = false := hsc'
    rw [show ((c₀ :: s') ++ s2) ++ rest = (c₀ :: s') ++ (s2 ++ rest) by simp]
    have hbs2 : NumBoundary (s2 ++ rest) := (iht rest acc hb).1
    rw [ihm (s2 ++ rest) acc hbs2]
    rw [(iht rest (acc ++ tm) hb).2]
    rw [show acc ++ tm ++ ts2 = acc ++ (tm ++ ts2) by simp]
  | exprNeg s s2 tm ts2 a r hm ht ihm iht =>
    intro rest acc u fst hb hsc
    have hsc' : (if ('-' : Char) = '-' ∨ ('-' : Char) = '+' then u = true ∨ fst = true
        else u = false ∧ fst = false) := hsc
    rw [if_pos (Or.inl rfl)] at hsc'
    rw [show ('-' :: (s ++ s2)) ++ rest = '-' :: ((s ++ s2) ++ rest) from rfl]
    rw [tok_step_minus]
    rw [if_pos hsc']
    rw [show (s ++ s2) ++ rest = s ++ (s2 ++ rest) by simp]
    have hbs2 : NumBoundary (s2 ++ rest) := (iht rest acc hb).1
    rw [ihm (s2 ++ rest) (acc ++ [numLex ⟨0, 1⟩] ++ [opLex 1 .minus]) hbs2]
    rw [(iht rest (acc ++ [numLex ⟨0, 1⟩] ++ [opLex 1 .minus] ++ tm) hb).2]
    rw [show acc ++ [numLex ⟨0, 1⟩] ++ [opLex 1 .minus] ++ tm ++ ts2
        = acc ++ (numLex ⟨0, 1⟩ :: opLex 1 .minus :: (tm ++ ts2)) by simp]
  | exprPos s s2 tm ts2 a r hm ht ihm iht =>
    intro rest acc u fst hb hsc
    have hsc' : (if ('+' : Char) = '-' ∨ ('+' : Char) = '+' then u = true ∨ fst = true
        else u = false ∧ fst = false) := hsc
    rw [if_pos (Or.inr rfl)] at hsc'
    rw [show ('+' :: (s ++ s2)) ++ rest = '+' :: ((s ++ s2) ++ rest) from rfl]
    rw [tok_step_plus]
    rw [if_pos hsc']
    rw [show (s ++ s2) ++ rest = s ++ (s2 ++ rest) by simp]
    have hbs2 : NumBoundary (s2 ++ rest) := (iht rest acc hb).1
    rw [ihm (s2 ++ rest) (acc ++ [numLex ⟨0, 1⟩] ++ [opLex 1 .plus]) hbs2]
    rw [(iht rest (acc ++ [numLex ⟨0, 1⟩] ++ [opLex 1 .plus] ++ tm) hb).2]
    rw [show acc ++ [numLex ⟨0, 1⟩] ++ [opLex 1 .plus] ++ tm ++ ts2
        = acc ++ (numLex ⟨0, 1⟩ :: opLex 1 .plus :: (tm ++ ts2)) by simp]

theorem T_tok {s : List Char} {ts : List Lexeme} {ast : AST}
    (h : G .exprL s ts ast) : tokenize s = some ts := by
  have hm := T_master h
  have hne : s ≠ [] := G_ne h (Or.inr (Or.inr (Or.inr rfl)))
  rcases s with _ | ⟨c₀, s'⟩
  · exact absurd rfl hne
  have hsc : SignCond (c₀ :: s') false (decide (c₀ = '-' ∨ c₀ = '+')) := by
    by_cases hsig : c₀ = '-' ∨ c₀ = '+'
    · show if c₀ = '-' ∨ c₀ = '+' then false = true ∨ decide (c₀ = '-' ∨ c₀ = '+') = true
        else false = false ∧ decide (c₀ = '-' ∨ c₀ = '+') = false
      rw [if_pos hsig]
      exact Or.inr (decide_eq_true hsig)
    · show if c₀ = '-' ∨ c₀ = '+' then false = true ∨ decide (c₀ = '-' ∨ c₀ = '+') = true
        else false = false ∧ decide (c₀ = '-' ∨ c₀ = '+') = false
      rw [if_neg hsig]
      exact ⟨rfl, decide_eq_false hsig⟩
  have hrun := hm [] [] false (decide (c₀ = '-' ∨ c₀ = '+')) trivial hsc
  simp only [List.append_nil, List.nil_append] at hrun
  exact hrun.trans rfl

theorem chAt_shift : ∀ (pre post : List Char) (j : ℕ),
    chAt (pre ++ post) (pre.length + j) = chAt post j := by
  intro pre
  induction pre with
  | nil => intro post j; simp [chAt]
  | cons a as ih =>
    intro post j
    rw [show (a :: as).length + j = (as.length + j) + 1 by simp only [List.length_cons]; omega]
    show chAt (as ++ post) (as.length + j) = chAt post j
    exact ih post j

theorem chAt_shift0 (pre post : List Char) :
    chAt (pre ++ post) pre.length = chAt post 0 := by
  have := chAt_shift pre post 0
  simpa using this

theorem digit_facts {c : Char} (h : isDigitC c = true) :
    c ≠ nulChar ∧ c ≠ '(' ∧ c ≠ ')' ∧ c ≠ '.' ∧ c ≠ '-' ∧ c ≠ '+' ∧ c ≠ '*' ∧ c ≠ '/'
      ∧ c ≠ '^' ∧ c ≠ 'e' ∧ c ≠ 'E' ∧ c ≠ ' ' := by
  refine ⟨?_, ?_, ?_, ?_, ?_, ?_, ?_, ?_, ?_, ?_, ?_, ?_⟩ <;>
    (rintro rfl; revert h; decide)

theorem isSign_false (l : List Char) (i : ℕ) (h : ¬(chAt l i = '-' ∨ chAt l i = '+')) :
    isSign l i = (false, i) := by
  rw [isSign, if_neg h]

theorem isSign_true (l : List Char) (i : ℕ) (h : chAt l i = '-' ∨ chAt l i = '+') :
    isSign l i = (true, i + 1) := by
  rw [isSign, if_pos h]

theorem isOperator_op (l : List Char) (i : ℕ)
    (hns : ¬(chAt l i = '-' ∨ chAt l i = '+'))
    (hop : chAt l i = '*' ∨ chAt l i = '/' ∨ chAt l i = '^') :
    isOperator l i = (true, i + 1) := by
  rw [isOperator, isSign_false l i hns]
  show (if chAt l i = '*' ∨ chAt l i = '/' ∨ chAt l i = '^' then (true, i + 1)
    else (false, i)) = (true, i + 1)
  rw [if_pos hop]

theorem isOperator_sign (l : List Char) (i : ℕ) (h : chAt l i = '-' ∨ chAt l i = '+') :
    isOperator l i = (true, i + 1) := by
  rw [isOperator, isSign_true l i h]

theorem isOperator_none (l : List Char) (i : ℕ)
    (hns : ¬(chAt l i = '-' ∨ chAt l i = '+'))
    (hop : ¬(chAt l i = '*' ∨ chAt l i = '/' ∨ chAt l i = '^')) :
    isOperator l i = (false, i) := by
  rw [isOperator, isSign_false l i hns]
  show (if chAt l i = '*' ∨ chAt l i = '/' ∨ chAt l i = '^' then (true, i + 1)
    else (false, i)) = (false, i)
  rw [if_neg hop]

theorem skipDigits_succ (g : ℕ) (l : List Char) (i : ℕ) :
    skipDigits (g + 1) l i = if isDigitC (chAt l i) then skipDigits g l (i + 1) else i := rfl

theorem skipDigits_run : ∀ (ds pre post : List Char) (fu : ℕ),
    (∀ c ∈ ds, isDigitC c = true) → isDigitC (chAt post 0) = false → ds.length < fu →
    skipDigits fu (pre ++ ds ++ post) pre.length = pre.length + ds.length := by
  intro ds
  induction ds with
  | nil =>
    intro pre post fu _ hpost hfu
    obtain ⟨g, rfl⟩ : ∃ g, fu = g + 1 := ⟨fu - 1, by omega⟩
    rw [skipDigits_succ]
    rw [show pre ++ ([] : List Char) ++ post = pre ++ post by simp]
    rw [chAt_shift0, hpost]
    simp
  | cons d ds' ih =>
    intro pre post fu hds hpost hfu
    obtain ⟨g, rfl⟩ : ∃ g, fu = g + 1 := ⟨fu - 1, by omega⟩
    rw [skipDigits_succ]
    have hch : chAt (pre ++ (d :: ds') ++ post) pre.length = d := by
      rw [show pre ++ (d :: ds') ++ post = pre ++ (d :: (ds' ++ post)) by simp]
      exact chAt_shift0 pre (d :: (ds' ++ post))
    rw [hch, hds d (by simp), if_pos rfl]
    rw [show pre.length + 1 = (pre ++ [d]).length by simp]
    rw [show pre ++ (d :: ds') ++ post = (pre ++ [d]) ++ ds' ++ post by simp]
    rw [ih (pre ++ [d]) post g (fun c hc => hds c (by simp [hc])) hpost (by simpa using hfu)]
    simp only [List.length_append, List.length_cons, List.length_nil]
    omega

theorem numLoop_succ (g : ℕ) (l : List Char) (i : ℕ) (wasDot : Bool) :
    numLoop (g + 1) l i wasDot =
      (if isDigitC (chAt l i) ∨ chAt l i = '.' then
        if chAt l i = '.' ∧ (¬ isDigitC (chAt l (i + 1)) ∨ wasDot) then
          (false, i, some (.badDot (i + 1)))
        else numLoop g l (i + 1) (wasDot ∨ chAt l i = '.')
      else (true, i, none)) := rfl

theorem numLoop_stop (fu : ℕ) (l : List Char) (i : ℕ) (w : Bool)
    (h1 : isDigitC (chAt l i) = false) (h2 : chAt l i ≠ '.') :
    numLoop fu l i w = (true, i, none) := by
  cases fu with
  | zero => rfl
  | succ g =>
    rw [numLoop_succ]
    rw [if_neg (fun hor => hor.elim (fun hh => by rw [h1] at hh; exact Bool.noConfusion hh)
      (fun hh => h2 hh))]

theorem numLoop_digits : ∀ (ds pre post : List Char) (fu : ℕ) (w : Bool),
    (∀ c ∈ ds, isDigitC c = true) → ds.length ≤ fu →
    numLoop fu (pre ++ ds ++ post) pre.length w
      = numLoop (fu - ds.length) (pre ++ ds ++ post) (pre.length + ds.length) w := by
  intro ds
  induction ds with
  | nil => intro pre post fu w _ _; simp
  | cons d ds' ih =>
    intro pre post fu w hds hfu
    have hfu1 : 1 ≤ fu := le_trans (by simp only [List.length_cons]; omega) hfu
    obtain ⟨g, rfl⟩ : ∃ g, fu = g + 1 := ⟨fu - 1, by omega⟩
    rw [numLoop_succ]
    have hch : chAt (pre ++ (d :: ds') ++ post) pre.length = d := by
      rw [show pre ++ (d :: ds') ++ post = pre ++ (d :: (ds' ++ post)) by simp]
      exact chAt_shift0 pre (d :: (ds' ++ post))
    have hd : isDigitC d = true := hds d (by simp)
    have hnd : d ≠ '.' := (digit_facts hd).2.2.2.1
    rw [hch]
    rw [if_pos (Or.inl hd)]
    rw [if_neg (fun hc => hnd hc.1)]
    have hB : (w ∨ d = '.' : Bool) = w := by
      cases w <;> simp [hnd]
    rw [hB]
    rw [show pre.length + 1 = (pre ++ [d]).length by simp]
    rw [show pre ++ (d :: ds') ++ post = (pre ++ [d]) ++ ds' ++ post by simp]
    rw [ih (pre ++ [d]) post g w (fun c hc => hds c (by simp [hc])) (by simpa using hfu)]
    have h1 : g + 1 - (d :: ds').length = g - ds'.length := by
      simp only [List.length_cons]; omega
    have h2 : (pre ++ [d]).length + ds'.length = pre.length + (d :: ds').length := by
      simp only [List.length_append, List.length_cons, List.length_nil]; omega
    rw [h1, h2]

theorem notDigitHead_chAt {X : List Char} (h : NotDigitHead X) :
    isDigitC (chAt X 0) = false := by
  cases X with
  | nil => decide
  | cons c cs => exact h

theorem noDot_chAt {X : List Char} (h : match X with | [] => True | c :: _ => c ≠ '.') :
    chAt X 0 ≠ '.' := by
  cases X with
  | nil => decide
  | cons c cs => exact h

theorem numLoop_mant (lm : List Char) (q : Q0) (pre tail : List Char) (fu : ℕ)
    (hm : MantG lm q) (hfu : lm.length < fu)
    (hA : isDigitC (chAt tail 0) = false) (hB : chAt tail 0 ≠ '.') :
    numLoop fu (pre ++ lm ++ tail) pre.length false = (true, pre.length + lm.length, none) := by
  cases hm with
  | int ds hds =>
    rw [numLoop_digits lm pre tail fu false hds.2 (by omega)]
    apply numLoop_stop
    all_goals rw [show pre ++ lm ++ tail = (pre ++ lm) ++ tail by simp,
      show pre.length + lm.length = (pre ++ lm).length by simp, chAt_shift0]
    · exact hA
    · exact hB
  | frac ds fr hds hfr =>
    obtain ⟨f₀, fr', rfl⟩ : ∃ f₀ fr', fr = f₀ :: fr' := by
      rcases fr with _ | ⟨f₀, fr'⟩
      · exact absurd rfl hfr.1
      · exact ⟨f₀, fr', rfl⟩
    have hlen : ds.length + 1 + (fr'.length + 1) = (ds ++ '.' :: f₀ :: fr').length := by
      simp only [List.length_append, List.length_cons]; omega
    rw [show pre ++ (ds ++ '.' :: f₀ :: fr') ++ tail
        = pre ++ ds ++ ('.' :: f₀ :: fr' ++ tail) by simp]
    rw [numLoop_digits ds pre ('.' :: f₀ :: fr' ++ tail) fu false hds.2 (by omega)]
    obtain ⟨g, hg⟩ : ∃ g, fu - ds.length = g + 1 := ⟨fu - ds.length - 1, by omega⟩
    rw [hg, numLoop_succ]
    have hch : chAt (pre ++ ds ++ ('.' :: f₀ :: fr' ++ tail)) (pre.length + ds.length)
        = '.' := by
      rw [show pre.length + ds.length = (pre ++ ds).length by simp]
      exact chAt_shift0 (pre ++ ds) ('.' :: (f₀ :: fr' ++ tail))
    rw [hch, if_pos (Or.inr rfl)]
    have hch1 : chAt (pre ++ ds ++ ('.' :: f₀ :: fr' ++ tail)) (pre.length + ds.length + 1)
        = f₀ := by
      rw [show pre ++ ds ++ ('.' :: f₀ :: fr' ++ tail)
          = (pre ++ ds ++ ['.']) ++ (f₀ :: (fr' ++ tail)) by simp]
      rw [show pre.length + ds.length + 1 = (pre ++ ds ++ ['.']).length by
        simp only [List.length_append, List.length_cons, List.length_nil]]
      exact chAt_shift0 _ _
    rw [hch1]
    have hf₀ : isDigitC f₀ = true := hfr.2 f₀ (by simp)
    rw [if_neg (fun hc => hc.2.elim (fun hnd => hnd hf₀) (fun hff => Bool.noConfusion hff))]
    rw [show pre.length + ds.length + 1 = (pre ++ ds ++ ['.']).length by
      simp only [List.length_append, List.length_cons, List.length_nil]]
    rw [show pre ++ ds ++ ('.' :: f₀ :: fr' ++ tail)
        = (pre ++ ds ++ ['.']) ++ (f₀ :: fr') ++ tail by simp]
    rw [numLoop_digits (f₀ :: fr') (pre ++ ds ++ ['.']) tail g _ hfr.2
      (by simp only [List.length_cons]; omega)]
    rw [show pre.length + (ds ++ '.' :: f₀ :: fr').length
        = (pre ++ ds ++ ['.']).length + (f₀ :: fr').length by
      simp only [List.length_append, List.length_cons, List.length_nil]; omega]
    apply numLoop_stop
    all_goals rw [show (pre ++ ds ++ ['.']) ++ (f₀ :: fr') ++ tail
        = ((pre ++ ds ++ ['.']) ++ (f₀ :: fr')) ++ tail by simp,
      show (pre ++ ds ++ ['.']).length + (f₀ :: fr').length
        = ((pre ++ ds ++ ['.']) ++ (f₀ :: fr')).length by
        simp only [List.length_append, List.length_cons, List.length_nil],
      chAt_shift0]
    · exact hA
    · exact hB

theorem checkExp_unfold (l : List Char) (i : ℕ) :
    checkExponentionalForm l i =
      (if chAt l i = 'e' ∨ chAt l i = 'E' then
        if isDigitC (chAt l
            (if chAt l (i + 1) = '-' ∨ chAt l (i + 1) = '+' then i + 1 + 1 else i + 1)) then
          (true, skipDigits (l.length + 1) l
            (if chAt l (i + 1) = '-' ∨ chAt l (i + 1) = '+' then i + 1 + 1 else i + 1), none)
        else
          (false, (if chAt l (i + 1) = '-' ∨ chAt l (i + 1) = '+' then i + 1 + 1 else i + 1),
            some (.badExp
              ((if chAt l (i + 1) = '-' ∨ chAt l (i + 1) = '+' then i + 1 + 1 else i + 1) + 1)))
      else (true, i, none)) := rfl

theorem checkExp_run (le : List Char) (q0 q' : Q0) (pre tail : List Char)
    (he : ExpoG le q0 q') (hb : NumBoundary tail) :
    checkExponentionalForm (pre ++ le ++ tail) pre.length
      = (true, pre.length + le.length, none) := by
  have hA : isDigitC (chAt tail 0) = false := by
    cases tail with
    | nil => decide
    | cons c cs => exact hb.1
  cases he with
  | none =>
    rw [checkExp_unfold]
    have hch : chAt (pre ++ [] ++ tail) pre.length = chAt tail 0 := by
      rw [show pre ++ ([] : List Char) ++ tail = pre ++ tail by simp]
      exact chAt_shift0 _ _
    rw [hch]
    have hne : ¬(chAt tail 0 = 'e' ∨ chAt tail 0 = 'E') := by
      cases tail with
      | nil => rintro (h | h) <;> revert h <;> decide
      | cons c cs =>
        rintro (h | h)
        · exact hb.2.2.1 h
        · exact hb.2.2.2 h
    rw [if_neg hne]
    simp
  | noSign e ds q he1 hds =>
    obtain ⟨d₀, ds', rfl⟩ : ∃ d₀ ds', ds = d₀ :: ds' := by
      rcases ds with _ | ⟨d₀, ds'⟩
      · exact absurd rfl hds.1
      · exact ⟨d₀, ds', rfl⟩
    have hd₀ : isDigitC d₀ = true := hds.2 d₀ (by simp)
    rw [checkExp_unfold]
    have hch : chAt (pre ++ (e :: d₀ :: ds') ++ tail) pre.length = e := by
      rw [show pre ++ (e :: d₀ :: ds') ++ tail = pre ++ (e :: (d₀ :: ds' ++ tail)) by simp]
      exact chAt_shift0 _ _
    have hch1 : chAt (pre ++ (e :: d₀ :: ds') ++ tail) (pre.length + 1) = d₀ := by
      rw [show pre ++ (e :: d₀ :: ds') ++ tail = (pre ++ [e]) ++ (d₀ :: (ds' ++ tail)) by simp]
      rw [show pre.length + 1 = (pre ++ [e]).length by simp]
      exact chAt_shift0 _ _
    rw [hch, hch1, if_pos he1]
    rw [if_neg (show ¬(d₀ = '-' ∨ d₀ = '+') from fun hor =>
      hor.elim (fun hh => (digit_facts hd₀).2.2.2.2.1 hh)
        (fun hh => (digit_facts hd₀).2.2.2.2.2.1 hh))]
    rw [hch1, hd₀, if_pos rfl]
    rw [show pre.length + 1 = (pre ++ [e]).length by simp]
    rw [show pre ++ (e :: d₀ :: ds') ++ tail = (pre ++ [e]) ++ (d₀ :: ds') ++ tail by simp]
    rw [skipDigits_run (d₀ :: ds') (pre ++ [e]) tail _ hds.2 hA
      (by simp only [List.length_append, List.length_cons, List.length_nil]; omega)]
    rw [show (pre ++ [e]).length + (d₀ :: ds').length = pre.length + (e :: d₀ :: ds').length by
      simp only [List.length_append, List.length_cons, List.length_nil]; omega]
  | signed e sg ds q he1 hsg hds =>
    obtain ⟨d₀, ds', rfl⟩ : ∃ d₀ ds', ds = d₀ :: ds' := by
      rcases ds with _ | ⟨d₀, ds'⟩
      · exact absurd rfl hds.1
      · exact ⟨d₀, ds', rfl⟩
    have hd₀ : isDigitC d₀ = true := hds.2 d₀ (by simp)
    rw [checkExp_unfold]
    have hch : chAt (pre ++ (e :: sg :: d₀ :: ds') ++ tail) pre.length = e := by
      rw [show pre ++ (e :: sg :: d₀ :: ds') ++ tail
          = pre ++ (e :: (sg :: d₀ :: ds' ++ tail)) by simp]
      exact chAt_shift0 _ _
    have hch1 : chAt (pre ++ (e :: sg :: d₀ :: ds') ++ tail) (pre.length + 1) = sg := by
      rw [show pre ++ (e :: sg :: d₀ :: ds') ++ tail
          = (pre ++ [e]) ++ (sg :: (d₀ :: ds' ++ tail)) by simp]
      rw [show pre.length + 1 = (pre ++ [e]).length by simp]
      exact chAt_shift0 _ _
    have hch2 : chAt (pre ++ (e :: sg :: d₀ :: ds') ++ tail) (pre.length + 1 + 1) = d₀ := by
      rw [show pre ++ (e :: sg :: d₀ :: ds') ++ tail
          = (pre ++ [e, sg]) ++ (d₀ :: (ds' ++ tail)) by simp]
      rw [show pre.length + 1 + 1 = (pre ++ [e, sg]).length by simp]
      exact chAt_shift0 _ _
    rw [hch, hch1, if_pos he1]
    rw [if_pos (show sg = '-' ∨ sg = '+' from hsg.symm)]
    rw [hch2, hd₀, if_pos rfl]
    rw [show pre.length + 1 + 1 = (pre ++ [e, sg]).length by simp]
    rw [show pre ++ (e :: sg :: d₀ :: ds') ++ tail
        = (pre ++ [e, sg]) ++ (d₀ :: ds') ++ tail by simp]
    rw [skipDigits_run (d₀ :: ds') (pre ++ [e, sg]) tail _ hds.2 hA
      (by simp only [List.length_append, List.length_cons, List.length_nil]; omega)]
    rw [show (pre ++ [e, sg]).length + (d₀ :: ds').length
        = pre.length + (e :: sg :: d₀ :: ds').length by
      simp only [List.length_append, List.length_cons, List.length_nil]; omega]

theorem isNumber_notDigit (l : List Char) (i : ℕ) (h : isDigitC (chAt l i) = false) :
    isNumber l i = (false, i, none) := by
  rw [isNumber, h]
  simp

theorem isNumber_run (s : List Char) (q : Q0) (pre post : List Char)
    (hn : NumLit s q) (hb : NumBoundary post) :
    isNumber (pre ++ s ++ post) pre.length = (true, pre.length + s.length, none) := by
  rcases hn with ⟨lm, le, q0, q', hm, he⟩
  obtain ⟨d, tl, heq, hd⟩ : ∃ d tl, lm = d :: tl ∧ isDigitC d = true := by
    cases hm with
    | int ds hds =>
      rcases lm with _ | ⟨d, tl⟩
      · exact absurd rfl hds.1
      · exact ⟨d, tl, rfl, hds.2 d (by simp)⟩
    | frac ds fr hds hfr =>
      rcases ds with _ | ⟨d, tl⟩
      · exact absurd rfl hds.1
      · exact ⟨d, tl ++ '.' :: fr, by simp, hds.2 d (by simp)⟩
  rw [isNumber]
  have hch : chAt (pre ++ (lm ++ le) ++ post) pre.length = d := by
    rw [heq]
    rw [show pre ++ ((d :: tl) ++ le) ++ post = pre ++ (d :: (tl ++ (le ++ post))) by simp]
    exact chAt_shift0 _ _
  rw [hch, hd, if_pos rfl]
  have hA' : isDigitC (chAt (le ++ post) 0) = false :=
    notDigitHead_chAt (ExpoG_notDigitHead he hb)
  have hB' : chAt (le ++ post) 0 ≠ '.' := noDot_chAt (ExpoG_noDotHead he hb)
  rw [show pre ++ (lm ++ le) ++ post = pre ++ lm ++ (le ++ post) by simp]
  rw [numLoop_mant lm q0 pre (le ++ post) _ hm
    (by simp only [List.length_append]; omega) hA' hB']
  show checkExponentionalForm (pre ++ lm ++ (le ++ post)) (pre.length + lm.length)
    = (true, pre.length + (lm ++ le).length, none)
  rw [show pre ++ lm ++ (le ++ post) = (pre ++ lm) ++ le ++ post by simp]
  rw [show pre.length + lm.length = (pre ++ lm).length by simp]
  rw [checkExp_run le q0 q (pre ++ lm) post he hb]
  rw [show (pre ++ lm).length + le.length = pre.length + (lm ++ le).length by
    simp only [List.length_append]; omega]

theorem cooo_succ (f : ℕ) (l : List Char) (i : ℕ) (em : Option ErrMsg)
    (inside aS aOd aOp : Bool) (p : ℤ) :
    checkOperatorAndOperandsOrder (f + 1) l i em inside aS aOd aOp p =
      (if chAt l i = nulChar then (!aOd, i, em)
      else if chAt l i = '(' ∨ chAt l i = ')' then
        if inside ∧ (if inside then (if chAt l i = '(' then p + 1 else p - 1) else p) = 0 then
          (!aOd, i, em)
        else
          checkOperatorAndOperandsOrder f l (i + 1) em inside
            (if chAt l i = '(' then true else aS) aOd aOp
            (if inside then (if chAt l i = '(' then p + 1 else p - 1) else p)
      else if aS ∧ (isSign l i).1 then
        checkOperatorAndOperandsOrder f l (isSign l i).2 em inside false true aOp p
      else
        match (if aOd then some (isNumber l i) else none) with
        | some (true, j, _) =>
          checkOperatorAndOperandsOrder f l j em inside aS false true p
        | some (false, j1, m1) =>
          match isFunction f l j1 (match m1 with | some m => some m | none => em) with
          | (true, j2, em2) =>
            checkOperatorAndOperandsOrder f l j2 em2 inside aS false true p
          | (false, j2, em2) =>
            if aOp ∧ (isOperator l j2).1 then
              checkOperatorAndOperandsOrder f l (isOperator l j2).2 em2 inside aS true false p
            else
              (false, j2, match em2 with | some m => some m | none => some .badOrder)
        | none =>
          if aOp ∧ (isOperator l i).1 then
            checkOperatorAndOperandsOrder f l (isOperator l i).2 em inside aS true false p
          else
            (false, i, match em with | some m => some m | none => some .badOrder)) := rfl

theorem isFunction_succ (f : ℕ) (l : List Char) (i : ℕ) (em : Option ErrMsg) :
    isFunction (f + 1) l i em =
      (match funcNameAt l i with
      | none => (false, i, em)
      | some (_, k) =>
        if chAt l (i + k) = '(' then
          match checkOperatorAndOperandsOrder f l (i + k + 1) em true true true false 1 with
          | (true, j2, em2) =>
            if chAt l j2 = ')' then (true, j2 + 1, em2) else (false, j2, em2)
          | (false, j2, em2) => (false, j2, em2)
        else (false, i + k + 1, em)) := rfl

theorem funcNameAt_at (l : List Char) (i : ℕ) (fk : FuncK) (X : List Char)
    (h : l.drop i = fname fk ++ ('(' :: X)) :
    funcNameAt l i = some (ftype fk, (fname fk).length) := by
  simp only [funcNameAt]
  rw [h]
  cases fk <;> rfl

theorem cooo_step_op (g : ℕ) (l : List Char) (i : ℕ) (em : Option ErrMsg)
    (inside aS : Bool) (p : ℤ) (c : Char) (hch : chAt l i = c)
    (hc : c = '*' ∨ c = '/' ∨ c = '^') :
    checkOperatorAndOperandsOrder (g + 1) l i em inside aS false true p
      = checkOperatorAndOperandsOrder g l (i + 1) em inside aS true false p := by
  have hfacts : c ≠ nulChar ∧ ¬(c = '(' ∨ c = ')') ∧ ¬(c = '-' ∨ c = '+') := by
    rcases hc with rfl | rfl | rfl <;> exact ⟨by decide, by decide, by decide⟩
  rw [cooo_succ, hch]
  rw [if_neg hfacts.1, if_neg hfacts.2.1]
  rw [isSign_false l i (by rw [hch]; exact hfacts.2.2)]
  rw [if_neg (fun hcc => Bool.noConfusion hcc.2)]
  rw [isOperator_op l i (by rw [hch]; exact hfacts.2.2) (by rw [hch]; exact hc)]
  rw [if_pos (show (true : Bool) = true ∧ (((true, i + 1) : Bool × ℕ).1 = true)
    from ⟨rfl, rfl⟩)]
  rfl

theorem cooo_step_signpath (g : ℕ) (l : List Char) (i : ℕ) (em : Option ErrMsg)
    (inside aOd b : Bool) (p : ℤ) (c : Char) (hch : chAt l i = c)
    (hc : c = '-' ∨ c = '+') :
    checkOperatorAndOperandsOrder (g + 1) l i em inside true aOd b p
      = checkOperatorAndOperandsOrder g l (i + 1) em inside false true b p := by
  have hfacts : c ≠ nulChar ∧ ¬(c = '(' ∨ c = ')') := by
    rcases hc with rfl | rfl <;> exact ⟨by decide, by decide⟩
  rw [cooo_succ, hch]
  rw [if_neg hfacts.1, if_neg hfacts.2]
  rw [isSign_true l i (by rw [hch]; exact hc)]
  rw [if_pos (show (true : Bool) = true ∧ (((true, i + 1) : Bool × ℕ).1 = true)
    from ⟨rfl, rfl⟩)]

theorem cooo_step_signop (g : ℕ) (l : List Char) (i : ℕ) (em : Option ErrMsg)
    (inside : Bool) (p : ℤ) (c : Char) (hch : chAt l i = c)
    (hc : c = '-' ∨ c = '+') :
    checkOperatorAndOperandsOrder (g + 1) l i em inside false false true p
      = checkOperatorAndOperandsOrder g l (i + 1) em inside false true false p := by
  have hfacts : c ≠ nulChar ∧ ¬(c = '(' ∨ c = ')') := by
    rcases hc with rfl | rfl <;> exact ⟨by decide, by decide⟩
  rw [cooo_succ, hch]
  rw [if_neg hfacts.1, if_neg hfacts.2]
  rw [if_neg (fun hcc => Bool.noConfusion hcc.1)]
  rw [isOperator_sign l i (by rw [hch]; exact hc)]
  rw [if_pos (show (true : Bool) = true ∧ (((true, i + 1) : Bool × ℕ).1 = true)
    from ⟨rfl, rfl⟩)]
  rfl

theorem cooo_step_open (g : ℕ) (l : List Char) (i : ℕ) (em : Option ErrMsg)
    (inside aS aOd b : Bool) (p : ℤ) (hch : chAt l i = '(')
    (hp : inside = true → 1 ≤ p) :
    checkOperatorAndOperandsOrder (g + 1) l i em inside aS aOd b p
      = checkOperatorAndOperandsOrder g l (i + 1) em inside true aOd b
          (if inside then p + 1 else p) := by
  rw [cooo_succ, hch]
  rw [if_neg (by decide), if_pos (Or.inl rfl)]
  have hval : (if (inside : Bool) = true then (if ('(' : Char) = '(' then p + 1 else p - 1)
      else p) = (if (inside : Bool) = true then p + 1 else p) := by
    by_cases hin : inside = true
    · rw [if_pos hin, if_pos hin, if_pos rfl]
    · rw [if_neg hin, if_neg hin]
  rw [hval]
  rw [if_neg (fun hcc => by
    have h2 := hcc.2
    rw [if_pos hcc.1] at h2
    have := hp hcc.1
    omega)]
  rw [if_pos rfl]

theorem cooo_step_close (g : ℕ) (l : List Char) (i : ℕ) (em : Option ErrMsg)
    (inside aS aOd b : Bool) (p : ℤ) (hch : chAt l i = ')')
    (hp : inside = true → 1 ≤ p) :
    checkOperatorAndOperandsOrder (g + 1) l i em inside aS aOd b
        (if inside then p + 1 else p)
      = checkOperatorAndOperandsOrder g l (i + 1) em inside aS aOd b p := by
  rw [cooo_succ, hch]
  rw [if_neg (by decide), if_pos (Or.inr rfl)]
  have hval : (if (inside : Bool) = true then
        (if (')' : Char) = '(' then (if (inside : Bool) = true then p + 1 else p) + 1
          else (if (inside : Bool) = true then p + 1 else p) - 1)
      else (if (inside : Bool) = true then p + 1 else p)) = p := by
    by_cases hin : inside = true
    · rw [if_pos hin, if_neg (by decide), if_pos hin]; omega
    · rw [if_neg hin, if_neg hin]
  rw [hval]
  rw [if_neg (fun hcc => by
    have := hp hcc.1
    omega)]
  rw [if_neg (by decide)]

theorem cooo_step_exit (g : ℕ) (l : List Char) (i : ℕ) (em : Option ErrMsg)
    (aS aOd b : Bool) (hch : chAt l i = ')') :
    checkOperatorAndOperandsOrder (g + 1) l i em true aS aOd b 1 = (!aOd, i, em) := by
  rw [cooo_succ, hch]
  rw [if_neg (by decide), if_pos (Or.inr rfl)]
  rw [if_pos (show (true : Bool) = true ∧
      (if (true : Bool) = true then (if (')' : Char) = '(' then (1 : ℤ) + 1 else 1 - 1)
        else 1) = 0
    from ⟨rfl, by rw [if_pos rfl, if_neg (by decide)]; decide⟩)]

theorem cooo_step_num (g : ℕ) (pre s post : List Char) (q : Q0) (em : Option ErrMsg)
    (inside aS b : Bool) (p : ℤ) (hn : NumLit s q) (hb : NumBoundary post) :
    checkOperatorAndOperandsOrder (g + 1) (pre ++ s ++ post) pre.length em inside aS true b p
      = checkOperatorAndOperandsOrder g (pre ++ s ++ post) (pre.length + s.length) em
          inside aS false true p := by
  obtain ⟨d, tl, heq, hd⟩ : ∃ d tl, s = d :: tl ∧ isDigitC d = true := by
    rcases hn with ⟨lm, le, q0, q', hm, he⟩
    cases hm with
    | int ds hds =>
      rcases lm with _ | ⟨d, tl⟩
      · exact absurd rfl hds.1
      · exact ⟨d, tl ++ le, rfl, hds.2 d (by simp)⟩
    | frac ds fr hds hfr =>
      rcases ds with _ | ⟨d, tl⟩
      · exact absurd rfl hds.1
      · exact ⟨d, (tl ++ '.' :: fr) ++ le, by simp, hds.2 d (by simp)⟩
  have hch : chAt (pre ++ s ++ post) pre.length = d := by
    rw [heq]
    rw [show pre ++ (d :: tl) ++ post = pre ++ (d :: (tl ++ post)) by simp]
    exact chAt_shift0 _ _
  have hns : ¬(chAt (pre ++ s ++ post) pre.length = '-'
      ∨ chAt (pre ++ s ++ post) pre.length = '+') := by
    rw [hch]
    exact fun hor => hor.elim (fun h => (digit_facts hd).2.2.2.2.1 h)
      (fun h => (digit_facts hd).2.2.2.2.2.1 h)
  rw [cooo_succ, hch]
  rw [if_neg (digit_facts hd).1]
  rw [if_neg (fun hor => hor.elim (fun h => (digit_facts hd).2.1 h)
    (fun h => (digit_facts hd).2.2.1 h))]
  rw [isSign_false _ _ hns]
  rw [if_neg (fun hcc => Bool.noConfusion hcc.2)]
  rw [isNumber_run s q pre post hn hb]
  rfl

theorem cooo_step_call (g : ℕ) (pre si post : List Char) (fk : FuncK)
    (em : Option ErrMsg) (inside aS b : Bool) (p : ℤ) (hw : VWalkExpr si)
    (hf : 2 * (fname fk ++ ('(' :: (si ++ [')']))).length + 2 * post.length + 2 ≤ g + 1)
    (hb : NumBoundary post) :
    ∃ em2,
      checkOperatorAndOperandsOrder (g + 1)
          (pre ++ (fname fk ++ ('(' :: (si ++ [')']))) ++ post) pre.length em inside aS
          true b p
        = checkOperatorAndOperandsOrder g
            (pre ++ (fname fk ++ ('(' :: (si ++ [')']))) ++ post)
            (pre.length + (fname fk ++ ('(' :: (si ++ [')']))).length) em2 inside aS
            false true p := by
  obtain ⟨c₀, r₀, hfk, hfacts⟩ : ∃ c₀ r₀, fname fk = c₀ :: r₀ ∧ (c₀ ≠ nulChar
      ∧ ¬(c₀ = '(' ∨ c₀ = ')') ∧ ¬(c₀ = '-' ∨ c₀ = '+') ∧ isDigitC c₀ = false) := by
    cases fk <;> exact ⟨_, _, rfl, by decide⟩
  have hk : 2 ≤ (fname fk).length := by cases fk <;> decide
  have hL : pre ++ (fname fk ++ ('(' :: (si ++ [')']))) ++ post
      = pre ++ (c₀ :: (r₀ ++ ('(' :: (si ++ [')'])) ++ post)) := by
    rw [hfk]; simp
  have hch : chAt (pre ++ (fname fk ++ ('(' :: (si ++ [')']))) ++ post) pre.length = c₀ := by
    rw [hL]; exact chAt_shift0 _ _
  have hns : ¬(chAt (pre ++ (fname fk ++ ('(' :: (si ++ [')']))) ++ post) pre.length = '-'
      ∨ chAt (pre ++ (fname fk ++ ('(' :: (si ++ [')']))) ++ post) pre.length = '+') := by
    rw [hch]; exact hfacts.2.2.1
  obtain ⟨g1, hg1⟩ : ∃ g1, g = g1 + 1 := ⟨g - 1, by
    simp only [List.length_append, List.length_cons] at hf <;> omega⟩
  have hdrop : (pre ++ (fname fk ++ ('(' :: (si ++ [')']))) ++ post).drop pre.length
      = fname fk ++ ('(' :: ((si ++ [')']) ++ post)) := by
    rw [show pre ++ (fname fk ++ ('(' :: (si ++ [')']))) ++ post
        = pre ++ (fname fk ++ ('(' :: ((si ++ [')']) ++ post))) by simp]
    rw [List.drop_left]
  have hch2 : chAt (pre ++ (fname fk ++ ('(' :: (si ++ [')']))) ++ post)
      (pre.length + (fname fk).length) = '(' := by
    rw [show pre ++ (fname fk ++ ('(' :: (si ++ [')']))) ++ post
        = (pre ++ fname fk) ++ ('(' :: ((si ++ [')']) ++ post)) by simp]
    rw [show pre.length + (fname fk).length = (pre ++ fname fk).length by simp]
    exact chAt_shift0 _ _
  have hl' : pre ++ (fname fk ++ ('(' :: (si ++ [')']))) ++ post
      = (pre ++ fname fk ++ ['(']) ++ si ++ (')' :: post) := by simp
  obtain ⟨em1, f1, aS1, heqI, hf1⟩ := hw
    (pre ++ (fname fk ++ ('(' :: (si ++ [')']))) ++ post)
    (pre ++ fname fk ++ ['(']) (')' :: post) hl' em g1 true false 1
    (fun _ => le_refl 1)
    (by simp only [List.length_append, List.length_cons] at hf ⊢ <;> omega)
    ⟨by decide, by decide, by decide, by decide⟩
  obtain ⟨g2, hg2⟩ : ∃ g2, f1 = g2 + 1 :=
    ⟨f1 - 1, by simp only [List.length_cons] at hf1 <;> omega⟩
  have hch3 : chAt (pre ++ (fname fk ++ ('(' :: (si ++ [')']))) ++ post)
      ((pre ++ fname fk ++ ['(']).length + si.length) = ')' := by
    rw [show pre ++ (fname fk ++ ('(' :: (si ++ [')']))) ++ post
        = ((pre ++ fname fk ++ ['(']) ++ si) ++ (')' :: post) by simp]
    rw [show (pre ++ fname fk ++ ['(']).length + si.length
        = ((pre ++ fname fk ++ ['(']) ++ si).length by
      simp only [List.length_append, List.length_cons, List.length_nil] <;> omega]
    exact chAt_shift0 _ _
  have hterm : checkOperatorAndOperandsOrder f1
      (pre ++ (fname fk ++ ('(' :: (si ++ [')']))) ++ post)
      ((pre ++ fname fk ++ ['(']).length + si.length) em1 true aS1 false true 1
      = (true, (pre ++ fname fk ++ ['(']).length + si.length, em1) := by
    rw [hg2]
    exact cooo_step_exit g2 _ _ em1 aS1 false true hch3
  have hfn : isFunction g (pre ++ (fname fk ++ ('(' :: (si ++ [')']))) ++ post) pre.length em
      = (true, (pre ++ fname fk ++ ['(']).length + si.length + 1, em1) := by
    rw [hg1, isFunction_succ]
    rw [funcNameAt_at _ pre.length fk ((si ++ [')']) ++ post) hdrop]
    dsimp only
    rw [hch2, if_pos rfl]
    rw [show pre.length + (fname fk).length + 1 = (pre ++ fname fk ++ ['(']).length by
      simp only [List.length_append, List.length_cons, List.length_nil] <;> omega]
    rw [heqI, hterm]
    dsimp only
    rw [hch3, if_pos rfl]
  refine ⟨em1, ?_⟩
  rw [cooo_succ, hch, if_neg hfacts.1, if_neg hfacts.2.1]
  rw [isSign_false _ _ hns, if_neg (fun hcc => Bool.noConfusion hcc.2)]
  rw [isNumber_notDigit _ pre.length (by rw [hch]; exact hfacts.2.2.2)]
  rw [if_pos (rfl : (true : Bool) = true)]
  dsimp only
  rw [hfn]
  dsimp only
  rw [show pre.length + (fname fk ++ ('(' :: (si ++ [')']))).length
      = (pre ++ fname fk ++ ['(']).length + si.length + 1 by
    simp only [List.length_append, List.length_cons, List.length_nil] <;> omega]

theorem V_master {lv : Lv} {s : List Char} {ts : List Lexeme} {ast : AST}
    (h : G lv s ts ast) : VMotive lv s := by
  induction h with
  | num s q hn =>
    intro l pre post hl em f inside aS b p hp1 hf hb
    subst hl
    have hs1 : 0 < s.length := by
      rcases hn with ⟨lm, le, q0, q', hm, he⟩
      cases hm with
      | int ds hds =>
        rcases lm with _ | ⟨d, tl⟩
        · exact absurd rfl hds.1
        · simp only [List.length_append, List.length_cons]; omega
      | frac ds fr hds hfr =>
        simp only [List.length_append, List.length_cons]; omega
    obtain ⟨g, rfl⟩ : ∃ g, f = g + 1 := ⟨f - 1, by omega⟩
    exact ⟨em, g, aS, cooo_step_num g pre s post q em inside aS b p hn hb, by omega⟩
  | paren s ts e hg ih =>
    intro l pre post hl em f inside aS b p hp1 hf hb
    subst hl
    simp only [List.length_cons, List.length_append, List.length_nil] at hf
    obtain ⟨g, rfl⟩ : ∃ g, f = g + 1 := ⟨f - 1, by omega⟩
    have hch : chAt (pre ++ ('(' :: (s ++ [')'])) ++ post) pre.length = '(' := by
      rw [show pre ++ ('(' :: (s ++ [')'])) ++ post
          = pre ++ ('(' :: ((s ++ [')']) ++ post)) by simp]
      exact chAt_shift0 _ _
    have step1 := cooo_step_open g (pre ++ ('(' :: (s ++ [')'])) ++ post) pre.length em
      inside aS true b p hch hp1
    have hp1' : inside = true → 1 ≤ (if inside then p + 1 else p) := fun hin => by
      rw [if_pos hin]; have := hp1 hin; omega
    obtain ⟨em1, f1, aS1, heq1, hf1⟩ := ih (pre ++ ('(' :: (s ++ [')'])) ++ post)
      (pre ++ ['(']) (')' :: post) (by simp) em g inside b (if inside then p + 1 else p)
      hp1' (by simp only [List.length_cons, List.length_append, List.length_nil]; omega)
      ⟨by decide, by decide, by decide, by decide⟩
    rw [show (pre ++ ['(']).length = pre.length + 1 by simp] at heq1
    simp only [List.length_cons] at hf1
    obtain ⟨g2, rfl⟩ : ∃ g2, f1 = g2 + 1 := ⟨f1 - 1, by omega⟩
    have hch2 : chAt (pre ++ ('(' :: (s ++ [')'])) ++ post) (pre.length + 1 + s.length)
        = ')' := by
      rw [show pre ++ ('(' :: (s ++ [')'])) ++ post
          = ((pre ++ ['(']) ++ s) ++ (')' :: post) by simp]
      rw [show pre.length + 1 + s.length = ((pre ++ ['(']) ++ s).length by
        simp only [List.length_append, List.length_cons, List.length_nil] <;> omega]
      exact chAt_shift0 _ _
    have step2 := cooo_step_close g2 (pre ++ ('(' :: (s ++ [')'])) ++ post)
      (pre.length + 1 + s.length) em1 inside aS1 false true p hch2 hp1
    refine ⟨em1, g2, aS1, ?_, by omega⟩
    rw [show pre.length + ('(' :: (s ++ [')'])).length = pre.length + 1 + s.length + 1 by
      simp only [List.length_cons, List.length_append, List.length_nil] <;> omega]
    exact step1.trans (heq1.trans step2)
  | call fk s ts e hg ih =>
    intro l pre post hl em f inside aS b p hp1 hf hb
    subst hl
    obtain ⟨g, rfl⟩ : ∃ g, f = g + 1 := ⟨f - 1, by
      simp only [List.length_cons, List.length_append, List.length_nil] at hf; omega⟩
    obtain ⟨em2, heq⟩ := cooo_step_call g pre s post fk em inside aS b p ih hf hb
    refine ⟨em2, g, aS, heq, by
      simp only [List.length_cons, List.length_append, List.length_nil] at hf; omega⟩
  | powTnil a =>
    intro l pre post hl em f inside aS p hp1 hf hb
    subst hl
    exact ⟨em, f, aS, rfl, by simp only [List.length_nil] at hf; omega⟩
  | powTcons a s s2 tf ts2 b r hfct ht ihf iht =>
    intro l pre post hl em f inside aS p hp1 hf hb
    subst hl
    simp only [List.length_cons, List.length_append] at hf
    obtain ⟨g, rfl⟩ : ∃ g, f = g + 1 := ⟨f - 1, by omega⟩
    have hch : chAt (pre ++ ('^' :: (s ++ s2)) ++ post) pre.length = '^' := by
      rw [show pre ++ ('^' :: (s ++ s2)) ++ post
          = pre ++ ('^' :: ((s ++ s2) ++ post)) by simp]
      exact chAt_shift0 _ _
    have step1 := cooo_step_op g (pre ++ ('^' :: (s ++ s2)) ++ post) pre.length em
      inside aS p '^' hch (Or.inr (Or.inr rfl))
    have hbs2 : NumBoundary (s2 ++ post) := (T_master ht post [] hb).1
    obtain ⟨em1, f1, aS1, heq1, hf1⟩ := ihf (pre ++ ('^' :: (s ++ s2)) ++ post)
      (pre ++ ['^']) (s2 ++ post) (by simp) em g inside aS false p hp1
      (by simp only [List.length_append]; omega) hbs2
    rw [show (pre ++ ['^']).length = pre.length + 1 by simp] at heq1
    obtain ⟨em2, f2, aS2, heq2, hf2⟩ := iht (pre ++ ('^' :: (s ++ s2)) ++ post)
      ((pre ++ ['^']) ++ s) post (by simp) em1 f1 inside aS1 p hp1
      (by simp only [List.length_append] at hf1; omega) hb
    rw [show ((pre ++ ['^']) ++ s).length = pre.length + 1 + s.length by
      simp only [List.length_append, List.length_cons, List.length_nil] <;> omega] at heq2
    refine ⟨em2, f2, aS2, ?_, hf2⟩
    rw [show pre.length + ('^' :: (s ++ s2)).length = pre.length + 1 + s.length + s2.length by
      simp only [List.length_cons, List.length_append] <;> omega]
    exact step1.trans (heq1.trans heq2)
  | powMk s s2 tf ts2 a r hfct ht ihf iht =>
    intro l pre post hl em f inside aS b p hp1 hf hb
    subst hl
    simp only [List.length_append] at hf
    have hbs2 : NumBoundary (s2 ++ post) := (T_master ht post [] hb).1
    obtain ⟨em1, f1, aS1, heq1, hf1⟩ := ihf (pre ++ (s ++ s2) ++ post) pre (s2 ++ post)
      (by simp) em f inside aS b p hp1 (by simp only [List.length_append]; omega) hbs2
    obtain ⟨em2, f2, aS2, heq2, hf2⟩ := iht (pre ++ (s ++ s2) ++ post) (pre ++ s) post
      (by simp) em1 f1 inside aS1 p hp1
      (by simp only [List.length_append] at hf1; omega) hb
    rw [show (pre ++ s).length = pre.length + s.length by simp] at heq2
    refine ⟨em2, f2, aS2, ?_, hf2⟩
    rw [show pre.length + (s ++ s2).length = pre.length + s.length + s2.length by
      simp only [List.length_append] <;> omega]
    exact heq1.trans heq2
  | mulTnil a =>
    intro l pre post hl em f inside aS p hp1 hf hb
    subst hl
    exact ⟨em, f, aS, rfl, by simp only [List.length_nil] at hf; omega⟩
  | mulTmul a s s2 tp ts2 b r hpw ht ihp iht =>
    intro l pre post hl em f inside aS p hp1 hf hb
    subst hl
    simp only [List.length_cons, List.length_append] at hf
    obtain ⟨g, rfl⟩ : ∃ g, f = g + 1 := ⟨f - 1, by omega⟩
    have hch : chAt (pre ++ ('*' :: (s ++ s2)) ++ post) pre.length = '*' := by
      rw [show pre ++ ('*' :: (s ++ s2)) ++ post
          = pre ++ ('*' :: ((s ++ s2) ++ post)) by simp]
      exact chAt_shift0 _ _
    have step1 := cooo_step_op g (pre ++ ('*' :: (s ++ s2)) ++ post) pre.length em
      inside aS p '*' hch (Or.inl rfl)
    have hbs2 : NumBoundary (s2 ++ post) := (T_master ht post [] hb).1
    obtain ⟨em1, f1, aS1, heq1, hf1⟩ := ihp (pre ++ ('*' :: (s ++ s2)) ++ post)
      (pre ++ ['*']) (s2 ++ post) (by simp) em g inside aS false p hp1
      (by simp only [List.length_append]; omega) hbs2
    rw [show (pre ++ ['*']).length = pre.length + 1 by simp] at heq1
    obtain ⟨em2, f2, aS2, heq2, hf2⟩ := iht (pre ++ ('*' :: (s ++ s2)) ++ post)
      ((pre ++ ['*']) ++ s) post (by simp) em1 f1 inside aS1 p hp1
      (by simp only [List.length_append] at hf1; omega) hb
    rw [show ((pre ++ ['*']) ++ s).length = pre.length + 1 + s.length by
      simp only [List.length_append, List.length_cons, List.length_nil] <;> omega] at heq2
    refine ⟨em2, f2, aS2, ?_, hf2⟩
    rw [show pre.length + ('*' :: (s ++ s2)).length = pre.length + 1 + s.length + s2.length by
      simp only [List.length_cons, List.length_append] <;> omega]
    exact step1.trans (heq1.trans heq2)
  | mulTdiv a s s2 tp ts2 b r hpw ht ihp iht =>
    intro l pre post hl em f inside aS p hp1 hf hb
    subst hl
    simp only [List.length_cons, List.length_append] at hf
    obtain ⟨g, rfl⟩ : ∃ g, f = g + 1 := ⟨f - 1, by omega⟩
    have hch : chAt (pre ++ ('/' :: (s ++ s2)) ++ post) pre.length = '/' := by
      rw [show pre ++ ('/' :: (s ++ s2)) ++ post
          = pre ++ ('/' :: ((s ++ s2) ++ post)) by simp]
      exact chAt_shift0 _ _
    have step1 := cooo_step_op g (pre ++ ('/' :: (s ++ s2)) ++ post) pre.length em
      inside aS p '/' hch (Or.inr (Or.inl rfl))
    have hbs2 : NumBoundary (s2 ++ post) := (T_master ht post [] hb).1
    obtain ⟨em1, f1, aS1, heq1, hf1⟩ := ihp (pre ++ ('/' :: (s ++ s2)) ++ post)
      (pre ++ ['/']) (s2 ++ post) (by simp) em g inside aS false p hp1
      (by simp only [List.length_append]; omega) hbs2
    rw [show (pre ++ ['/']).length = pre.length + 1 by simp] at heq1
    obtain ⟨em2, f2, aS2, heq2, hf2⟩ := iht (pre ++ ('/' :: (s ++ s2)) ++ post)
      ((pre ++ ['/']) ++ s) post (by simp) em1 f1 inside aS1 p hp1
      (by simp only [List.length_append] at hf1; omega) hb
    rw [show ((pre ++ ['/']) ++ s).length = pre.length + 1 + s.length by
      simp only [List.length_append, List.length_cons, List.length_nil] <;> omega] at heq2
    refine ⟨em2, f2, aS2, ?_, hf2⟩
    rw [show pre.length + ('/' :: (s ++ s2)).length = pre.length + 1 + s.length + s2.length by
      simp only [List.length_cons, List.length_append] <;> omega]
    exact step1.trans (heq1.trans heq2)
  | mulMk s s2 tp ts2 a r hpw ht ihp iht =>
    intro l pre post hl em f inside aS b p hp1 hf hb
    subst hl
    simp only [List.length_append] at hf
    have hbs2 : NumBoundary (s2 ++ post) := (T_master ht post [] hb).1
    obtain ⟨em1, f1, aS1, heq1, hf1⟩ := ihp (pre ++ (s ++ s2) ++ post) pre (s2 ++ post)
      (by simp) em f inside aS b p hp1 (by simp only [List.length_append]; omega) hbs2
    obtain ⟨em2, f2, aS2, heq2, hf2⟩ := iht (pre ++ (s ++ s2) ++ post) (pre ++ s) post
      (by simp) em1 f1 inside aS1 p hp1
      (by simp only [List.length_append] at hf1; omega) hb
    rw [show (pre ++ s).length = pre.length + s.length by simp] at heq2
    refine ⟨em2, f2, aS2, ?_, hf2⟩
    rw [show pre.length + (s ++ s2).length = pre.length + s.length + s2.length by
      simp only [List.length_append] <;> omega]
    exact heq1.trans heq2
  | sumTnil a =>
    intro l pre post hl em f inside aS p hp1 hf hb
    subst hl
    exact ⟨em, f, aS, rfl, by simp only [List.length_nil] at hf; omega⟩
  | sumTadd a s s2 tm ts2 b r hm ht ihm iht =>
    intro l pre post hl em f inside aS p hp1 hf hb
    subst hl
    simp only [List.length_cons, List.length_append] at hf
    obtain ⟨g, rfl⟩ : ∃ g, f = g + 1 := ⟨f - 1, by omega⟩
    have hch : chAt (pre ++ ('+' :: (s ++ s2)) ++ post) pre.length = '+' := by
      rw [show pre ++ ('+' :: (s ++ s2)) ++ post
          = pre ++ ('+' :: ((s ++ s2) ++ post)) by simp]
      exact chAt_shift0 _ _
    have hbs2 : NumBoundary (s2 ++ post) := (T_master ht post [] hb).1
    cases aS with
    | true =>
      have step1 := cooo_step_signpath g (pre ++ ('+' :: (s ++ s2)) ++ post) pre.length em
        inside false true p '+' hch (Or.inr rfl)
      obtain ⟨em1, f1, aS1, heq1, hf1⟩ := ihm (pre ++ ('+' :: (s ++ s2)) ++ post)
        (pre ++ ['+']) (s2 ++ post) (by simp) em g inside false true p hp1
        (by simp only [List.length_append]; omega) hbs2
      rw [show (pre ++ ['+']).length = pre.length + 1 by simp] at heq1
      obtain ⟨em2, f2, aS2, heq2, hf2⟩ := iht (pre ++ ('+' :: (s ++ s2)) ++ post)
        ((pre ++ ['+']) ++ s) post (by simp) em1 f1 inside aS1 p hp1
        (by simp only [List.length_append] at hf1; omega) hb
      rw [show ((pre ++ ['+']) ++ s).length = pre.length + 1 + s.length by
        simp only [List.length_append, List.length_cons, List.length_nil] <;> omega] at heq2
      refine ⟨em2, f2, aS2, ?_, hf2⟩
      rw [show pre.length + ('+' :: (s ++ s2)).length
          = pre.length + 1 + s.length + s2.length by
        simp only [List.length_cons, List.length_append] <;> omega]
      exact step1.trans (heq1.trans heq2)
    | false =>
      have step1 := cooo_step_signop g (pre ++ ('+' :: (s ++ s2)) ++ post) pre.length em
        inside p '+' hch (Or.inr rfl)
      obtain ⟨em1, f1, aS1, heq1, hf1⟩ := ihm (pre ++ ('+' :: (s ++ s2)) ++ post)
        (pre ++ ['+']) (s2 ++ post) (by simp) em g inside false false p hp1
        (by simp only [List.length_append]; omega) hbs2
      rw [show (pre ++ ['+']).length = pre.length + 1 by simp] at heq1
      obtain ⟨em2, f2, aS2, heq2, hf2⟩ := iht (pre ++ ('+' :: (s ++ s2)) ++ post)
        ((pre ++ ['+']) ++ s) post (by simp) em1 f1 inside aS1 p hp1
        (by simp only [List.length_append] at hf1; omega) hb
      rw [show ((pre ++ ['+']) ++ s).length = pre.length + 1 + s.length by
        simp only [List.length_append, List.length_cons, List.length_nil] <;> omega] at heq2
      refine ⟨em2, f2, aS2, ?_, hf2⟩
      rw [show pre.length + ('+' :: (s ++ s2)).length
          = pre.length + 1 + s.length + s2.length by
        simp only [List.length_cons, List.length_append] <;> omega]
      exact step1.trans (heq1.trans heq2)
  | sumTsub a s s2 tm ts2 b r hm ht ihm iht =>
    intro l pre post hl em f inside aS p hp1 hf hb
    subst hl
    simp only [List.length_cons, List.length_append] at hf
    obtain ⟨g, rfl⟩ : ∃ g, f = g + 1 := ⟨f - 1, by omega⟩
    have hch : chAt (pre ++ ('-' :: (s ++ s2)) ++ post) pre.length = '-' := by
      rw [show pre ++ ('-' :: (s ++ s2)) ++ post
          = pre ++ ('-' :: ((s ++ s2) ++ post)) by simp]
      exact chAt_shift0 _ _
    have hbs2 : NumBoundary (s2 ++ post) := (T_master ht post [] hb).1
    cases aS with
    | true =>
      have step1 := cooo_step_signpath g (pre ++ ('-' :: (s ++ s2)) ++ post) pre.length em
        inside false true p '-' hch (Or.inl rfl)
      obtain ⟨em1, f1, aS1, heq1, hf1⟩ := ihm (pre ++ ('-' :: (s ++ s2)) ++ post)
        (pre ++ ['-']) (s2 ++ post) (by simp) em g inside false true p hp1
        (by simp only [List.length_append]; omega) hbs2
      rw [show (pre ++ ['-']).length = pre.length + 1 by simp] at heq1
      obtain ⟨em2, f2, aS2, heq2, hf2⟩ := iht (pre ++ ('-' :: (s ++ s2)) ++ post)
        ((pre ++ ['-']) ++ s) post (by simp) em1 f1 inside aS1 p hp1
        (by simp only [List.length_append] at hf1; omega) hb
      rw [show ((pre ++ ['-']) ++ s).length = pre.length + 1 + s.length by
        simp only [List.length_append, List.length_cons, List.length_nil] <;> omega] at heq2
      refine ⟨em2, f2, aS2, ?_, hf2⟩
      rw [show pre.length + ('-' :: (s ++ s2)).length
          = pre.length + 1 + s.length + s2.length by
        simp only [List.length_cons, List.length_append] <;> omega]
      exact step1.trans (heq1.trans heq2)
    | false =>
      have step1 := cooo_step_signop g (pre ++ ('-' :: (s ++ s2)) ++ post) pre.length em
        inside p '-' hch (Or.inl rfl)
      obtain ⟨em1, f1, aS1, heq1, hf1⟩ := ihm (pre ++ ('-' :: (s ++ s2)) ++ post)
        (pre ++ ['-']) (s2 ++ post) (by simp) em g inside false false p hp1
        (by simp only [List.length_append]; omega) hbs2
      rw [show (pre ++ ['-']).length = pre.length + 1 by simp] at heq1
      obtain ⟨em2, f2, aS2, heq2, hf2⟩ := iht (pre ++ ('-' :: (s ++ s2)) ++ post)
        ((pre ++ ['-']) ++ s) post (by simp) em1 f1 inside aS1 p hp1
        (by simp only [List.length_append] at hf1; omega) hb
      rw [show ((pre ++ ['-']) ++ s).length = pre.length + 1 + s.length by
        simp only [List.length_append, List.length_cons, List.length_nil] <;> omega] at heq2
      refine ⟨em2, f2, aS2, ?_, hf2⟩
      rw [show pre.length + ('-' :: (s ++ s2)).length
          = pre.length + 1 + s.length + s2.length by
        simp only [List.length_cons, List.length_append] <;> omega]
      exact step1.trans (heq1.trans heq2)
  | exprPlain s s2 tm ts2 a r hm ht ihm iht =>
    intro l pre post hl em f inside b p hp1 hf hb
    subst hl
    simp only [List.length_append] at hf
    have hbs2 : NumBoundary (s2 ++ post) := (T_master ht post [] hb).1
    obtain ⟨em1, f1, aS1, heq1, hf1⟩ := ihm (pre ++ (s ++ s2) ++ post) pre (s2 ++ post)
      (by simp) em f inside true b p hp1 (by simp only [List.length_append]; omega) hbs2
    obtain ⟨em2, f2, aS2, heq2, hf2⟩ := iht (pre ++ (s ++ s2) ++ post) (pre ++ s) post
      (by simp) em1 f1 inside aS1 p hp1
      (by simp only [List.length_append] at hf1; omega) hb
    rw [show (pre ++ s).length = pre.length + s.length by simp] at heq2
    refine ⟨em2, f2, aS2, ?_, hf2⟩
    rw [show pre.length + (s ++ s2).length = pre.length + s.length + s2.length by
      simp only [List.length_append] <;> omega]
    exact heq1.trans heq2
  | exprNeg s s2 tm ts2 a r hm ht ihm iht =>
    intro l pre post hl em f inside b p hp1 hf hb
    subst hl
    simp only [List.length_cons, List.length_append] at hf
    obtain ⟨g, rfl⟩ : ∃ g, f = g + 1 := ⟨f - 1, by omega⟩
    have hch : chAt (pre ++ ('-' :: (s ++ s2)) ++ post) pre.length = '-' := by
      rw [show pre ++ ('-' :: (s ++ s2)) ++ post
          = pre ++ ('-' :: ((s ++ s2) ++ post)) by simp]
      exact chAt_shift0 _ _
    have step1 := cooo_step_signpath g (pre ++ ('-' :: (s ++ s2)) ++ post) pre.length em
      inside true b p '-' hch (Or.inl rfl)
    have hbs2 : NumBoundary (s2 ++ post) := (T_master ht post [] hb).1
    obtain ⟨em1, f1, aS1, heq1, hf1⟩ := ihm (pre ++ ('-' :: (s ++ s2)) ++ post)
      (pre ++ ['-']) (s2 ++ post) (by simp) em g inside false b p hp1
      (by simp only [List.length_append]; omega) hbs2
    rw [show (pre ++ ['-']).length = pre.length + 1 by simp] at heq1
    obtain ⟨em2, f2, aS2, heq2, hf2⟩ := iht (pre ++ ('-' :: (s ++ s2)) ++ post)
      ((pre ++ ['-']) ++ s) post (by simp) em1 f1 inside aS1 p hp1
      (by simp only [List.length_append] at hf1; omega) hb
    rw [show ((pre ++ ['-']) ++ s).length = pre.length + 1 + s.length by
      simp only [List.length_append, List.length_cons, List.length_nil] <;> omega] at heq2
    refine ⟨em2, f2, aS2, ?_, hf2⟩
    rw [show pre.length + ('-' :: (s ++ s2)).length = pre.length + 1 + s.length + s2.length by
      simp only [List.length_cons, List.length_append] <;> omega]
    exact step1.trans (heq1.trans heq2)
  | exprPos s s2 tm ts2 a r hm ht ihm iht =>
    intro l pre post hl em f inside b p hp1 hf hb
    subst hl
    simp only [List.length_cons, List.length_append] at hf
    obtain ⟨g, rfl⟩ : ∃ g, f = g + 1 := ⟨f - 1, by omega⟩
    have hch : chAt (pre ++ ('+' :: (s ++ s2)) ++ post) pre.length = '+' := by
      rw [show pre ++ ('+' :: (s ++ s2)) ++ post
          = pre ++ ('+' :: ((s ++ s2) ++ post)) by simp]
      exact chAt_shift0 _ _
    have step1 := cooo_step_signpath g (pre ++ ('+' :: (s ++ s2)) ++ post) pre.length em
      inside true b p '+' hch (Or.inr rfl)
    have hbs2 : NumBoundary (s2 ++ post) := (T_master ht post [] hb).1
    obtain ⟨em1, f1, aS1, heq1, hf1⟩ := ihm (pre ++ ('+' :: (s ++ s2)) ++ post)
      (pre ++ ['+']) (s2 ++ post) (by simp) em g inside false b p hp1
      (by simp only [List.length_append]; omega) hbs2
    rw [show (pre ++ ['+']).length = pre.length + 1 by simp] at heq1
    obtain ⟨em2, f2, aS2, heq2, hf2⟩ := iht (pre ++ ('+' :: (s ++ s2)) ++ post)
      ((pre ++ ['+']) ++ s) post (by simp) em1 f1 inside aS1 p hp1
      (by simp only [List.length_append] at hf1; omega) hb
    rw [show ((pre ++ ['+']) ++ s).length = pre.length + 1 + s.length by
      simp only [List.length_append, List.length_cons, List.length_nil] <;> omega] at heq2
    refine ⟨em2, f2, aS2, ?_, hf2⟩
    rw [show pre.length + ('+' :: (s ++ s2)).length = pre.length + 1 + s.length + s2.length by
      simp only [List.length_cons, List.length_append] <;> omega]
    exact step1.trans (heq1.trans heq2)

theorem NumLit_chars {s : List Char} {q : Q0} (hn : NumLit s q) :
    ∀ c ∈ s, isDigitC c = true ∨ c = '.' ∨ c = 'e' ∨ c = 'E' ∨ c = '+' ∨ c = '-' := by
  rcases hn with ⟨lm, le, q0, q', hm, he⟩
  intro c hc
  rcases List.mem_append.mp hc with hc | hc
  · cases hm with
    | int ds hds => exact Or.inl (hds.2 c hc)
    | frac ds fr hds hfr =>
      rcases List.mem_append.mp hc with h1 | h1
      · exact Or.inl (hds.2 c h1)
      · rcases List.mem_cons.mp h1 with rfl | h2
        · exact Or.inr (Or.inl rfl)
        · exact Or.inl (hfr.2 c h2)
  · cases he with
    | none => exact absurd hc (List.not_mem_nil c)
    | noSign e ds q1 he1 hds =>
      rcases List.mem_cons.mp hc with rfl | h2
      · rcases he1 with rfl | rfl
        · exact Or.inr (Or.inr (Or.inl rfl))
        · exact Or.inr (Or.inr (Or.inr (Or.inl rfl)))
      · exact Or.inl (hds.2 c h2)
    | signed e sg ds q1 he1 hsg hds =>
      rcases List.mem_cons.mp hc with rfl | h2
      · rcases he1 with rfl | rfl
        · exact Or.inr (Or.inr (Or.inl rfl))
        · exact Or.inr (Or.inr (Or.inr (Or.inl rfl)))
      · rcases List.mem_cons.mp h2 with rfl | h3
        · rcases hsg with rfl | rfl
          · exact Or.inr (Or.inr (Or.inr (Or.inr (Or.inl rfl))))
          · exact Or.inr (Or.inr (Or.inr (Or.inr (Or.inr rfl))))
        · exact Or.inl (hds.2 c h3)

theorem G_noSpace {lv : Lv} {s : List Char} {ts : List Lexeme} {ast : AST}
    (h : G lv s ts ast) : ∀ c ∈ s, c ≠ ' ' := by
  induction h with
  | num s q hn =>
    intro c hc
    rcases NumLit_chars hn c hc with h | rfl | rfl | rfl | rfl | rfl
    · exact (digit_facts h).2.2.2.2.2.2.2.2.2.2.2
    all_goals decide
  | paren s ts e hg ih =>
    intro c hc
    rcases List.mem_cons.mp hc with rfl | h2
    · decide
    rcases List.mem_append.mp h2 with h3 | h3
    · exact ih c h3
    · rcases List.mem_singleton.mp h3 with rfl
      decide
  | call fk s ts e hg ih =>
    intro c hc
    rcases List.mem_append.mp hc with h1 | h1
    · have hfn : ∀ x ∈ fname fk, x ≠ ' ' := by cases fk <;> decide
      exact hfn c h1
    rcases List.mem_cons.mp h1 with rfl | h2
    · decide
    rcases List.mem_append.mp h2 with h3 | h3
    · exact ih c h3
    · rcases List.mem_singleton.mp h3 with rfl
      decide
  | powTnil a => intro c hc; exact absurd hc (List.not_mem_nil c)
  | powTcons a s s2 tf ts2 b r hfct ht ihf iht =>
    intro c hc
    rcases List.mem_cons.mp hc with rfl | h2
    · decide
    rcases List.mem_append.mp h2 with h3 | h3
    · exact ihf c h3
    · exact iht c h3
  | powMk s s2 tf ts2 a r hfct ht ihf iht =>
    intro c hc
    rcases List.mem_append.mp hc with h3 | h3
    · exact ihf c h3
    · exact iht c h3
  | mulTnil a => intro c hc; exact absurd hc (List.not_mem_nil c)
  | mulTmul a s s2 tp ts2 b r hpw ht ihp iht =>
    intro c hc
    rcases List.mem_cons.mp hc with rfl | h2
    · decide
    rcases List.mem_append.mp h2 with h3 | h3
    · exact ihp c h3
    · exact iht c h3
  | mulTdiv a s s2 tp ts2 b r hpw ht ihp iht =>
    intro c hc
    rcases List.mem_cons.mp hc with rfl | h2
    · decide
    rcases List.mem_append.mp h2 with h3 | h3
    · exact ihp c h3
    · exact iht c h3
  | mulMk s s2 tp ts2 a r hpw ht ihp iht =>
    intro c hc
    rcases List.mem_append.mp hc with h3 | h3
    · exact ihp c h3
    · exact iht c h3
  | sumTnil a => intro c hc; exact absurd hc (List.not_mem_nil c)
  | sumTadd a s s2 tm ts2 b r hm ht ihm iht =>
    intro c hc
    rcases List.mem_cons.mp hc with rfl | h2
    · decide
    rcases List.mem_append.mp h2 with h3 | h3
    · exact ihm c h3
    · exact iht c h3
  | sumTsub a s s2 tm ts2 b r hm ht ihm iht =>
    intro c hc
    rcases List.mem_cons.mp hc with rfl | h2
    · decide
    rcases List.mem_append.mp h2 with h3 | h3
    · exact ihm c h3
    · exact iht c h3
  | exprPlain s s2 tm ts2 a r hm ht ihm iht =>
    intro c hc
    rcases List.mem_append.mp hc with h3 | h3
    · exact ihm c h3
    · exact iht c h3
  | exprNeg s s2 tm ts2 a r hm ht ihm iht =>
    intro c hc
    rcases List.mem_cons.mp hc with rfl | h2
    · decide
    rcases List.mem_append.mp h2 with h3 | h3
    · exact ihm c h3
    · exact iht c h3
  | exprPos s s2 tm ts2 a r hm ht ihm iht =>
    intro c hc
    rcases List.mem_cons.mp hc with rfl | h2
    · decide
    rcases List.mem_append.mp h2 with h3 | h3
    · exact ihm c h3
    · exact iht c h3

theorem G_removeSpaces {s : List Char} {ts : List Lexeme} {ast : AST}
    (h : G .exprL s ts ast) : removeSpaces s = s := by
  rw [removeSpaces_eq_filter]
  apply List.filter_eq_self.mpr
  intro c hc
  simp only [bne_iff_ne, ne_eq]
  exact G_noSpace h c hc

theorem G_headNotClose {lv : Lv} {s : List Char} {ts : List Lexeme} {ast : AST}
    (h : G lv s ts ast) :
    (lv = .fact ∨ lv = .powL ∨ lv = .mulL ∨ lv = .exprL) →
    (match s with | [] => True | c :: _ => c ≠ ')') := by
  induction h with
  | num s q hn =>
    intro _
    obtain ⟨d, tl, heq, hd⟩ : ∃ d tl, s = d :: tl ∧ isDigitC d = true := by
      rcases hn with ⟨lm, le, q0, q', hm, he⟩
      cases hm with
      | int ds hds =>
        rcases lm with _ | ⟨d, tl⟩
        · exact absurd rfl hds.1
        · exact ⟨d, tl ++ le, rfl, hds.2 d (by simp)⟩
      | frac ds fr hds hfr =>
        rcases ds with _ | ⟨d, tl⟩
        · exact absurd rfl hds.1
        · exact ⟨d, (tl ++ '.' :: fr) ++ le, by simp, hds.2 d (by simp)⟩
    subst heq
    show d ≠ ')'
    exact (digit_facts hd).2.2.1
  | paren s ts e hg ih =>
    intro _
    show ('(' : Char) ≠ ')'
    decide
  | call fk s ts e hg ih =>
    intro _
    cases fk <;> first
    | (show ('s' : Char) ≠ ')'; decide)
    | (show ('c' : Char) ≠ ')'; decide)
    | (show ('t' : Char) ≠ ')'; decide)
    | (show ('l' : Char) ≠ ')'; decide)
    | (show ('a' : Char) ≠ ')'; decide)
  | powTnil a => rintro (h | h | h | h) <;> simp at h
  | powTcons a s s2 tf ts2 b r hfct ht ihf iht => rintro (h | h | h | h) <;> simp at h
  | powMk s s2 tf ts2 a r hfct ht ihf iht =>
    intro _
    have h1 := ihf (Or.inl rfl)
    have h2 : s ≠ [] := G_ne hfct (Or.inl rfl)
    rcases s with _ | ⟨c, s'⟩
    · exact absurd rfl h2
    · exact h1
  | mulTnil a => rintro (h | h | h | h) <;> simp at h
  | mulTmul a s s2 tp ts2 b r hpw ht ihp iht => rintro (h | h | h | h) <;> simp at h
  | mulTdiv a s s2 tp ts2 b r hpw ht ihp iht => rintro (h | h | h | h) <;> simp at h
  | mulMk s s2 tp ts2 a r hpw ht ihp iht =>
    intro _
    have h1 := ihp (Or.inr (Or.inl rfl))
    have h2 : s ≠ [] := G_ne hpw (Or.inr (Or.inl rfl))
    rcases s with _ | ⟨c, s'⟩
    · exact absurd rfl h2
    · exact h1
  | sumTnil a => rintro (h | h | h | h) <;> simp at h
  | sumTadd a s s2 tm ts2 b r hm ht ihm iht => rintro (h | h | h | h) <;> simp at h
  | sumTsub a s s2 tm ts2 b r hm ht ihm iht => rintro (h | h | h | h) <;> simp at h
  | exprPlain s s2 tm ts2 a r hm ht ihm iht =>
    intro _
    have h1 := ihm (Or.inr (Or.inr (Or.inl rfl)))
    have h2 : s ≠ [] := G_ne hm (Or.inr (Or.inr (Or.inl rfl)))
    rcases s with _ | ⟨c, s'⟩
    · exact absurd rfl h2
    · exact h1
  | exprNeg s s2 tm ts2 a r hm ht ihm iht =>
    intro _
    show ('-' : Char) ≠ ')'
    decide
  | exprPos s s2 tm ts2 a r hm ht ihm iht =>
    intro _
    show ('+' : Char) ≠ ')'
    decide

theorem NoHM_cons_ne {c : Char} {tail : List Char} (hne : c ≠ '^') (h : NoHM tail) :
    NoHM (c :: tail) := by
  cases tail with
  | nil => trivial
  | cons c2 t2 => exact ⟨fun hc => hne hc.1, h⟩

theorem NoHM_append_of_no_hat {s r : List Char} (hs : ∀ c ∈ s, c ≠ '^') (hr : NoHM r) :
    NoHM (s ++ r) := by
  induction s with
  | nil => exact hr
  | cons c cs ih =>
    show NoHM (c :: (cs ++ r))
    exact NoHM_cons_ne (hs c (by simp)) (ih (fun x hx => hs x (by simp [hx])))

theorem ccpNegExp_none : ∀ (s : List Char) (i : ℕ), NoHM s → ccpNegExp s i = none := by
  intro s
  induction s with
  | nil => intro i _; rfl
  | cons c1 tail ih =>
    intro i hnh
    cases tail with
    | nil => rfl
    | cons c2 rest =>
      rw [show ccpNegExp (c1 :: c2 :: rest) i
          = (if c1 = '^' ∧ c2 = '-' then some (.negExp (i + 1))
             else ccpNegExp (c2 :: rest) (i + 1)) from rfl]
      rw [if_neg hnh.1]
      exact ih (i + 1) hnh.2

theorem G_NoHM {lv : Lv} {s : List Char} {ts : List Lexeme} {ast : AST}
    (h : G lv s ts ast) : ∀ r, NoHM r → NoHM (s ++ r) := by
  induction h with
  | num s q hn =>
    intro r hr
    refine NoHM_append_of_no_hat ?_ hr
    intro c hc
    rcases NumLit_chars hn c hc with h | rfl | rfl | rfl | rfl | rfl
    · exact (digit_facts h).2.2.2.2.2.2.2.2.1
    all_goals decide
  | paren s ts e hg ih =>
    intro r hr
    show NoHM ('(' :: ((s ++ [')']) ++ r))
    apply NoHM_cons_ne (by decide)
    rw [show (s ++ [')']) ++ r = s ++ (')' :: r) by simp]
    exact ih (')' :: r) (NoHM_cons_ne (by decide) hr)
  | call fk s ts e hg ih =>
    intro r hr
    rw [show (fname fk ++ ('(' :: (s ++ [')']))) ++ r
        = (fname fk ++ ['(']) ++ ((s ++ [')']) ++ r) by simp]
    refine NoHM_append_of_no_hat (by cases fk <;> decide) ?_
    rw [show (s ++ [')']) ++ r = s ++ (')' :: r) by simp]
    exact ih (')' :: r) (NoHM_cons_ne (by decide) hr)
  | powTnil a => intro r hr; exact hr
  | powTcons a s s2 tf ts2 b r0 hfct ht ihf iht =>
    intro r hr
    have hne : s ≠ [] := G_ne hfct (Or.inl rfl)
    rcases s with _ | ⟨c₀, s'⟩
    · exact absurd rfl hne
    have hns := G_notSign hfct (Or.inl rfl)
    show NoHM ('^' :: c₀ :: ((s' ++ s2) ++ r))
    refine ⟨fun hc => hns.1 hc.2, ?_⟩
    rw [show c₀ :: ((s' ++ s2) ++ r) = (c₀ :: s') ++ (s2 ++ r) by simp]
    exact ihf (s2 ++ r) (iht r hr)
  | powMk s s2 tf ts2 a r0 hfct ht ihf iht =>
    intro r hr
    rw [show (s ++ s2) ++ r = s ++ (s2 ++ r) by simp]
    exact ihf (s2 ++ r) (iht r hr)
  | mulTnil a => intro r hr; exact hr
  | mulTmul a s s2 tp ts2 b r0 hpw ht ihp iht =>
    intro r hr
    show NoHM ('*' :: ((s ++ s2) ++ r))
    apply NoHM_cons_ne (by decide)
    rw [show (s ++ s2) ++ r = s ++ (s2 ++ r) by simp]
    exact ihp (s2 ++ r) (iht r hr)
  | mulTdiv a s s2 tp ts2 b r0 hpw ht ihp iht =>
    intro r hr
    show NoHM ('/' :: ((s ++ s2) ++ r))
    apply NoHM_cons_ne (by decide)
    rw [show (s ++ s2) ++ r = s ++ (s2 ++ r) by simp]
    exact ihp (s2 ++ r) (iht r hr)
  | mulMk s s2 tp ts2 a r0 hpw ht ihp iht =>
    intro r hr
    rw [show (s ++ s2) ++ r = s ++ (s2 ++ r) by simp]
    exact ihp (s2 ++ r) (iht r hr)
  | sumTnil a => intro r hr; exact hr
  | sumTadd a s s2 tm ts2 b r0 hm ht ihm iht =>
    intro r hr
    show NoHM ('+' :: ((s ++ s2) ++ r))
    apply NoHM_cons_ne (by decide)
    rw [show (s ++ s2) ++ r = s ++ (s2 ++ r) by simp]
    exact ihm (s2 ++ r) (iht r hr)
  | sumTsub a s s2 tm ts2 b r0 hm ht ihm iht =>
    intro r hr
    show NoHM ('-' :: ((s ++ s2) ++ r))
    apply NoHM_cons_ne (by decide)
    rw [show (s ++ s2) ++ r = s ++ (s2 ++ r) by simp]
    exact ihm (s2 ++ r) (iht r hr)
  | exprPlain s s2 tm ts2 a r0 hm ht ihm iht =>
    intro r hr
    rw [show (s ++ s2) ++ r = s ++ (s2 ++ r) by simp]
    exact ihm (s2 ++ r) (iht r hr)
  | exprNeg s s2 tm ts2 a r0 hm ht ihm iht =>
    intro r hr
    show NoHM ('-' :: ((s ++ s2) ++ r))
    apply NoHM_cons_ne (by decide)
    rw [show (s ++ s2) ++ r = s ++ (s2 ++ r) by simp]
    exact ihm (s2 ++ r) (iht r hr)
  | exprPos s s2 tm ts2 a r0 hm ht ihm iht =>
    intro r hr
    show NoHM ('+' :: ((s ++ s2) ++ r))
    apply NoHM_cons_ne (by decide)
    rw [show (s ++ s2) ++ r = s ++ (s2 ++ r) by simp]
    exact ihm (s2 ++ r) (iht r hr)

theorem ccpBalance_cons (c : Char) (rest : List Char) (i : ℕ) (k : ℤ) :
    ccpBalance (c :: rest) i k =
      (if c = '(' ∧ chAt rest 0 = ')' then (false, some (.missingArg i (i + 1)))
      else if c = '(' then ccpBalance rest (i + 1) (k + 1)
      else if c = ')' then ccpBalance rest (i + 1) (k - 1)
      else ccpBalance rest (i + 1) k) := rfl

theorem ccpBalance_skip : ∀ (s r : List Char) (i : ℕ) (k : ℤ),
    (∀ c ∈ s, c ≠ '(' ∧ c ≠ ')') →
    ccpBalance (s ++ r) i k = ccpBalance r (i + s.length) k := by
  intro s
  induction s with
  | nil => intro r i k _; simp
  | cons c cs ih =>
    intro r i k hs
    have hc := hs c (by simp)
    rw [show (c :: cs) ++ r = c :: (cs ++ r) from rfl, ccpBalance_cons]
    rw [if_neg (fun hp => hc.1 hp.1), if_neg hc.1, if_neg hc.2]
    rw [ih r (i + 1) k (fun x hx => hs x (by simp [hx]))]
    rw [show i + 1 + cs.length = i + (c :: cs).length by
      simp only [List.length_cons] <;> omega]

theorem G_ccpBal {lv : Lv} {s : List Char} {ts : List Lexeme} {ast : AST}
    (h : G lv s ts ast) :
    ∀ (r : List Char) (i : ℕ) (k : ℤ),
      ccpBalance (s ++ r) i k = ccpBalance r (i + s.length) k := by
  induction h with
  | num s q hn =>
    intro r i k
    apply ccpBalance_skip
    intro c hc
    rcases NumLit_chars hn c hc with h | rfl | rfl | rfl | rfl | rfl
    · exact ⟨(digit_facts h).2.1, (digit_facts h).2.2.1⟩
    all_goals exact ⟨by decide, by decide⟩
  | paren s ts e hg ih =>
    intro r i k
    have hne : s ≠ [] := G_ne hg (Or.inr (Or.inr (Or.inr rfl)))
    rcases s with _ | ⟨c₀, s'⟩
    · exact absurd rfl hne
    have hc₀ : c₀ ≠ ')' := G_headNotClose hg (Or.inr (Or.inr (Or.inr rfl)))
    rw [show ('(' :: ((c₀ :: s') ++ [')'])) ++ r
        = '(' :: (((c₀ :: s') ++ [')']) ++ r) from rfl, ccpBalance_cons]
    have hch : chAt (((c₀ :: s') ++ [')']) ++ r) 0 = c₀ := rfl
    rw [if_neg (fun hp => hc₀ (hch.symm.trans hp.2)), if_pos rfl]
    rw [show ((c₀ :: s') ++ [')']) ++ r = (c₀ :: s') ++ (')' :: r) by simp]
    rw [ih (')' :: r) (i + 1) (k + 1)]
    rw [ccpBalance_cons]
    rw [if_neg (fun hp => absurd hp.1 (by decide)), if_neg (by decide), if_pos rfl]
    rw [show (k : ℤ) + 1 - 1 = k by omega]
    rw [show i + 1 + (c₀ :: s').length + 1 = i + ('(' :: ((c₀ :: s') ++ [')'])).length by
      simp only [List.length_cons, List.length_append, List.length_nil] <;> omega]
  | call fk s ts e hg ih =>
    intro r i k
    have hne : s ≠ [] := G_ne hg (Or.inr (Or.inr (Or.inr rfl)))
    rcases s with _ | ⟨c₀, s'⟩
    · exact absurd rfl hne
    have hc₀ : c₀ ≠ ')' := G_headNotClose hg (Or.inr (Or.inr (Or.inr rfl)))
    rw [show (fname fk ++ ('(' :: ((c₀ :: s') ++ [')']))) ++ r
        = fname fk ++ (('(' :: ((c₀ :: s') ++ [')'])) ++ r) by simp]
    rw [ccpBalance_skip (fname fk) _ i k (by cases fk <;> decide)]
    rw [show ('(' :: ((c₀ :: s') ++ [')'])) ++ r
        = '(' :: (((c₀ :: s') ++ [')']) ++ r) from rfl, ccpBalance_cons]
    have hch : chAt (((c₀ :: s') ++ [')']) ++ r) 0 = c₀ := rfl
    rw [if_neg (fun hp => hc₀ (hch.symm.trans hp.2)), if_pos rfl]
    rw [show ((c₀ :: s') ++ [')']) ++ r = (c₀ :: s') ++ (')' :: r) by simp]
    rw [ih (')' :: r) (i + (fname fk).length + 1) (k + 1)]
    rw [ccpBalance_cons]
    rw [if_neg (fun hp => absurd hp.1 (by decide)), if_neg (by decide), if_pos rfl]
    rw [show (k : ℤ) + 1 - 1 = k by omega]
    rw [show i + (fname fk).length + 1 + (c₀ :: s').length + 1
        = i + (fname fk ++ ('(' :: ((c₀ :: s') ++ [')']))).length by
      simp only [List.length_cons, List.length_append, List.length_nil] <;> omega]
  | powTnil a => intro r i k; simp
  | powTcons a s s2 tf ts2 b r0 hfct ht ihf iht =>
    intro r i k
    rw [show ('^' :: (s ++ s2)) ++ r = '^' :: ((s ++ s2) ++ r) from rfl, ccpBalance_cons]
    rw [if_neg (fun hp => absurd hp.1 (by decide)), if_neg (by decide), if_neg (by decide)]
    rw [show (s ++ s2) ++ r = s ++ (s2 ++ r) by simp]
    rw [ihf (s2 ++ r) (i + 1) k, iht r (i + 1 + s.length) k]
    rw [show i + 1 + s.length + s2.length = i + ('^' :: (s ++ s2)).length by
      simp only [List.length_cons, List.length_append] <;> omega]
  | powMk s s2 tf ts2 a r0 hfct ht ihf iht =>
    intro r i k
    rw [show (s ++ s2) ++ r = s ++ (s2 ++ r) by simp]
    rw [ihf (s2 ++ r) i k, iht r (i + s.length) k]
    rw [show i + s.length + s2.length = i + (s ++ s2).length by
      simp only [List.length_append] <;> omega]
  | mulTnil a => intro r i k; simp
  | mulTmul a s s2 tp ts2 b r0 hpw ht ihp iht =>
    intro r i k
    rw [show ('*' :: (s ++ s2)) ++ r = '*' :: ((s ++ s2) ++ r) from rfl, ccpBalance_cons]
    rw [if_neg (fun hp => absurd hp.1 (by decide)), if_neg (by decide), if_neg (by decide)]
    rw [show (s ++ s2) ++ r = s ++ (s2 ++ r) by simp]
    rw [ihp (s2 ++ r) (i + 1) k, iht r (i + 1 + s.length) k]
    rw [show i + 1 + s.length + s2.length = i + ('*' :: (s ++ s2)).length by
      simp only [List.length_cons, List.length_append] <;> omega]
  | mulTdiv a s s2 tp ts2 b r0 hpw ht ihp iht =>
    intro r i k
    rw [show ('/' :: (s ++ s2)) ++ r = '/' :: ((s ++ s2) ++ r) from rfl, ccpBalance_cons]
    rw [if_neg (fun hp => absurd hp.1 (by decide)), if_neg (by decide), if_neg (by decide)]
    rw [show (s ++ s2) ++ r = s ++ (s2 ++ r) by simp]
    rw [ihp (s2 ++ r) (i + 1) k, iht r (i + 1 + s.length) k]
    rw [show i + 1 + s.length + s2.length = i + ('/' :: (s ++ s2)).length by
      simp only [List.length_cons, List.length_append] <;> omega]
  | mulMk s s2 tp ts2 a r0 hpw ht ihp iht =>
    intro r i k
    rw [show (s ++ s2) ++ r = s ++ (s2 ++ r) by simp]
    rw [ihp (s2 ++ r) i k, iht r (i + s.length) k]
    rw [show i + s.length + s2.length = i + (s ++ s2).length by
      simp only [List.length_append] <;> omega]
  | sumTnil a => intro r i k; simp
  | sumTadd a s s2 tm ts2 b r0 hm ht ihm iht =>
    intro r i k
    rw [show ('+' :: (s ++ s2)) ++ r = '+' :: ((s ++ s2) ++ r) from rfl, ccpBalance_cons]
    rw [if_neg (fun hp => absurd hp.1 (by decide)), if_neg (by decide), if_neg (by decide)]
    rw [show (s ++ s2) ++ r = s ++ (s2 ++ r) by simp]
    rw [ihm (s2 ++ r) (i + 1) k, iht r (i + 1 + s.length) k]
    rw [show i + 1 + s.length + s2.length = i + ('+' :: (s ++ s2)).length by
      simp only [List.length_cons, List.length_append] <;> omega]
  | sumTsub a s s2 tm ts2 b r0 hm ht ihm iht =>
    intro r i k
    rw [show ('-' :: (s ++ s2)) ++ r = '-' :: ((s ++ s2) ++ r) from rfl, ccpBalance_cons]
    rw [if_neg (fun hp => absurd hp.1 (by decide)), if_neg (by decide), if_neg (by decide)]
    rw [show (s ++ s2) ++ r = s ++ (s2 ++ r) by simp]
    rw [ihm (s2 ++ r) (i + 1) k, iht r (i + 1 + s.length) k]
    rw [show i + 1 + s.length + s2.length = i + ('-' :: (s ++ s2)).length by
      simp only [List.length_cons, List.length_append] <;> omega]
  | exprPlain s s2 tm ts2 a r0 hm ht ihm iht =>
    intro r i k
    rw [show (s ++ s2) ++ r = s ++ (s2 ++ r) by simp]
    rw [ihm (s2 ++ r) i k, iht r (i + s.length) k]
    rw [show i + s.length + s2.length = i + (s ++ s2).length by
      simp only [List.length_append] <;> omega]
  | exprNeg s s2 tm ts2 a r0 hm ht ihm iht =>
    intro r i k
    rw [show ('-' :: (s ++ s2)) ++ r = '-' :: ((s ++ s2) ++ r) from rfl, ccpBalance_cons]
    rw [if_neg (fun hp => absurd hp.1 (by decide)), if_neg (by decide), if_neg (by decide)]
    rw [show (s ++ s2) ++ r = s ++ (s2 ++ r) by simp]
    rw [ihm (s2 ++ r) (i + 1) k, iht r (i + 1 + s.length) k]
    rw [show i + 1 + s.length + s2.length = i + ('-' :: (s ++ s2)).length by
      simp only [List.length_cons, List.length_append] <;> omega]
  | exprPos s s2 tm ts2 a r0 hm ht ihm iht =>
    intro r i k
    rw [show ('+' :: (s ++ s2)) ++ r = '+' :: ((s ++ s2) ++ r) from rfl, ccpBalance_cons]
    rw [if_neg (fun hp => absurd hp.1 (by decide)), if_neg (by decide), if_neg (by decide)]
    rw [show (s ++ s2) ++ r = s ++ (s2 ++ r) by simp]
    rw [ihm (s2 ++ r) (i + 1) k, iht r (i + 1 + s.length) k]
    rw [show i + 1 + s.length + s2.length = i + ('+' :: (s ++ s2)).length by
      simp only [List.length_cons, List.length_append] <;> omega]

theorem ccp_of_G {s : List Char} {ts : List Lexeme} {ast : AST}
    (h : G .exprL s ts ast) : checkCorrectParentheses s = (true, none) := by
  rw [checkCorrectParentheses]
  have hnh : NoHM s := by
    have := G_NoHM h [] trivial
    rwa [List.append_nil] at this
  rw [ccpNegExp_none s 0 hnh]
  have hb := G_ccpBal h [] 0 0
  rw [List.append_nil] at hb
  rw [hb]
  rfl

theorem checkCI_of_G {s : List Char} {ts : List Lexeme} {ast : AST}
    (h : G .exprL s ts ast) : ∃ em', checkCorrectInput s = (true, em') := by
  have hns : removeSpaces s = s := G_removeSpaces h
  have hne : s ≠ [] := G_ne h (Or.inr (Or.inr (Or.inr rfl)))
  obtain ⟨em', f', aS', heq, hf'⟩ := V_master h s [] [] (by simp) none (vFuel s) false false 1
    (fun hh => Bool.noConfusion hh)
    (by rw [show vFuel s = 2 * s.length + 2 from rfl]; simp only [List.length_nil]; omega)
    trivial
  simp only [List.length_nil, Nat.zero_add] at heq
  obtain ⟨g, rfl⟩ : ∃ g, f' = g + 1 := ⟨f' - 1, by simp only [List.length_nil] at hf'; omega⟩
  have hend : chAt s s.length = nulChar := by
    simp [chAt]
  have hterm : checkOperatorAndOperandsOrder (g + 1) s s.length em' false aS' false true 1
      = (true, s.length, em') := by
    rw [cooo_succ, hend, if_pos rfl]
    rfl
  refine ⟨em', ?_⟩
  unfold checkCorrectInput
  dsimp only
  rw [hns, if_neg hne, ccp_of_G h]
  dsimp only
  rw [heq, hterm]

/-!
### The claims
-/

/-- Claim C2: the specification says validation fails with the
unbalanced-parentheses error whenever the running balance counter at any
point implies more closes than opens, or does not end at zero, and that
`"(1+2"` is rejected with that error.  The second half holds, but the code
only compares the final counter with zero: the input `")2("`, whose balance
dips to `-1` before returning to zero, passes `checkCorrectInput`
altogether, with no error message at all. -/
theorem C2_parenthesis_balance :
    checkCorrectInput (String.toList (")2(")) = (true, none)
      ∧ (checkCorrectParentheses (String.toList (")2("))).1 = true
      ∧ parseString fsW (String.toList ("(1+2")) = some (.nan, .mismatched)
      ∧ (ErrMsg.mismatched).render =
        String.toList ("Error: Mismatched parentheses! Possibly a missing closing parenthesis") := by
  decide

/-- Claim C3: the specification requires the 1-based positions embedded in
failure messages to be offsets into the original input string.  The code
strips spaces first and computes positions in the stripped buffer: both
`" 2^-1"` and `"2^-1"` report the negative-power error at position `2`,
although the offending `^` sits at character 2 (0-based index 1) only in
the stripped string and at character 3 of the original `" 2^-1"`. -/
theorem C3_positions_in_stripped_buffer :
    parseString fsW (String.toList (" 2^-1")) = some (.nan, .negExp 2)
      ∧ parseString fsW (String.toList ("2^-1")) = some (.nan, .negExp 2)
      ∧ chAt (String.toList (" 2^-1")) 1 = '2'
      ∧ chAt (String.toList ("2^-1")) 1 = '^'
      ∧ (ErrMsg.negExp 2).render =
        String.toList ("Error! Missing parentheses when raising to a negative power! Location: 2 character") := by
  decide

/-- Claim C4: all binary operators, `^` included, evaluate
left-associatively: an incoming operator pops an equal-priority stack top
before being pushed, and `Evaluate("2^3^2")` yields `(2^3)^2 = 64`, not
`512`. -/
theorem C4_power_left_associative :
    parseString fsW (String.toList ("2^3^2")) = some (.num ⟨64, 1⟩, .success)
      ∧ parseString fsW (String.toList ("2^3^2")) ≠ some (.num ⟨512, 1⟩, .success)
      ∧ handleSupportStack (opLex 3 .pow_t) [opLex 3 .pow_t] []
        = ([opLex 3 .pow_t], [opLex 3 .pow_t]) := by
  decide

/-- Claim C5 (corrected): the normalizer does not remove every whitespace
character — it removes only `' '`.  The tab in `"1\t2"` (a whitespace
character) survives `removeSpaces`, refuting the claim as stated. -/
theorem C5_not_all_whitespace_removed :
    removeSpaces (String.toList ("1\t2")) = String.toList ("1\t2")
      ∧ ('\t').isWhitespace = true
      ∧ removeSpaces (String.toList (" 1 + 2 ")) = String.toList ("1+2") := by
  decide

/-- Claim C5 (amended): for every raw input the normalizer returns the same
text with every space character `' '` (and only those) removed, preserving
the relative order of all other characters, and it never fails. -/
theorem C5_amended_removes_exactly_spaces (l : List Char) :
    removeSpaces l = l.filter (· != ' ') ∧ List.Sublist (removeSpaces l) l := by
  refine ⟨removeSpaces_eq_filter l, ?_⟩
  rw [removeSpaces_eq_filter l]
  exact List.filter_sublist l

/-- Claim C6: a `+` or `-` at the start of the expression or right after
`(` is tokenized as unary: the tokenizer emits an implicit zero lexeme
before the sign operator, and `Evaluate("-5+3")` is `-2` (and
`Evaluate("(+2)")` is `2`). -/
theorem C6_unary_sign_inserts_zero :
    tokenize (String.toList ("-5+3"))
      = some [numLex ⟨0, 1⟩, opLex 1 .minus, numLex ⟨5, 1⟩, opLex 1 .plus, numLex ⟨3, 1⟩]
      ∧ parseString fsW (String.toList ("-5+3")) = some (.num ⟨-2, 1⟩, .success)
      ∧ tokenize (String.toList ("(+2)"))
        = some [opLex 0 .open_p, numLex ⟨0, 1⟩, opLex 1 .plus, numLex ⟨2, 1⟩, opLex 0 .close_p]
      ∧ parseString fsW (String.toList ("(+2)")) = some (.num ⟨2, 1⟩, .success) := by
  decide

/-- Claim C7 (counterexample): `"1/0"` passes validation and applies `/`
outside its mathematical domain, yet `Evaluate` returns the infinite value
with the success message rather than NaN with the invalid-input message. -/
theorem C7_division_by_zero_reports_success :
    parseString fsW (String.toList ("1/0")) = some (.pinf, .success)
      ∧ (checkCorrectInput (String.toList ("1/0"))).1 = true := by
  decide

/-- Claim C7 (amended): for every input that passes validation and yields a
result, the message is either the success marker or the fixed NaN report;
the NaN report is produced exactly when the computed value is the
non-result NaN (domain errors that produce an infinity, such as `1/0`, are
reported as success); and the NaN report is distinct from every validation
message. -/
theorem C7_amended_nan_reporting (fs : FnSem) (l : List Char) (v : MVal) (m : ErrMsg)
    (hok : (checkCorrectInput (l.take 255)).1 = true)
    (h : parseString fs l = some (v, m)) :
    (m = .nanMsg ∨ m = .success) ∧ (v = .nan ↔ m = .nanMsg)
      ∧ (∀ e : ErrMsg, e.isValidation = true → e.render ≠ ErrMsg.nanMsg.render) := by
  refine ?_
  have hdist : ∀ e : ErrMsg, e.isValidation = true → e.render ≠ ErrMsg.nanMsg.render :=
    validation_render_ne_nan
  unfold parseString parseStringFrom at h
  dsimp only at h
  rcases hc : checkCorrectInput (l.take 255) with ⟨ok, em⟩
  rw [hc] at h hok
  cases ok
  · exact Bool.noConfusion hok
  · try dsimp only at h
    have hif : (freeData freshModel).lexemesList = ([] : List Lexeme) := rfl
    rw [hif, if_pos rfl] at h
    rcases ht : tokenize (removeSpaces (List.take 255 l)) with _ | toks <;> rw [ht] at h
    · exact Option.noConfusion h
    · try dsimp only at h
      rcases hr : makeReversePolishNotationStack toks with _ | post <;> rw [hr] at h
      · exact Option.noConfusion h
      · try dsimp only at h
        rcases he : calculateFullExpression fs post.length post with _ | v0 <;> rw [he] at h
        · exact Option.noConfusion h
        · try dsimp only at h
          by_cases hn : v0.isNan = true
          · rw [if_pos hn] at h
            injection h with h1
            injection h1 with hv hm
            subst hv; subst hm
            exact ⟨Or.inl rfl, by simp, hdist⟩
          · rw [if_neg hn] at h
            injection h with h1
            injection h1 with hv hm
            subst hv; subst hm
            refine ⟨Or.inr rfl, ⟨?_, ?_⟩, hdist⟩
            · intro hv2; rw [hv2] at hn; simp [MVal.isNan] at hn
            · intro hm2; cases hm2

/-- Witness for C7 (amended), at the validated input `"sqrt(-1)"` whose
evaluation produces NaN. -/
theorem C7_amended_nan_reporting_witness :
    (ErrMsg.nanMsg = ErrMsg.nanMsg ∨ ErrMsg.nanMsg = ErrMsg.success)
      ∧ (MVal.nan = MVal.nan ↔ ErrMsg.nanMsg = ErrMsg.nanMsg)
      ∧ (∀ e : ErrMsg, e.isValidation = true → e.render ≠ ErrMsg.nanMsg.render) :=
  C7_amended_nan_reporting fsW (String.toList ("sqrt(-1)")) .nan .nanMsg
    (by decide) (by decide)

/-- Claim C8: `Evaluate` is a pure, deterministic function of its input
string: the pipeline starts by freeing all model state (`setInput` calls
`freeData`), so the `(result, message)` pair is independent of whatever
state the model held, and two calls on the same string are identical. -/
theorem C8_stateless (fs : FnSem) (st1 st2 : ModelState) (l : List Char) :
    parseStringFrom fs st1 l = parseStringFrom fs st2 l := rfl

/-- Claim C9: only the first 255 characters are processed (`strncpy` with
bound 255): `Evaluate` on any string equals `Evaluate` on its 255-character
truncation. -/
theorem C9_truncates_to_255 (fs : FnSem) (l : List Char) :
    parseString fs l = parseString fs (l.take 255) := by
  unfold parseString parseStringFrom
  rw [List.take_take, min_self]

/-- Claim C10: validation is claimed to guarantee that the pop-until-open
loop of `handleCloseParentheses` never reads from an empty support stack.
The input `")1("` passes `checkCorrectInput`, its lexemes start with a
close parenthesis, and the RPN builder then pops from the empty stack (the
C++ dereferences `begin()` of an empty `std::list`, modelled `none`). -/
theorem C10_close_paren_pops_empty_stack :
    checkCorrectInput (String.toList (")1(")) = (true, none)
      ∧ tokenize (String.toList (")1("))
        = some [opLex 0 .close_p, numLex ⟨1, 1⟩, opLex 0 .open_p]
      ∧ makeReversePolishNotationStack [opLex 0 .close_p, numLex ⟨1, 1⟩, opLex 0 .open_p] = none
      ∧ handleCloseParentheses [] [] = none
      ∧ parseString fsW (String.toList (")1(")) = none := by
  decide

/-- Claim C1: on every syntactically valid expression (per the grammar `G`
relating source text, token list and syntax tree) of buffer-fitting length,
`Evaluate` returns exactly the value of the independent reference evaluator
`refEval` (with the specification's left-associative `^`), as a success, or
as the NaN report when that value is NaN. -/
theorem C1_reference_evaluator_equivalence (fs : FnSem) (l : List Char) (ts : List Lexeme)
    (ast : AST) (hg : G .exprL l ts ast) (hlen : l.length ≤ 255) :
    parseString fs l = some (refEval fs ast,
      if (refEval fs ast).isNan then ErrMsg.nanMsg else ErrMsg.success) := by
  unfold parseString parseStringFrom
  dsimp only
  rw [List.take_of_length_le hlen]
  obtain ⟨em', hci⟩ := checkCI_of_G hg
  rw [hci]
  dsimp only
  have hif : (freeData freshModel).lexemesList = ([] : List Lexeme) := rfl
  rw [hif, if_pos rfl]
  rw [G_removeSpaces hg]
  rw [T_tok hg]
  dsimp only
  rw [makeRPN_of_G l ts ast hg]
  dsimp only
  rw [show calculateFullExpression fs (postfixOf ast).length (postfixOf ast)
      = calcN fs (postfixOf ast) from rfl]
  rw [ calc_postfix fs ast]
  dsimp only
  by_cases hn : (refEval fs ast).isNan = true
  · rw [if_pos hn]
    have hv : refEval fs ast = .nan := by
      cases hv0 : refEval fs ast <;> rw [hv0] at hn <;>
        first
        | rfl
        | exact Bool.noConfusion hn
    rw [hv]
    rfl
  · rw [if_neg hn, if_neg hn]
/-- Witness for C1: the concrete valid input `"2+3*4"`, with its grammar
derivation spelled out; the parser returns the reference value `14`. -/
theorem C1_reference_evaluator_equivalence_witness :
    (['2', '+', '3', '*', '4'] : List Char).length ≤ 255
      ∧ parseString fsW ['2', '+', '3', '*', '4']
        = some (MVal.num ⟨14, 1⟩, ErrMsg.success) := by
  have h2 : NumLit ['2'] ⟨2, 1⟩ :=
    NumLit.mk ['2'] [] ⟨2, 1⟩ ⟨2, 1⟩ (MantG.int ['2'] ⟨by decide, fun c hc => by rcases List.mem_singleton.mp hc with rfl; decide⟩) (ExpoG.none ⟨2, 1⟩)
  have h3 : NumLit ['3'] ⟨3, 1⟩ :=
    NumLit.mk ['3'] [] ⟨3, 1⟩ ⟨3, 1⟩ (MantG.int ['3'] ⟨by decide, fun c hc => by rcases List.mem_singleton.mp hc with rfl; decide⟩) (ExpoG.none ⟨3, 1⟩)
  have h4 : NumLit ['4'] ⟨4, 1⟩ :=
    NumLit.mk ['4'] [] ⟨4, 1⟩ ⟨4, 1⟩ (MantG.int ['4'] ⟨by decide, fun c hc => by rcases List.mem_singleton.mp hc with rfl; decide⟩) (ExpoG.none ⟨4, 1⟩)
  have hg : G .exprL ['2', '+', '3', '*', '4']
      [numLex ⟨2, 1⟩, opLex 1 .plus, numLex ⟨3, 1⟩, opLex 2 .mult, numLex ⟨4, 1⟩]
      (.bin .add (.lit ⟨2, 1⟩) (.bin .mul (.lit ⟨3, 1⟩) (.lit ⟨4, 1⟩))) := by
    exact G.exprPlain ['2'] ['+', '3', '*', '4'] [numLex ⟨2, 1⟩]
      [opLex 1 .plus, numLex ⟨3, 1⟩, opLex 2 .mult, numLex ⟨4, 1⟩]
      (.lit ⟨2, 1⟩) (.bin .add (.lit ⟨2, 1⟩) (.bin .mul (.lit ⟨3, 1⟩) (.lit ⟨4, 1⟩)))
      (G.mulMk ['2'] [] [numLex ⟨2, 1⟩] [] (.lit ⟨2, 1⟩) (.lit ⟨2, 1⟩)
        (G.powMk ['2'] [] [numLex ⟨2, 1⟩] [] (.lit ⟨2, 1⟩) (.lit ⟨2, 1⟩)
          (G.num ['2'] ⟨2, 1⟩ h2) (G.powTnil (.lit ⟨2, 1⟩)))
        (G.mulTnil (.lit ⟨2, 1⟩)))
      (G.sumTadd (.lit ⟨2, 1⟩) ['3', '*', '4'] []
        [numLex ⟨3, 1⟩, opLex 2 .mult, numLex ⟨4, 1⟩] []
        (.bin .mul (.lit ⟨3, 1⟩) (.lit ⟨4, 1⟩))
        (.bin .add (.lit ⟨2, 1⟩) (.bin .mul (.lit ⟨3, 1⟩) (.lit ⟨4, 1⟩)))
        (G.mulMk ['3'] ['*', '4'] [numLex ⟨3, 1⟩] [opLex 2 .mult, numLex ⟨4, 1⟩]
          (.lit ⟨3, 1⟩) (.bin .mul (.lit ⟨3, 1⟩) (.lit ⟨4, 1⟩))
          (G.powMk ['3'] [] [numLex ⟨3, 1⟩] [] (.lit ⟨3, 1⟩) (.lit ⟨3, 1⟩)
            (G.num ['3'] ⟨3, 1⟩ h3) (G.powTnil (.lit ⟨3, 1⟩)))
          (G.mulTmul (.lit ⟨3, 1⟩) ['4'] [] [numLex ⟨4, 1⟩] [] (.lit ⟨4, 1⟩)
            (.bin .mul (.lit ⟨3, 1⟩) (.lit ⟨4, 1⟩))
            (G.powMk ['4'] [] [numLex ⟨4, 1⟩] [] (.lit ⟨4, 1⟩) (.lit ⟨4, 1⟩)
              (G.num ['4'] ⟨4, 1⟩ h4) (G.powTnil (.lit ⟨4, 1⟩)))
            (G.mulTnil (.bin .mul (.lit ⟨3, 1⟩) (.lit ⟨4, 1⟩)))))
        (G.sumTnil (.bin .add (.lit ⟨2, 1⟩) (.bin .mul (.lit ⟨3, 1⟩) (.lit ⟨4, 1⟩)))))
  refine ⟨by decide, ?_⟩
  rw [C1_reference_evaluator_equivalence fsW ['2', '+', '3', '*', '4'] _ _ hg (by decide)]
  rfl

end Rpn
